import Mathlib

/-!
Verification of the search / numeral / list-surgery kernels of an Advent of
Code 2022 solution repository.  Each Rust day-module is shallowly embedded:
`HashMap`/`HashSet` become association lists, `VecDeque`/`BinaryHeap` become
lists with explicit pop disciplines, machine integers become `Nat`/`Int`, and
panics become `Option.none` (one layer of `Option` per distinct panic source).
-/

namespace Day25

/-- The five balanced-base-5 digits of `day25.rs` (`SnafuDigit`). -/
inductive SnafuDigit where
  | doubleMinus
  | minus
  | zero
  | one
  | two
deriving DecidableEq, Repr

/-- `SnafuDigit::from_char`; invalid characters are the `Err` case. -/
def SnafuDigit.from_char (c : Char) : Option SnafuDigit :=
  if c = '=' then some .doubleMinus
  else if c = '-' then some .minus
  else if c = '0' then some .zero
  else if c = '1' then some .one
  else if c = '2' then some .two
  else none

/-- `SnafuDigit::to_char`. -/
def SnafuDigit.to_char : SnafuDigit → Char
  | .doubleMinus => '='
  | .minus => '-'
  | .zero => '0'
  | .one => '1'
  | .two => '2'

/-- The signed value a digit contributes per place (`to_isize`'s `multiplier`). -/
def SnafuDigit.multiplier : SnafuDigit → Int
  | .doubleMinus => -2
  | .minus => -1
  | .zero => 0
  | .one => 1
  | .two => 2

/-- The `while n > 0` loop of `SnafuNumber::new`, producing the little-endian
digit vector.  `rem` is `n % 5` (inlined); the `carry` of the previous Rust
iteration is already folded into `n` (the loop sets
`n = (n - rem) / 5 + carry; carry = 0` before re-testing `n > 0`). -/
def snafuNewLoop (n : Nat) : List SnafuDigit :=
  if n = 0 then []
  else if n % 5 = 4 then .minus :: snafuNewLoop ((n - n % 5) / 5 + 1)
  else if n % 5 = 3 then .doubleMinus :: snafuNewLoop ((n - n % 5) / 5 + 1)
  else if n % 5 = 2 then .two :: snafuNewLoop ((n - n % 5) / 5)
  else if n % 5 = 1 then .one :: snafuNewLoop ((n - n % 5) / 5)
  else .zero :: snafuNewLoop ((n - n % 5) / 5)
termination_by n
decreasing_by
  all_goals
    have hle : (n - n % 5) / 5 ≤ n / 5 := Nat.div_le_div_right (Nat.sub_le n _)
    omega

/-- `SnafuNumber::new`: panics (`none`) on negative input, otherwise runs the
digit loop and falls back to a single `Zero` digit for `n = 0`. -/
def SnafuNumber.new (n : Int) : Option (List SnafuDigit) :=
  if n < 0 then none
  else
    let digits := snafuNewLoop n.toNat
    some (if digits.isEmpty then [.zero] else digits)

/-- Helper for `SnafuNumber::to_isize`: the `zip(0..)` index is threaded
explicitly, starting at `i`. -/
def snafuValueFrom (i : Nat) : List SnafuDigit → Int
  | [] => 0
  | d :: rest => d.multiplier * 5 ^ i + snafuValueFrom (i + 1) rest

/-- `SnafuNumber::to_isize`: digit-weighted sum over little-endian digits. -/
def SnafuNumber.to_isize (digits : List SnafuDigit) : Int :=
  snafuValueFrom 0 digits

/-- The `collect::<Result<Vec<_>>>` of `FromStr`: convert each character,
failing on the first invalid one. -/
def snafuDigitsOfChars : List Char → Option (List SnafuDigit)
  | [] => some []
  | c :: rest =>
    match SnafuDigit.from_char c, snafuDigitsOfChars rest with
    | some d, some ds => some (d :: ds)
    | _, _ => none

/-- `FromStr for SnafuNumber`: reverse the characters, convert each digit,
failing on the first invalid character. -/
def SnafuNumber.from_str (s : List Char) : Option (List SnafuDigit) :=
  snafuDigitsOfChars s.reverse

/-- `ToString for SnafuNumber`: print digits most-significant first. -/
def SnafuNumber.to_string (digits : List SnafuDigit) : List Char :=
  (digits.reverse.map SnafuDigit.to_char)

/-- A character is a valid SNAFU digit when `from_char` accepts it. -/
def validSnafuChar (c : Char) : Bool :=
  (SnafuDigit.from_char c).isSome

theorem from_char_to_char (d : SnafuDigit) : SnafuDigit.from_char d.to_char = some d := by
  cases d <;> rfl

theorem to_char_from_char {c : Char} {d : SnafuDigit}
    (h : SnafuDigit.from_char c = some d) : d.to_char = c := by
  unfold SnafuDigit.from_char at h
  split_ifs at h with h1 h2 h3 h4 h5 <;> cases h <;>
    simp_all [SnafuDigit.to_char]

theorem digitsOfChars_sound {l : List Char} {ds : List SnafuDigit}
    (h : snafuDigitsOfChars l = some ds) : ds.map SnafuDigit.to_char = l := by
  induction l generalizing ds with
  | nil => cases h; rfl
  | cons c rest ih =>
    unfold snafuDigitsOfChars at h
    cases hc : SnafuDigit.from_char c with
    | none => rw [hc] at h; cases h
    | some d =>
      cases hrest : snafuDigitsOfChars rest with
      | none => rw [hc, hrest] at h; cases h
      | some ds' =>
        rw [hc, hrest] at h
        cases h
        simp [ih hrest, to_char_from_char hc]

theorem digitsOfChars_total {l : List Char} (h : ∀ c ∈ l, validSnafuChar c) :
    ∃ ds, snafuDigitsOfChars l = some ds := by
  induction l with
  | nil => exact ⟨[], rfl⟩
  | cons c rest ih =>
    obtain ⟨ds, hds⟩ := ih fun x hx => h x (List.mem_cons_of_mem _ hx)
    have hc := h c (List.mem_cons_self c rest)
    rw [validSnafuChar, Option.isSome_iff_exists] at hc
    obtain ⟨d, hd⟩ := hc
    exact ⟨d :: ds, by rw [snafuDigitsOfChars, hd, hds]⟩

theorem snafuValueFrom_succ (i : Nat) (ds : List SnafuDigit) :
    snafuValueFrom (i + 1) ds = 5 * snafuValueFrom i ds := by
  induction ds generalizing i with
  | nil => simp [snafuValueFrom]
  | cons d rest ih =>
    simp only [snafuValueFrom, ih (i + 1), ih i]
    ring

theorem snafuNewLoop_ne_nil {n : Nat} (h : n ≠ 0) : snafuNewLoop n ≠ [] := by
  rw [snafuNewLoop]
  split_ifs <;> simp_all

theorem snafuNewLoop_value (n : Nat) : snafuValueFrom 0 (snafuNewLoop n) = n := by
  induction n using snafuNewLoop.induct with
  | case1 => simp [snafuNewLoop, snafuValueFrom]
  | case2 n hn h4 ih =>
    rw [snafuNewLoop]
    simp only [if_neg hn, if_pos h4]
    simp only [snafuValueFrom, snafuValueFrom_succ, ih, SnafuDigit.multiplier, pow_zero]
    omega
  | case3 n hn h4 h3 ih =>
    rw [snafuNewLoop]
    simp only [if_neg hn, if_neg h4, if_pos h3]
    simp only [snafuValueFrom, snafuValueFrom_succ, ih, SnafuDigit.multiplier, pow_zero]
    omega
  | case4 n hn h4 h3 h2 ih =>
    rw [snafuNewLoop]
    simp only [if_neg hn, if_neg h4, if_neg h3, if_pos h2]
    simp only [snafuValueFrom, snafuValueFrom_succ, ih, SnafuDigit.multiplier, pow_zero]
    omega
  | case5 n hn h4 h3 h2 h1 ih =>
    rw [snafuNewLoop]
    simp only [if_neg hn, if_neg h4, if_neg h3, if_neg h2, if_pos h1]
    simp only [snafuValueFrom, snafuValueFrom_succ, ih, SnafuDigit.multiplier, pow_zero]
    omega
  | case6 n hn h4 h3 h2 h1 ih =>
    rw [snafuNewLoop]
    simp only [if_neg hn, if_neg h4, if_neg h3, if_neg h2, if_neg h1]
    simp only [snafuValueFrom, snafuValueFrom_succ, ih, SnafuDigit.multiplier, pow_zero]
    omega

/-- C4: the SNAFU (balanced base-5) conversion round-trips in both
directions: for every string of valid SNAFU digit characters,
`to_string (from_str s) = s`; and for every representable (nonnegative)
integer `n`, `to_isize (new n) = n`. -/
theorem c4_snafu_round_trip :
    (∀ s : List Char, (∀ c ∈ s, validSnafuChar c) →
      ∃ ds, SnafuNumber.from_str s = some ds ∧ SnafuNumber.to_string ds = s) ∧
    (∀ n : Int, 0 ≤ n →
      ∃ ds, SnafuNumber.new n = some ds ∧ SnafuNumber.to_isize ds = n) := by
  constructor
  · intro s hs
    obtain ⟨ds, hds⟩ :=
      digitsOfChars_total (l := s.reverse) fun c hc => hs c (List.mem_reverse.mp hc)
    refine ⟨ds, hds, ?_⟩
    have hmap := digitsOfChars_sound hds
    rw [SnafuNumber.to_string, List.map_reverse, hmap, List.reverse_reverse]
  · intro n hn
    rw [SnafuNumber.new, if_neg (by omega)]
    by_cases h0 : n.toNat = 0
    · rw [h0]
      refine ⟨[.zero], by simp [snafuNewLoop], ?_⟩
      have : n = 0 := by omega
      simp [this, SnafuNumber.to_isize, snafuValueFrom, SnafuDigit.multiplier]
    · have hne := snafuNewLoop_ne_nil h0
      refine ⟨snafuNewLoop n.toNat, ?_, ?_⟩
      · simp only [Option.some.injEq, ite_eq_right_iff]
        intro hemp
        exact absurd (List.isEmpty_iff.mp hemp) hne
      · rw [SnafuNumber.to_isize, snafuNewLoop_value, Int.toNat_of_nonneg hn]

/-- Witness for C4 at concrete inputs `"1="` and `2022`. -/
theorem c4_snafu_round_trip_witness :
    (∃ ds, SnafuNumber.from_str ['1', '='] = some ds ∧
      SnafuNumber.to_string ds = ['1', '=']) ∧
    (∃ ds, SnafuNumber.new 2022 = some ds ∧ SnafuNumber.to_isize ds = 2022) :=
  ⟨c4_snafu_round_trip.1 ['1', '='] (by decide),
   c4_snafu_round_trip.2 2022 (by decide)⟩

end Day25

namespace Day24

/-- `day24.rs`'s `Coord` (a pair of `isize`). -/
structure Coord where
  x : Int
  y : Int
deriving DecidableEq, Repr

/-- `Coord::iter_moves`: the four cardinal steps plus waiting in place. -/
def Coord.iter_moves (c : Coord) : List Coord :=
  [⟨c.x - 1, c.y⟩, ⟨c.x, c.y - 1⟩, ⟨c.x + 1, c.y⟩, ⟨c.x, c.y + 1⟩, c]

/-- `Coord::manhattan_distance` (the `as usize` cast is `Int.toNat` on a
nonnegative value). -/
def Coord.manhattan_distance (a b : Coord) : Nat :=
  ((a.x - b.x).natAbs + (a.y - b.y).natAbs)

/-- `day24.rs`'s `Direction`. -/
inductive Direction where
  | up
  | down
  | left
  | right
deriving DecidableEq, Repr

/-- `day24.rs`'s `Blizzard`. -/
structure Blizzard where
  origin : Coord
  direction : Direction
  width : Int
  height : Int

/-- The unit step vector of `Blizzard::position`'s `match`. -/
def Direction.delta : Direction → Coord
  | .up => ⟨0, -1⟩
  | .down => ⟨0, 1⟩
  | .left => ⟨-1, 0⟩
  | .right => ⟨1, 0⟩

/-- `Blizzard::position`: wrap the interior offset with `rem_euclid`
(Lean's `Int.emod`, which is also Euclidean). -/
def Blizzard.position (b : Blizzard) (t : Nat) : Coord :=
  let delta := b.direction.delta
  ⟨((b.origin.x - 1) + delta.x * (t : Int)) % (b.width - 2) + 1,
   ((b.origin.y - 1) + delta.y * (t : Int)) % (b.height - 2) + 1⟩

/-- `day24.rs`'s `Map`. -/
structure Map where
  walls : List Coord
  blizzards : List Blizzard
  start : Coord
  target : Coord

/-- An A* frontier entry `Reverse((minute + manhattan, minute, pos))`. -/
abbrev Entry := Nat × Nat × Coord

/-- The `BinaryHeap<Reverse<..>>` ordering: lexicographic on
(priority, minute, x, y), mirroring the derived `Ord` of the tuple. -/
def entryLe (a b : Entry) : Bool :=
  decide (a.1 < b.1) ||
    (decide (a.1 = b.1) &&
      (decide (a.2.1 < b.2.1) ||
        (decide (a.2.1 = b.2.1) &&
          (decide (a.2.2.x < b.2.2.x) ||
            (decide (a.2.2.x = b.2.2.x) && decide (a.2.2.y ≤ b.2.2.y))))))

/-- Pop a minimum entry from the frontier (the `BinaryHeap` pop). -/
def popMin : List Entry → Option (Entry × List Entry)
  | [] => none
  | e :: rest =>
    match popMin rest with
    | none => some (e, [])
    | some (m, rest') =>
      if entryLe e m then some (e, m :: rest') else some (m, e :: rest')

/-- The body of the move loop in `Map::earliest_arrival`: each candidate move
is dropped if it is a wall, hits a blizzard at `next_minute`, or is already
explored; otherwise it is recorded in `explored` and pushed with priority
`next_minute + manhattan_distance(target)`. -/
def exploreMoves (m : Map) (target : Coord) (next_minute : Nat) :
    List Coord → List (Nat × Coord) × List Entry → List (Nat × Coord) × List Entry
  | [], st => st
  | n :: ns, (explored, pushed) =>
    if n ∈ m.walls then exploreMoves m target next_minute ns (explored, pushed)
    else if m.blizzards.any (fun b => b.position next_minute = n) then
      exploreMoves m target next_minute ns (explored, pushed)
    else if (next_minute, n) ∈ explored then
      exploreMoves m target next_minute ns (explored, pushed)
    else
      exploreMoves m target next_minute ns ((next_minute, n) :: explored,
        pushed ++ [(next_minute + n.manhattan_distance target, next_minute, n)])

/-- The two ways the `while let` loop of `earliest_arrival` can end. -/
inductive AStarOutcome where
  | arrived (t : Nat)
  | panic
deriving DecidableEq, Repr

/-- The A* loop of `Map::earliest_arrival`.  `fuel` bounds iterations (the
Rust loop's termination is not guaranteed); `some .panic` is the
`unreachable!()` hit when the frontier empties. -/
def earliestLoop (m : Map) (target : Coord) :
    Nat → List (Nat × Coord) → List Entry → Option AStarOutcome
  | 0, _, _ => none
  | fuel + 1, explored, frontier =>
    match popMin frontier with
    | none => some .panic
    | some ((_, curr_minute, pos), rest) =>
      if pos = target then some (.arrived curr_minute)
      else
        let st := exploreMoves m target (curr_minute + 1) pos.iter_moves (explored, [])
        earliestLoop m target fuel st.1 (rest ++ st.2)

/-- `Map::earliest_arrival` (fuelled). -/
def Map.earliest_arrival (m : Map) (fuel : Nat) (starting_minute : Nat)
    (start target : Coord) : Option AStarOutcome :=
  earliestLoop m target fuel []
    [(starting_minute + start.manhattan_distance target, starting_minute, start)]

/-- `ReachAt m t₀ c₀ t z`: starting at `c₀` at minute `t₀`, the expedition can
occupy `z` at minute `t`, moving one step in a cardinal direction or waiting
each minute, never entering a wall or a cell holding a blizzard at that
minute (the initial cell is not checked, as in the code). -/
inductive ReachAt (m : Map) (t₀ : Nat) (c₀ : Coord) : Nat → Coord → Prop
  | refl : ReachAt m t₀ c₀ t₀ c₀
  | snoc {t y z} : ReachAt m t₀ c₀ t y → z ∈ y.iter_moves → z ∉ m.walls →
      (∀ b ∈ m.blizzards, b.position (t + 1) ≠ z) → ReachAt m t₀ c₀ (t + 1) z

theorem emod_period (a m : Int) : (a + m) % m = a % m := by
  have h : a + m = a + 1 * m := by ring
  rw [h, Int.add_mul_emod_self]

theorem emod_period_sub (a m : Int) : (a - m) % m = a % m := by
  have h : a - m = a + (-1) * m := by ring
  rw [h, Int.add_mul_emod_self]

/-- C10: blizzard positions are a pure periodic function of time.  With the
origin strictly inside the border, `position 0 = origin`; horizontal blizzards
have period `width - 2` and vertical ones period `height - 2`. -/
theorem c10_blizzard_periodic (b : Blizzard)
    (hw : 3 ≤ b.width) (hh : 3 ≤ b.height)
    (hx1 : 1 ≤ b.origin.x) (hx2 : b.origin.x ≤ b.width - 2)
    (hy1 : 1 ≤ b.origin.y) (hy2 : b.origin.y ≤ b.height - 2) :
    b.position 0 = b.origin
    ∧ ((b.direction = .left ∨ b.direction = .right) →
        ∀ t, b.position (t + (b.width - 2).toNat) = b.position t)
    ∧ ((b.direction = .up ∨ b.direction = .down) →
        ∀ t, b.position (t + (b.height - 2).toNat) = b.position t) := by
  have hwk : ((b.width - 2).toNat : Int) = b.width - 2 :=
    Int.toNat_of_nonneg (by omega)
  have hhk : ((b.height - 2).toNat : Int) = b.height - 2 :=
    Int.toNat_of_nonneg (by omega)
  refine ⟨?_, ?_, ?_⟩
  · have hx : (b.origin.x - 1) % (b.width - 2) = b.origin.x - 1 :=
      Int.emod_eq_of_lt (by omega) (by omega)
    have hy : (b.origin.y - 1) % (b.height - 2) = b.origin.y - 1 :=
      Int.emod_eq_of_lt (by omega) (by omega)
    have hor : b.origin = ⟨b.origin.x, b.origin.y⟩ := rfl
    rw [Blizzard.position, hor]
    cases b.direction <;>
      simp only [Direction.delta, Nat.cast_zero, mul_zero, add_zero, hx, hy,
        Coord.mk.injEq] <;>
      omega
  · rintro (hd | hd) t <;> rw [Blizzard.position, Blizzard.position, hd] <;>
      simp only [Direction.delta, Coord.mk.injEq, zero_mul, add_zero] <;>
      refine ⟨?_, trivial⟩
    · have h : b.origin.x - 1 + -1 * ((t : Int) + (b.width - 2).toNat) =
          b.origin.x - 1 + -1 * (t : Int) - (b.width - 2) := by rw [hwk]; ring
      rw [Nat.cast_add, h, emod_period_sub]
    · have h : b.origin.x - 1 + 1 * ((t : Int) + (b.width - 2).toNat) =
          b.origin.x - 1 + 1 * (t : Int) + (b.width - 2) := by rw [hwk]; ring
      rw [Nat.cast_add, h, emod_period]
  · rintro (hd | hd) t <;> rw [Blizzard.position, Blizzard.position, hd] <;>
      simp only [Direction.delta, Coord.mk.injEq, zero_mul, add_zero] <;>
      refine ⟨trivial, ?_⟩
    · have h : b.origin.y - 1 + -1 * ((t : Int) + (b.height - 2).toNat) =
          b.origin.y - 1 + -1 * (t : Int) - (b.height - 2) := by rw [hhk]; ring
      rw [Nat.cast_add, h, emod_period_sub]
    · have h : b.origin.y - 1 + 1 * ((t : Int) + (b.height - 2).toNat) =
          b.origin.y - 1 + 1 * (t : Int) + (b.height - 2) := by rw [hhk]; ring
      rw [Nat.cast_add, h, emod_period]

/-- Witness for C10: a rightward blizzard at `(1, 1)` in a `4 × 3` map. -/
theorem c10_blizzard_periodic_witness :
    Blizzard.position ⟨⟨1, 1⟩, .right, 4, 3⟩ 0 = ⟨1, 1⟩
    ∧ ((Direction.right = Direction.left ∨ Direction.right = Direction.right) →
        ∀ t, Blizzard.position ⟨⟨1, 1⟩, .right, 4, 3⟩ (t + ((4 : Int) - 2).toNat) =
          Blizzard.position ⟨⟨1, 1⟩, .right, 4, 3⟩ t)
    ∧ ((Direction.right = Direction.up ∨ Direction.right = Direction.down) →
        ∀ t, Blizzard.position ⟨⟨1, 1⟩, .right, 4, 3⟩ (t + ((3 : Int) - 2).toNat) =
          Blizzard.position ⟨⟨1, 1⟩, .right, 4, 3⟩ t) :=
  c10_blizzard_periodic ⟨⟨1, 1⟩, .right, 4, 3⟩ (by decide) (by decide)
    (by decide) (by decide) (by decide) (by decide)

theorem entryLe_fst {a b : Entry} (h : entryLe a b = true) : a.1 ≤ b.1 := by
  simp only [entryLe, Bool.or_eq_true, Bool.and_eq_true, decide_eq_true_eq] at h
  rcases h with h | ⟨h, _⟩ <;> omega

theorem entryLe_false_fst {a b : Entry} (h : entryLe a b = false) : b.1 ≤ a.1 := by
  simp only [entryLe, Bool.or_eq_false_iff, Bool.and_eq_false_iff,
    decide_eq_false_iff_not] at h
  omega

theorem popMin_eq_none : ∀ {l : List Entry}, popMin l = none → l = [] := by
  intro l h
  cases l with
  | nil => rfl
  | cons a rest =>
    rw [popMin] at h
    cases hr : popMin rest with
    | none =>
      rw [hr] at h
      cases h
    | some p =>
      obtain ⟨m, r'⟩ := p
      rw [hr] at h
      dsimp only at h
      split_ifs at h

theorem popMin_spec : ∀ (l : List Entry) (e : Entry) (r : List Entry),
    popMin l = some (e, r) → (e :: r).Perm l ∧ ∀ x ∈ l, e.1 ≤ x.1 := by
  intro l
  induction l with
  | nil => intro e r h; cases h
  | cons a rest ih =>
    intro e r h
    rw [popMin] at h
    cases hr : popMin rest with
    | none =>
      rw [hr] at h
      cases h
      have hrest : rest = [] := popMin_eq_none hr
      subst hrest
      exact ⟨List.Perm.refl _, fun x hx => by
        rw [List.mem_singleton] at hx
        subst hx
        exact Nat.le_refl _⟩
    | some p =>
      obtain ⟨m, r'⟩ := p
      rw [hr] at h
      dsimp only at h
      obtain ⟨hperm, hmin⟩ := ih m r' hr
      split_ifs at h with hle
      · cases h
        refine ⟨hperm.cons a, ?_⟩
        intro x hx
        rcases List.mem_cons.mp hx with rfl | hx'
        · exact Nat.le_refl _
        · exact Nat.le_trans (entryLe_fst hle) (hmin x hx')
      · cases h
        refine ⟨(List.Perm.swap a e r').trans (hperm.cons a), ?_⟩
        intro x hx
        rcases List.mem_cons.mp hx with rfl | hx'
        · exact entryLe_false_fst (Bool.eq_false_iff.mpr hle)
        · exact hmin x hx'

theorem manhattan_self (c : Coord) : c.manhattan_distance c = 0 := by
  simp [Coord.manhattan_distance]

theorem manhattan_triangle (a b c : Coord) :
    a.manhattan_distance c ≤ a.manhattan_distance b + b.manhattan_distance c := by
  unfold Coord.manhattan_distance
  have hx := Int.natAbs_add_le (a.x - b.x) (b.x - c.x)
  have hy := Int.natAbs_add_le (a.y - b.y) (b.y - c.y)
  have ex : a.x - c.x = (a.x - b.x) + (b.x - c.x) := by ring
  have ey : a.y - c.y = (a.y - b.y) + (b.y - c.y) := by ring
  rw [ex, ey]
  omega

theorem move_manhattan {y z : Coord} (h : z ∈ y.iter_moves) :
    y.manhattan_distance z ≤ 1 := by
  simp only [Coord.iter_moves, List.mem_cons, List.not_mem_nil, or_false] at h
  rcases h with rfl | rfl | rfl | rfl | rfl <;>
    simp [Coord.manhattan_distance]

theorem reach_bounds {m : Map} {t₀ : Nat} {c₀ : Coord} {t : Nat} {z : Coord}
    (h : ReachAt m t₀ c₀ t z) :
    t₀ ≤ t ∧ c₀.manhattan_distance z ≤ t - t₀ := by
  induction h with
  | refl => simp [manhattan_self]
  | snoc hre hmv hw hb ih =>
    rename_i t y z
    obtain ⟨h1, h2⟩ := ih
    refine ⟨by omega, ?_⟩
    have htri := manhattan_triangle c₀ y z
    have hstep := move_manhattan hmv
    omega

theorem exploreMoves_char (m : Map) (target : Coord) (nm : Nat) :
    ∀ (ns : List Coord) (explored : List (Nat × Coord)) (pushed : List Entry),
      ∃ new : List Coord,
        exploreMoves m target nm ns (explored, pushed) =
          ((new.map (fun n => (nm, n))).reverse ++ explored,
            pushed ++ new.map (fun n => (nm + n.manhattan_distance target, nm, n))) ∧
        new.Nodup ∧
        (∀ n ∈ new, (nm, n) ∉ explored) ∧
        (∀ n ∈ new, n ∉ m.walls ∧ ∀ b ∈ m.blizzards, b.position nm ≠ n) ∧
        (∀ n ∈ new, n ∈ ns) ∧
        (∀ n ∈ ns, n ∉ m.walls → (∀ b ∈ m.blizzards, b.position nm ≠ n) →
          (nm, n) ∈ explored ∨ n ∈ new) := by
  intro ns
  induction ns with
  | nil =>
    intro explored pushed
    exact ⟨[], by simp [exploreMoves], by simp, by simp, by simp, by simp, by simp⟩
  | cons n ns ih =>
    intro explored pushed
    rw [exploreMoves]
    by_cases hw : n ∈ m.walls
    · rw [if_pos hw]
      obtain ⟨new, he, hnd, hfresh, hfree, hsub, hcomp⟩ := ih explored pushed
      refine ⟨new, he, hnd, hfresh, hfree,
        fun x hx => List.mem_cons_of_mem _ (hsub x hx), ?_⟩
      intro x hx hxw hxb
      rcases List.mem_cons.mp hx with rfl | hx'
      · exact absurd hxw (fun hc => hc hw)
      · exact hcomp x hx' hxw hxb
    · rw [if_neg hw]
      by_cases hbl : m.blizzards.any (fun b => decide (b.position nm = n))
      · rw [if_pos hbl]
        obtain ⟨new, he, hnd, hfresh, hfree, hsub, hcomp⟩ := ih explored pushed
        refine ⟨new, he, hnd, hfresh, hfree,
          fun x hx => List.mem_cons_of_mem _ (hsub x hx), ?_⟩
        intro x hx hxw hxb
        rcases List.mem_cons.mp hx with rfl | hx'
        · rw [List.any_eq_true] at hbl
          obtain ⟨b, hbmem, hbp⟩ := hbl
          rw [decide_eq_true_eq] at hbp
          exact absurd hbp (hxb b hbmem)
        · exact hcomp x hx' hxw hxb
      · rw [if_neg hbl]
        have hbl' : ∀ b ∈ m.blizzards, b.position nm ≠ n := by
          intro b hb hc
          exact hbl (List.any_eq_true.mpr ⟨b, hb, decide_eq_true hc⟩)
        by_cases hex : (nm, n) ∈ explored
        · rw [if_pos hex]
          obtain ⟨new, he, hnd, hfresh, hfree, hsub, hcomp⟩ := ih explored pushed
          refine ⟨new, he, hnd, hfresh, hfree,
            fun x hx => List.mem_cons_of_mem _ (hsub x hx), ?_⟩
          intro x hx hxw hxb
          rcases List.mem_cons.mp hx with rfl | hx'
          · exact Or.inl hex
          · exact hcomp x hx' hxw hxb
        · rw [if_neg hex]
          obtain ⟨new, he, hnd, hfresh, hfree, hsub, hcomp⟩ :=
            ih ((nm, n) :: explored) (pushed ++ [(nm + n.manhattan_distance target, nm, n)])
          refine ⟨n :: new, ?_, ?_, ?_, ?_, ?_, ?_⟩
          · rw [he]
            simp
          · refine List.nodup_cons.mpr ⟨?_, hnd⟩
            intro hn
            exact (hfresh n hn) (List.mem_cons_self _ _)
          · intro x hx
            rcases List.mem_cons.mp hx with rfl | hx'
            · exact hex
            · exact fun hxe => (hfresh x hx') (List.mem_cons_of_mem _ hxe)
          · intro x hx
            rcases List.mem_cons.mp hx with rfl | hx'
            · exact ⟨hw, hbl'⟩
            · exact hfree x hx'
          · intro x hx
            rcases List.mem_cons.mp hx with rfl | hx'
            · exact List.mem_cons_self _ _
            · exact List.mem_cons_of_mem _ (hsub x hx')
          · intro x hx hxw hxb
            rcases List.mem_cons.mp hx with rfl | hx'
            · exact Or.inr (List.mem_cons_self _ _)
            · rcases hcomp x hx' hxw hxb with hex' | hnew'
              · rcases List.mem_cons.mp hex' with heq | hex''
                · exact Or.inr (by rw [(Prod.mk.injEq _ _ _ _).mp heq |>.2]; exact List.mem_cons_self _ _)
                · exact Or.inl hex''
              · exact Or.inr (List.mem_cons_of_mem _ hnew')

/-- The A* loop invariant.  Frontier entries are reachable states carrying
priority `minute + manhattan(pos, target)`; explored states are reachable;
target states are never settled; settled states have all valid successors
explored; explored has no duplicates and only minutes after `s0`. -/
structure AInv (m : Map) (s0 : Nat) (start target : Coord)
    (explored : List (Nat × Coord)) (frontier : List Entry) : Prop where
  fsound : ∀ e ∈ frontier, ReachAt m s0 start e.2.1 e.2.2 ∧
    e.1 = e.2.1 + e.2.2.manhattan_distance target
  esound : ∀ p ∈ explored, ReachAt m s0 start p.1 p.2
  target_fresh : ∀ t, ((t, target) ∈ explored ∨ (t = s0 ∧ target = start)) →
    ∃ pri, (pri, t, target) ∈ frontier
  closed : ∀ t p, ((t, p) ∈ explored ∨ (t = s0 ∧ p = start)) →
    (∀ pri, (pri, t, p) ∉ frontier) → p ≠ target →
    ∀ z, z ∈ Coord.iter_moves p → z ∉ m.walls →
      (∀ b ∈ m.blizzards, b.position (t + 1) ≠ z) → (t + 1, z) ∈ explored
  enodup : explored.Nodup
  emint : ∀ p ∈ explored, s0 < p.1
  fmint : ∀ e ∈ frontier, s0 ≤ e.2.1

theorem ainv_init (m : Map) (s0 : Nat) (start target : Coord) :
    AInv m s0 start target []
      [(s0 + start.manhattan_distance target, s0, start)] := by
  refine ⟨?_, ?_, ?_, ?_, ?_, ?_, ?_⟩
  · intro e he
    rw [List.mem_singleton] at he
    subst he
    exact ⟨.refl, rfl⟩
  · intro p hp
    cases hp
  · intro t ht
    rcases ht with h | ⟨ht, heq⟩
    · cases h
    · refine ⟨s0 + start.manhattan_distance target, ?_⟩
      rw [List.mem_singleton, ht, heq]
  · intro t p hdisc hfr _ z _ _ _
    rcases hdisc with h | ⟨ht, hp⟩
    · cases h
    · exact absurd (by rw [ht, hp]; exact List.mem_singleton.mpr rfl :
        (s0 + start.manhattan_distance target, t, p) ∈
          [(s0 + start.manhattan_distance target, s0, start)])
        (hfr (s0 + start.manhattan_distance target))
  · exact List.nodup_nil
  · intro p hp
    cases hp
  · intro e he
    rw [List.mem_singleton] at he
    subst he
    exact Nat.le_refl s0

theorem ainv_cover {m : Map} {s0 : Nat} {start target : Coord}
    {explored : List (Nat × Coord)} {frontier : List Entry}
    (inv : AInv m s0 start target explored frontier) :
    ∀ (t' : Nat) (z : Coord), ReachAt m s0 start t' z →
      ((t', z) ∈ explored ∨ (t' = s0 ∧ z = start)) ∨
      ∃ e ∈ frontier, ReachAt m e.2.1 e.2.2 t' z := by
  intro t' z hre
  induction hre with
  | refl => exact Or.inl (Or.inr ⟨rfl, rfl⟩)
  | snoc hre hmv hw hb ih =>
    rename_i t y z
    rcases ih with hdisc | ⟨e, he, hsuffix⟩
    · by_cases hfr : ∃ pri, (pri, t, y) ∈ frontier
      · obtain ⟨pri, hp⟩ := hfr
        exact Or.inr ⟨(pri, t, y), hp, ReachAt.snoc .refl hmv hw hb⟩
      · push_neg at hfr
        by_cases hyt : y = target
        · subst hyt
          obtain ⟨pri, hp⟩ := inv.target_fresh t hdisc
          exact absurd hp (hfr pri)
        · exact Or.inl (Or.inl (inv.closed t y hdisc hfr hyt z hmv hw hb))
    · exact Or.inr ⟨e, he, hsuffix.snoc hmv hw hb⟩

theorem ainv_pop_target {m : Map} {s0 : Nat} {start target : Coord}
    {explored : List (Nat × Coord)} {frontier : List Entry}
    {pri₀ t₀ : Nat} {rest : List Entry}
    (inv : AInv m s0 start target explored frontier)
    (hpop : popMin frontier = some ((pri₀, t₀, target), rest)) :
    ReachAt m s0 start t₀ target ∧
      ∀ t', ReachAt m s0 start t' target → t₀ ≤ t' := by
  obtain ⟨hperm, hmin⟩ := popMin_spec frontier _ _ hpop
  have hpopmem : (pri₀, t₀, target) ∈ frontier :=
    hperm.mem_iff.mp (List.mem_cons_self _ _)
  obtain ⟨hre₀, hpri₀⟩ := inv.fsound _ hpopmem
  dsimp only at hpri₀
  rw [manhattan_self] at hpri₀
  refine ⟨hre₀, ?_⟩
  intro t' hre'
  rcases ainv_cover inv t' target hre' with hdisc | ⟨e, he, hsuffix⟩
  · obtain ⟨pri', hp'⟩ := inv.target_fresh t' hdisc
    have h1 := (inv.fsound _ hp').2
    dsimp only at h1
    rw [manhattan_self] at h1
    have h2 := hmin _ hp'
    dsimp only at h2
    omega
  · obtain ⟨_, hpri_e⟩ := inv.fsound e he
    obtain ⟨hle_t, hman⟩ := reach_bounds hsuffix
    have h2 := hmin e he
    dsimp only at h2
    omega

theorem ainv_step {m : Map} {s0 : Nat} {start target : Coord}
    {explored : List (Nat × Coord)} {frontier : List Entry}
    {pri₀ t₀ : Nat} {p₀ : Coord} {rest : List Entry}
    (inv : AInv m s0 start target explored frontier)
    (hpop : popMin frontier = some ((pri₀, t₀, p₀), rest))
    (hne : p₀ ≠ target)
    {new : List Coord}
    (hnd : new.Nodup)
    (hfresh : ∀ n ∈ new, (t₀ + 1, n) ∉ explored)
    (hfree : ∀ n ∈ new, n ∉ m.walls ∧ ∀ b ∈ m.blizzards, b.position (t₀ + 1) ≠ n)
    (hsub : ∀ n ∈ new, n ∈ p₀.iter_moves)
    (hcomp : ∀ n ∈ p₀.iter_moves, n ∉ m.walls →
      (∀ b ∈ m.blizzards, b.position (t₀ + 1) ≠ n) →
      (t₀ + 1, n) ∈ explored ∨ n ∈ new) :
    AInv m s0 start target ((new.map (fun n => (t₀ + 1, n))).reverse ++ explored)
      (rest ++ new.map (fun n => (t₀ + 1 + n.manhattan_distance target, t₀ + 1, n))) := by
  obtain ⟨hperm, _⟩ := popMin_spec frontier _ _ hpop
  have hfr_mem : ∀ x : Entry, x ∈ frontier ↔ x = (pri₀, t₀, p₀) ∨ x ∈ rest := by
    intro x
    rw [← hperm.mem_iff, List.mem_cons]
  have hpopmem : (pri₀, t₀, p₀) ∈ frontier :=
    (hfr_mem _).mpr (Or.inl rfl)
  have hre₀ : ReachAt m s0 start t₀ p₀ := (inv.fsound _ hpopmem).1
  have hs0t₀ : s0 ≤ t₀ := inv.fmint _ hpopmem
  have hmem_new : ∀ p : Nat × Coord,
      p ∈ (new.map (fun n => (t₀ + 1, n))).reverse ↔ p.2 ∈ new ∧ p.1 = t₀ + 1 := by
    intro p
    rw [List.mem_reverse, List.mem_map]
    constructor
    · rintro ⟨n, hn, rfl⟩
      exact ⟨hn, rfl⟩
    · rintro ⟨h1, h2⟩
      exact ⟨p.2, h1, by rw [← h2]⟩
  have hmem_push : ∀ e : Entry,
      e ∈ new.map (fun n => (t₀ + 1 + n.manhattan_distance target, t₀ + 1, n)) ↔
        e.2.2 ∈ new ∧ e.2.1 = t₀ + 1 ∧
          e.1 = t₀ + 1 + e.2.2.manhattan_distance target := by
    intro e
    rw [List.mem_map]
    constructor
    · rintro ⟨n, hn, rfl⟩
      exact ⟨hn, rfl, rfl⟩
    · rintro ⟨h1, h2, h3⟩
      refine ⟨e.2.2, h1, ?_⟩
      obtain ⟨ep, et, ec⟩ := e
      simp only at h2 h3
      rw [h2, h3]
  have hreach_new : ∀ n ∈ new, ReachAt m s0 start (t₀ + 1) n := fun n hn =>
    hre₀.snoc (hsub n hn) (hfree n hn).1 (hfree n hn).2
  refine ⟨?_, ?_, ?_, ?_, ?_, ?_, ?_⟩
  · intro e he
    rcases List.mem_append.mp he with he' | he'
    · exact inv.fsound e ((hfr_mem e).mpr (Or.inr he'))
    · obtain ⟨h1, h2, h3⟩ := (hmem_push e).mp he'
      refine ⟨?_, by rw [h3, h2]⟩
      rw [h2]
      exact hreach_new _ h1
  · intro p hp
    rcases List.mem_append.mp hp with hp' | hp'
    · obtain ⟨h1, h2⟩ := (hmem_new p).mp hp'
      rw [h2]
      exact hreach_new _ h1
    · exact inv.esound p hp'
  · intro t ht
    rcases ht with hex | hinit
    · rcases List.mem_append.mp hex with hex' | hex'
      · obtain ⟨h1, h2⟩ := (hmem_new (t, target)).mp hex'
        dsimp only at h1 h2
        refine ⟨t₀ + 1 + Coord.manhattan_distance target target, ?_⟩
        rw [h2]
        exact List.mem_append.mpr (Or.inr ((hmem_push _).mpr ⟨h1, rfl, rfl⟩))
      · obtain ⟨pri, hp⟩ := inv.target_fresh t (Or.inl hex')
        rcases (hfr_mem _).mp hp with heq | hrest
        · exact absurd (congrArg (fun e : Entry => e.2.2) heq).symm hne
        · exact ⟨pri, List.mem_append.mpr (Or.inl hrest)⟩
    · obtain ⟨pri, hp⟩ := inv.target_fresh t (Or.inr hinit)
      rcases (hfr_mem _).mp hp with heq | hrest
      · exact absurd (congrArg (fun e : Entry => e.2.2) heq).symm hne
      · exact ⟨pri, List.mem_append.mpr (Or.inl hrest)⟩
  · intro t p hdisc hfr htarget z hz hw hb
    have hdisc_old : ((t, p) ∈ explored ∨ (t = s0 ∧ p = start)) ∨
        (p ∈ new ∧ t = t₀ + 1) := by
      rcases hdisc with hex | hinit
      · rcases List.mem_append.mp hex with hex' | hex'
        · exact Or.inr ((hmem_new (t, p)).mp hex')
        · exact Or.inl (Or.inl hex')
      · exact Or.inl (Or.inr hinit)
    rcases hdisc_old with hold | ⟨hnew, ht⟩
    · by_cases hpp : t = t₀ ∧ p = p₀
      · obtain ⟨rfl, rfl⟩ := hpp
        rcases hcomp z hz hw hb with hex | hznew
        · exact List.mem_append.mpr (Or.inr hex)
        · exact List.mem_append.mpr (Or.inl ((hmem_new _).mpr ⟨hznew, rfl⟩))
      · have hfr_old : ∀ pri, (pri, t, p) ∉ frontier := by
          intro pri hmem
          rcases (hfr_mem _).mp hmem with heq | hrest
          · have h1 := congrArg (fun e : Entry => e.2.1) heq
            have h2 := congrArg (fun e : Entry => e.2.2) heq
            exact hpp ⟨h1, h2⟩
          · exact hfr pri (List.mem_append.mpr (Or.inl hrest))
        exact List.mem_append.mpr
          (Or.inr (inv.closed t p hold hfr_old htarget z hz hw hb))
    · subst ht
      exact absurd (List.mem_append.mpr (Or.inr ((hmem_push
        (t₀ + 1 + p.manhattan_distance target, t₀ + 1, p)).mpr ⟨hnew, rfl, rfl⟩)))
        (hfr (t₀ + 1 + p.manhattan_distance target))
  · rw [List.nodup_append]
    refine ⟨?_, inv.enodup, ?_⟩
    · rw [List.nodup_reverse]
      exact hnd.map (fun a b h => (Prod.mk.injEq _ _ _ _).mp h |>.2)
    · intro a ha hb
      obtain ⟨h1, h2⟩ := (hmem_new a).mp ha
      have : a = (t₀ + 1, a.2) := by rw [← h2]
      rw [this] at hb
      exact hfresh a.2 h1 hb
  · intro p hp
    rcases List.mem_append.mp hp with hp' | hp'
    · obtain ⟨_, h2⟩ := (hmem_new p).mp hp'
      omega
    · exact inv.emint p hp'
  · intro e he
    rcases List.mem_append.mp he with he' | he'
    · exact inv.fmint e ((hfr_mem e).mpr (Or.inr he'))
    · obtain ⟨_, h2, _⟩ := (hmem_push e).mp he'
      omega

theorem earliestLoop_correct (m : Map) (s0 : Nat) (start target : Coord) :
    ∀ (fuel : Nat) (explored : List (Nat × Coord)) (frontier : List Entry),
      AInv m s0 start target explored frontier →
      ∀ t, earliestLoop m target fuel explored frontier = some (.arrived t) →
        ReachAt m s0 start t target ∧
          ∀ t', ReachAt m s0 start t' target → t ≤ t' := by
  intro fuel
  induction fuel with
  | zero => intro _ _ _ t h; cases h
  | succ fuel ih =>
    intro explored frontier inv t h
    rw [earliestLoop] at h
    cases hpop : popMin frontier with
    | none =>
      rw [hpop] at h
      cases h
    | some pr =>
      obtain ⟨⟨pri₀, t₀, pos⟩, rest⟩ := pr
      rw [hpop] at h
      dsimp only at h
      by_cases hpt : pos = target
      · subst hpt
        rw [if_pos rfl] at h
        cases h
        exact ainv_pop_target inv hpop
      · rw [if_neg hpt] at h
        obtain ⟨new, he, hnd, hfresh, hfree, hsub, hcomp⟩ :=
          exploreMoves_char m target (t₀ + 1) pos.iter_moves explored []
        rw [he] at h
        exact ih _ _ (ainv_step inv hpop hpt hnd hfresh hfree hsub hcomp) t h

/-- Ghost-instrumented twin of `earliestLoop` also returning the explored set
at exit.  A pair is consed onto `explored` exactly when it is pushed, so
`explored` (plus the initial push, which is never inserted into `explored`)
is the full push log. -/
def earliestLoopT (m : Map) (target : Coord) :
    Nat → List (Nat × Coord) → List Entry → Option AStarOutcome × List (Nat × Coord)
  | 0, explored, _ => (none, explored)
  | fuel + 1, explored, frontier =>
    match popMin frontier with
    | none => (some .panic, explored)
    | some ((_, curr_minute, pos), rest) =>
      if pos = target then (some (.arrived curr_minute), explored)
      else
        let st := exploreMoves m target (curr_minute + 1) pos.iter_moves (explored, [])
        earliestLoopT m target fuel st.1 (rest ++ st.2)

theorem earliestLoopT_fst (m : Map) (target : Coord) :
    ∀ (fuel : Nat) (explored : List (Nat × Coord)) (frontier : List Entry),
      (earliestLoopT m target fuel explored frontier).1 =
        earliestLoop m target fuel explored frontier := by
  intro fuel
  induction fuel with
  | zero => intro _ _; rfl
  | succ fuel ih =>
    intro explored frontier
    rw [earliestLoopT, earliestLoop]
    cases hpop : popMin frontier with
    | none => rfl
    | some pr =>
      obtain ⟨⟨pri₀, t₀, pos⟩, rest⟩ := pr
      dsimp only
      by_cases hpt : pos = target
      · rw [if_pos hpt, if_pos hpt]
      · rw [if_neg hpt, if_neg hpt]
        exact ih _ _

theorem earliestLoopT_nodup (m : Map) (target : Coord) (s0 : Nat) :
    ∀ (fuel : Nat) (explored : List (Nat × Coord)) (frontier : List Entry),
      explored.Nodup → (∀ p ∈ explored, s0 < p.1) →
      (∀ e ∈ frontier, s0 ≤ e.2.1) →
      (earliestLoopT m target fuel explored frontier).2.Nodup ∧
        ∀ p ∈ (earliestLoopT m target fuel explored frontier).2, s0 < p.1 := by
  intro fuel
  induction fuel with
  | zero => intro explored _ h1 h2 _; exact ⟨h1, h2⟩
  | succ fuel ih =>
    intro explored frontier h1 h2 h3
    rw [earliestLoopT]
    cases hpop : popMin frontier with
    | none => exact ⟨h1, h2⟩
    | some pr =>
      obtain ⟨⟨pri₀, t₀, pos⟩, rest⟩ := pr
      obtain ⟨hperm, _⟩ := popMin_spec frontier _ _ hpop
      have hpopmem : (pri₀, t₀, pos) ∈ frontier :=
        hperm.mem_iff.mp (List.mem_cons_self _ _)
      have ht₀ : s0 ≤ t₀ := h3 _ hpopmem
      dsimp only
      by_cases hpt : pos = target
      · rw [if_pos hpt]
        exact ⟨h1, h2⟩
      · rw [if_neg hpt]
        obtain ⟨new, he, hnd, hfresh, _, _, _⟩ :=
          exploreMoves_char m target (t₀ + 1) pos.iter_moves explored []
        rw [he]
        apply ih
        · rw [List.nodup_append]
          refine ⟨?_, h1, ?_⟩
          · rw [List.nodup_reverse]
            exact hnd.map (fun a b h => (Prod.mk.injEq _ _ _ _).mp h |>.2)
          · intro a ha hb
            rw [List.mem_reverse, List.mem_map] at ha
            obtain ⟨n, hn, rfl⟩ := ha
            exact hfresh n hn hb
        · intro p hp
          rcases List.mem_append.mp hp with hp' | hp'
          · rw [List.mem_reverse, List.mem_map] at hp'
            obtain ⟨n, _, rfl⟩ := hp'
            omega
          · exact h2 p hp'
        · intro e heq
          rcases List.mem_append.mp heq with he' | he'
          · exact h3 e (hperm.mem_iff.mp (List.mem_cons_of_mem _ he'))
          · rw [List.nil_append, List.mem_map] at he'
            obtain ⟨n, _, rfl⟩ := he'
            dsimp only
            omega

/-- C2 (soundness, optimality and admissibility): whenever the embedded
`Map::earliest_arrival` returns `arrived t`, the target is in fact occupiable
at minute `t` and no valid movement plan occupies it at any earlier minute;
and the Manhattan-distance heuristic never overestimates the true remaining
time of any plan. -/
theorem c2_a_star_earliest_arrival (m : Map) (s0 : Nat) (start target : Coord) :
    (∀ fuel t, Map.earliest_arrival m fuel s0 start target = some (.arrived t) →
      ReachAt m s0 start t target ∧
        ∀ t', ReachAt m s0 start t' target → t ≤ t') ∧
    (∀ (t₁ : Nat) (p : Coord) (t' : Nat), ReachAt m t₁ p t' target →
      p.manhattan_distance target ≤ t' - t₁) := by
  refine ⟨fun fuel t h => ?_, fun t₁ p t' h => (reach_bounds h).2⟩
  exact earliestLoop_correct m s0 start target fuel _ _
    (ainv_init m s0 start target) t h

/-- Witness map for C2: a 3×3 open interior, no blizzards; start `(1,1)`,
target `(1,2)`. -/
def witnessMap : Map :=
  { walls := [⟨0, 0⟩, ⟨1, 0⟩, ⟨2, 0⟩, ⟨0, 3⟩, ⟨1, 3⟩, ⟨2, 3⟩,
      ⟨0, 1⟩, ⟨0, 2⟩, ⟨3, 1⟩, ⟨3, 2⟩],
    blizzards := [],
    start := ⟨1, 1⟩,
    target := ⟨1, 2⟩ }

/-- Witness for C2: on `witnessMap` the A* arrives at minute 1, which is both
achievable and minimal. -/
theorem c2_a_star_earliest_arrival_witness :
    ReachAt witnessMap 0 ⟨1, 1⟩ 1 ⟨1, 2⟩ ∧
      ∀ t', ReachAt witnessMap 0 ⟨1, 1⟩ t' ⟨1, 2⟩ → 1 ≤ t' :=
  (c2_a_star_earliest_arrival witnessMap 0 ⟨1, 1⟩ ⟨1, 2⟩).1 3 1 (by decide)

/-- The map refuting C5's claim about day 24: the start `(1,1)` is boxed in
by walls and a leftward blizzard sweeps `(1,1)` at minute 1, so the frontier
empties and the Rust code hits `unreachable!()` (a panic, not a typed
failure). -/
def cexMap : Map :=
  { walls := [⟨0, 1⟩, ⟨1, 0⟩, ⟨2, 1⟩, ⟨1, 2⟩],
    blizzards := [{ origin := ⟨2, 1⟩, direction := .left, width := 4, height := 4 }],
    start := ⟨1, 1⟩,
    target := ⟨3, 3⟩ }

end Day24

namespace Day12

/-- `day12.rs`'s `Coord` (a pair of `isize`). -/
structure Coord where
  x : Int
  y : Int
deriving DecidableEq, Repr

/-- `Coord::iter_neighbors`: up, right, down, left. -/
def Coord.iter_neighbors (c : Coord) : List Coord :=
  [⟨c.x, c.y - 1⟩, ⟨c.x + 1, c.y⟩, ⟨c.x, c.y + 1⟩, ⟨c.x - 1, c.y⟩]

/-- The heightmap `HashMap<Coord, u8>` as an association list. -/
abbrev Heightmap := List (Coord × Nat)

/-- The body of the neighbor loop of `find_shortest_path_len`: for each
neighbor present in the heightmap, skip it when it is too high
(`neighbor_height > height + 1`) or already visited (`!visited.insert(..)`),
otherwise mark it visited and push `(num_moves + 1, neighbor)`. -/
def bfsVisit (hm : Heightmap) (height num_moves : Nat) :
    List Coord → List Coord × List (Nat × Coord) → List Coord × List (Nat × Coord)
  | [], st => st
  | n :: ns, (visited, pushed) =>
    match hm.lookup n with
    | none => bfsVisit hm height num_moves ns (visited, pushed)
    | some nh =>
      if nh > height + 1 then bfsVisit hm height num_moves ns (visited, pushed)
      else if n ∈ visited then bfsVisit hm height num_moves ns (visited, pushed)
      else bfsVisit hm height num_moves ns (n :: visited, pushed ++ [(num_moves + 1, n)])

/-- The three ways the `while let` loop of `find_shortest_path_len` can end. -/
inductive BfsOutcome where
  | found (d : Nat)
  | exhausted
  | panic
deriving DecidableEq, Repr

/-- The `while let Some(..) = to_visit.pop_front()` loop.  `fuel` only bounds
the number of iterations so the recursion is structural; the seed chosen by
`find_shortest_path_len` is proven sufficient (`none` never escapes it).
`some .exhausted` is the `None` return, `some .panic` the
`heightmap.get(&curr_pos).unwrap()` panic. -/
def bfsLoop (hm : Heightmap) (end_ : Coord) :
    Nat → List Coord → List (Nat × Coord) → Option BfsOutcome
  | 0, _, _ => none
  | _ + 1, _, [] => some .exhausted
  | fuel + 1, visited, (num_moves, curr) :: rest =>
    if curr = end_ then some (.found num_moves)
    else
      match hm.lookup curr with
      | none => some .panic
      | some height =>
        let st := bfsVisit hm height num_moves curr.iter_neighbors (visited, [])
        bfsLoop hm end_ fuel st.1 (rest ++ st.2)

/-- Number of heightmap keys not yet visited; the loop measure is this plus
the queue length. -/
def countUnvisited (hm : Heightmap) (visited : List Coord) : Nat :=
  ((hm.map Prod.fst).dedup.filter (fun c => decide (c ∉ visited))).length

/-- `find_shortest_path_len`, with the loop fuel seeded from the measure. -/
def find_shortest_path_len (hm : Heightmap) (start end_ : Coord) : Option BfsOutcome :=
  bfsLoop hm end_ (1 + countUnvisited hm [start] + 1) [start] [(0, start)]

/-- `part_b`'s inner `filter_map`: run the BFS from every candidate start,
keep the reachable ones; a `panic` propagates. -/
def collectLens (hm : Heightmap) (end_ : Coord) : List Coord → Option (List Nat)
  | [] => some []
  | s :: rest =>
    match find_shortest_path_len hm s end_ with
    | none => none
    | some .panic => none
    | some .exhausted => collectLens hm end_ rest
    | some (.found d) => (collectLens hm end_ rest).map (fun l => d :: l)

/-- `part_b`: the minimum shortest-path length over all zero-height starts
(`none` inside is Rust's `Option::None` from `.min()` on no candidates). -/
def part_b (hm : Heightmap) (end_ : Coord) : Option (Option Nat) :=
  (collectLens hm end_
    (hm.filterMap (fun p => if p.2 = 0 then some p.1 else none))).map List.min?

/-- A legal BFS move: `b` is a grid neighbor of `a`, both are in the map, and
`b`'s height exceeds `a`'s by at most 1. -/
def StepTo (hm : Heightmap) (a b : Coord) : Prop :=
  b ∈ a.iter_neighbors ∧
    ∃ ha hb, hm.lookup a = some ha ∧ hm.lookup b = some hb ∧ hb ≤ ha + 1

/-- `ReachesIn hm a n b`: a path of exactly `n` legal moves from `a` to `b`. -/
inductive ReachesIn (hm : Heightmap) (a : Coord) : Nat → Coord → Prop
  | refl : ReachesIn hm a 0 a
  | snoc {n y z} : ReachesIn hm a n y → StepTo hm y z → ReachesIn hm a (n + 1) z

theorem lookup_isSome_iff (hm : Heightmap) (c : Coord) :
    (hm.lookup c).isSome ↔ c ∈ hm.map Prod.fst := by
  induction hm with
  | nil => simp [List.lookup]
  | cons p rest ih =>
    obtain ⟨k, v⟩ := p
    rw [List.lookup]
    by_cases hck : c = k
    · subst hck
      simp
    · have hbeq : (c == k) = false := beq_eq_false_iff_ne.mpr hck
      simp [hbeq, ih, hck]

theorem countUnvisited_cons (hm : Heightmap) (visited : List Coord) (n : Coord)
    (hk : n ∈ hm.map Prod.fst) (hnv : n ∉ visited) :
    countUnvisited hm (n :: visited) + 1 = countUnvisited hm visited := by
  classical
  unfold countUnvisited
  set L := (hm.map Prod.fst).dedup with hL
  have hnL : n ∈ L := List.mem_dedup.mpr hk
  have hnodup : L.Nodup := List.nodup_dedup _
  have hF : L.filter (fun c => decide (c ∉ n :: visited)) =
      (L.filter (fun c => decide (c ∉ visited))).filter (fun c => c != n) := by
    rw [List.filter_filter]
    refine List.filter_congr ?_
    intro x _
    by_cases hx1 : x = n <;> by_cases hx2 : x ∈ visited <;>
      simp [hx1, hx2, List.mem_cons]
  have hFnodup : (L.filter (fun c => decide (c ∉ visited))).Nodup :=
    hnodup.filter _
  have hnF : n ∈ L.filter (fun c => decide (c ∉ visited)) :=
    List.mem_filter.mpr ⟨hnL, by simpa using hnv⟩
  rw [hF, ← hFnodup.erase_eq_filter n, List.length_erase_of_mem hnF]
  have : 0 < (L.filter (fun c => decide (c ∉ visited))).length :=
    List.length_pos_of_mem hnF
  omega

theorem countUnvisited_reverse_append (hm : Heightmap) :
    ∀ (new visited : List Coord), new.Nodup → (∀ n ∈ new, n ∉ visited) →
      (∀ n ∈ new, n ∈ hm.map Prod.fst) →
      countUnvisited hm (new.reverse ++ visited) + new.length =
        countUnvisited hm visited := by
  intro new
  induction new with
  | nil => intro visited _ _ _; simp
  | cons n rest ih =>
    intro visited hnd hnv hk
    have hrest : rest.reverse ++ (n :: visited) = (n :: rest).reverse ++ visited := by
      simp
    have h1 := ih (n :: visited) (List.nodup_cons.mp hnd).2
      (fun x hx => by
        have hxn : x ≠ n := fun hxeq => (List.nodup_cons.mp hnd).1 (hxeq ▸ hx)
        simp only [List.mem_cons]
        push_neg
        exact ⟨hxn, hnv x (List.mem_cons_of_mem _ hx)⟩)
      (fun x hx => hk x (List.mem_cons_of_mem _ hx))
    rw [hrest] at h1
    have h2 := countUnvisited_cons hm visited n (hk n (List.mem_cons_self _ _))
      (hnv n (List.mem_cons_self _ _))
    simp only [List.length_cons]
    omega

/-- Characterization of one neighbor sweep: the newly visited coordinates
`new` (in push order) are consed onto `visited` and appended to `pushed` with
distance `num_moves + 1`; they are exactly the fresh, in-map, low-enough
neighbors. -/
theorem bfsVisit_char (hm : Heightmap) (height num_moves : Nat) :
    ∀ (ns : List Coord) (visited : List Coord) (pushed : List (Nat × Coord)),
      ∃ new : List Coord,
        bfsVisit hm height num_moves ns (visited, pushed) =
          (new.reverse ++ visited, pushed ++ new.map (fun n => (num_moves + 1, n))) ∧
        new.Nodup ∧
        (∀ n ∈ new, n ∉ visited) ∧
        (∀ n ∈ new, ∃ nh, hm.lookup n = some nh ∧ nh ≤ height + 1) ∧
        (∀ n ∈ new, n ∈ ns) ∧
        (∀ n ∈ ns, n ∉ visited →
          (∃ nh, hm.lookup n = some nh ∧ nh ≤ height + 1) → n ∈ new) := by
  intro ns
  induction ns with
  | nil =>
    intro visited pushed
    exact ⟨[], by simp [bfsVisit], by simp, by simp, by simp, by simp, by simp⟩
  | cons n ns ih =>
    intro visited pushed
    rw [bfsVisit]
    cases hl : hm.lookup n with
    | none =>
      obtain ⟨new, he, hnd, hnv, hkey, hsub, hcomp⟩ := ih visited pushed
      refine ⟨new, he, hnd, hnv, hkey,
        fun x hx => List.mem_cons_of_mem _ (hsub x hx), ?_⟩
      intro x hx hxv hxok
      rcases List.mem_cons.mp hx with rfl | hx'
      · obtain ⟨nh, hnh, _⟩ := hxok
        rw [hl] at hnh
        cases hnh
      · exact hcomp x hx' hxv hxok
    | some nh =>
      dsimp only
      by_cases hhigh : nh > height + 1
      · rw [if_pos hhigh]
        obtain ⟨new, he, hnd, hnv, hkey, hsub, hcomp⟩ := ih visited pushed
        refine ⟨new, he, hnd, hnv, hkey,
          fun x hx => List.mem_cons_of_mem _ (hsub x hx), ?_⟩
        intro x hx hxv hxok
        rcases List.mem_cons.mp hx with rfl | hx'
        · obtain ⟨nh', hnh', hle⟩ := hxok
          rw [hl] at hnh'
          cases hnh'
          omega
        · exact hcomp x hx' hxv hxok
      · rw [if_neg hhigh]
        by_cases hv : n ∈ visited
        · rw [if_pos hv]
          obtain ⟨new, he, hnd, hnv, hkey, hsub, hcomp⟩ := ih visited pushed
          refine ⟨new, he, hnd, hnv, hkey,
            fun x hx => List.mem_cons_of_mem _ (hsub x hx), ?_⟩
          intro x hx hxv hxok
          rcases List.mem_cons.mp hx with rfl | hx'
          · exact absurd hv hxv
          · exact hcomp x hx' hxv hxok
        · rw [if_neg hv]
          obtain ⟨new, he, hnd, hnv, hkey, hsub, hcomp⟩ :=
            ih (n :: visited) (pushed ++ [(num_moves + 1, n)])
          refine ⟨n :: new, ?_, ?_, ?_, ?_, ?_, ?_⟩
          · rw [he]
            simp
          · exact List.nodup_cons.mpr
              ⟨fun hn => (hnv n hn) (List.mem_cons_self _ _), hnd⟩
          · intro x hx
            rcases List.mem_cons.mp hx with rfl | hx'
            · exact hv
            · exact fun hxv => (hnv x hx') (List.mem_cons_of_mem _ hxv)
          · intro x hx
            rcases List.mem_cons.mp hx with rfl | hx'
            · exact ⟨nh, hl, by omega⟩
            · exact hkey x hx'
          · intro x hx
            rcases List.mem_cons.mp hx with rfl | hx'
            · exact List.mem_cons_self _ _
            · exact List.mem_cons_of_mem _ (hsub x hx')
          · intro x hx hxv hxok
            rcases List.mem_cons.mp hx with rfl | hx'
            · exact List.mem_cons_self _ _
            · by_cases hxn : x = n
              · subst hxn
                exact List.mem_cons_self _ _
              · refine List.mem_cons_of_mem _ (hcomp x hx' ?_ hxok)
                simp only [List.mem_cons]
                push_neg
                exact ⟨hxn, hxv⟩

/-- The seeded fuel is sufficient: each iteration decreases
`queue.length + countUnvisited`. -/
theorem bfsLoop_total (hm : Heightmap) (end_ : Coord) :
    ∀ (fuel : Nat) (visited : List Coord) (queue : List (Nat × Coord)),
      queue.length + countUnvisited hm visited < fuel →
      (bfsLoop hm end_ fuel visited queue).isSome := by
  intro fuel
  induction fuel with
  | zero => intro _ _ h; omega
  | succ fuel ih =>
    intro visited queue hm_lt
    match queue with
    | [] => simp [bfsLoop]
    | (num_moves, curr) :: rest =>
      rw [bfsLoop]
      by_cases hend : curr = end_
      · simp [hend]
      · rw [if_neg hend]
        cases hl : hm.lookup curr with
        | none => simp
        | some height =>
          simp only
          obtain ⟨new, he, hnd, hnv, hkey, _, _⟩ :=
            bfsVisit_char hm height num_moves curr.iter_neighbors visited []
          rw [he]
          apply ih
          have hcu := countUnvisited_reverse_append hm new visited hnd hnv
            (fun n hn => by
              obtain ⟨nh, hnh, _⟩ := hkey n hn
              exact (lookup_isSome_iff hm n).mp (by rw [hnh]; rfl))
          simp only [List.length_cons, List.length_append, List.length_map,
            List.nil_append] at hm_lt ⊢
          omega

/-- The BFS loop invariant, with a ghost distance list `dists` whose keys are
exactly the visited set (enqueue order, newest first).  `queue` entries carry
their recorded distance; distances in the queue are sorted and within one
level of every recorded distance; expanded (visited, no longer queued)
coordinates have all their legal successors recorded within distance `+1`;
the target has never been expanded. -/
structure Inv (hm : Heightmap) (s e : Coord) (dists : List (Coord × Nat))
    (queue : List (Nat × Coord)) : Prop where
  sound : ∀ p ∈ dists, ReachesIn hm s p.2 p.1
  keymem : ∀ p ∈ dists, (hm.lookup p.1).isSome
  qdist : ∀ q ∈ queue, (q.2, q.1) ∈ dists
  nodup : (dists.map Prod.fst).Nodup
  qnodup : (queue.map Prod.snd).Nodup
  sorted : List.Pairwise (fun a b : Nat × Coord => a.1 ≤ b.1) queue
  band : ∀ p ∈ dists, ∀ q ∈ queue, p.2 ≤ q.1 + 1
  start_mem : (s, 0) ∈ dists
  expanded : ∀ p ∈ dists, p.1 ∉ queue.map Prod.snd →
    ∀ b, StepTo hm p.1 b → ∃ db, (b, db) ∈ dists ∧ db ≤ p.2 + 1
  end_fresh : ∀ d, (e, d) ∈ dists → e ∈ queue.map Prod.snd

theorem pairwise_const_le (d : Nat) (l : List Coord) :
    List.Pairwise (fun a b : Nat × Coord => a.1 ≤ b.1)
      (l.map (fun n => (d, n))) := by
  induction l with
  | nil => exact .nil
  | cons x xs ih =>
    refine .cons ?_ ih
    intro b hb
    obtain ⟨n, _, rfl⟩ := List.mem_map.mp hb
    exact le_refl d

theorem keys_unique {dists : List (Coord × Nat)} (h : (dists.map Prod.fst).Nodup)
    {c : Coord} {d₁ d₂ : Nat} (h1 : (c, d₁) ∈ dists) (h2 : (c, d₂) ∈ dists) :
    d₁ = d₂ := by
  induction dists with
  | nil => cases h1
  | cons p rest ih =>
    rw [List.map_cons, List.nodup_cons] at h
    rcases List.mem_cons.mp h1 with rfl | h1' <;>
      rcases List.mem_cons.mp h2 with h2' | h2'
    · cases h2'
      rfl
    · exact absurd (List.mem_map_of_mem Prod.fst h2') (by simpa using h.1)
    · cases h2'
      exact absurd (List.mem_map_of_mem Prod.fst h1') (by simpa using h.1)
    · exact ih h.2 h1' h2'

/-- Any path from `s` is covered: its endpoint is recorded with a distance no
larger than the path length, or some queue entry sits on a suffix of it. -/
theorem inv_cover {hm : Heightmap} {s e : Coord} {dists : List (Coord × Nat)}
    {queue : List (Nat × Coord)} (inv : Inv hm s e dists queue) :
    ∀ (ℓ : Nat) (z : Coord), ReachesIn hm s ℓ z →
      (∃ d, (z, d) ∈ dists ∧ d ≤ ℓ) ∨
      (∃ q ∈ queue, ∃ ℓ₂, ReachesIn hm q.2 ℓ₂ z ∧ q.1 + ℓ₂ ≤ ℓ) := by
  intro ℓ z hre
  induction hre with
  | refl => exact Or.inl ⟨0, inv.start_mem, Nat.le_refl 0⟩
  | snoc hpath hstep ih =>
    rename_i n y z
    rcases ih with ⟨dy, hymem, hyle⟩ | ⟨q, hq, ℓ₂, hre₂, hle₂⟩
    · by_cases hyq : y ∈ queue.map Prod.snd
      · obtain ⟨q, hq, hqy⟩ := List.mem_map.mp hyq
        have hqd : (y, q.1) ∈ dists := hqy ▸ inv.qdist q hq
        have hdq : q.1 = dy := keys_unique inv.nodup hqd hymem
        refine Or.inr ⟨q, hq, 1, ?_, by omega⟩
        rw [hqy]
        exact ReachesIn.snoc .refl hstep
      · obtain ⟨dz, hzmem, hzle⟩ := inv.expanded (y, dy) hymem hyq z hstep
        exact Or.inl ⟨dz, hzmem, by omega⟩
    · exact Or.inr ⟨q, hq, ℓ₂ + 1, hre₂.snoc hstep, by omega⟩

/-- Popping the head `(d₀, c₀)` with `c₀ ≠ e` and sweeping its neighbors
preserves the invariant. -/
theorem inv_step {hm : Heightmap} {s e : Coord} {dists : List (Coord × Nat)}
    {d₀ : Nat} {c₀ : Coord} {rest : List (Nat × Coord)} {h₀ : Nat}
    (inv : Inv hm s e dists ((d₀, c₀) :: rest)) (hne : c₀ ≠ e)
    (hl : hm.lookup c₀ = some h₀) {new : List Coord}
    (hnd : new.Nodup)
    (hnv : ∀ n ∈ new, n ∉ dists.map Prod.fst)
    (hkey : ∀ n ∈ new, ∃ nh, hm.lookup n = some nh ∧ nh ≤ h₀ + 1)
    (hsub : ∀ n ∈ new, n ∈ c₀.iter_neighbors)
    (hcomp : ∀ n ∈ c₀.iter_neighbors, n ∉ dists.map Prod.fst →
      (∃ nh, hm.lookup n = some nh ∧ nh ≤ h₀ + 1) → n ∈ new) :
    Inv hm s e ((new.map (fun n => (n, d₀ + 1))).reverse ++ dists)
      (rest ++ new.map (fun n => (d₀ + 1, n))) := by
  have hc₀d : (c₀, d₀) ∈ dists := inv.qdist (d₀, c₀) (List.mem_cons_self _ _)
  have hc₀re : ReachesIn hm s d₀ c₀ := inv.sound (c₀, d₀) hc₀d
  have hmem_new : ∀ p : Coord × Nat,
      p ∈ (new.map (fun n => (n, d₀ + 1))).reverse ↔ p.1 ∈ new ∧ p.2 = d₀ + 1 := by
    intro p
    rw [List.mem_reverse, List.mem_map]
    constructor
    · rintro ⟨n, hn, rfl⟩
      exact ⟨hn, rfl⟩
    · rintro ⟨h1, h2⟩
      exact ⟨p.1, h1, by rw [← h2]⟩
  have hmem_push : ∀ q : Nat × Coord,
      q ∈ new.map (fun n => (d₀ + 1, n)) ↔ q.2 ∈ new ∧ q.1 = d₀ + 1 := by
    intro q
    rw [List.mem_map]
    constructor
    · rintro ⟨n, hn, rfl⟩
      exact ⟨hn, rfl⟩
    · rintro ⟨h1, h2⟩
      exact ⟨q.2, h1, by rw [← h2]⟩
  have hstep_new : ∀ n ∈ new, ReachesIn hm s (d₀ + 1) n := by
    intro n hn
    obtain ⟨nh, hnh, hnhle⟩ := hkey n hn
    exact hc₀re.snoc ⟨hsub n hn, h₀, nh, hl, hnh, hnhle⟩
  have hq_old : ∀ q ∈ rest, q ∈ (d₀, c₀) :: rest := fun q hq => List.mem_cons_of_mem _ hq
  have hrest_band : ∀ q ∈ rest, q.1 ≤ d₀ + 1 := by
    intro q hq
    exact inv.band (q.2, q.1) (inv.qdist q (hq_old q hq)) (d₀, c₀)
      (List.mem_cons_self _ _)
  have hrest_ge : ∀ q ∈ rest, d₀ ≤ q.1 := by
    have := inv.sorted
    rw [List.pairwise_cons] at this
    exact fun q hq => this.1 q hq
  refine ⟨?_, ?_, ?_, ?_, ?_, ?_, ?_, ?_, ?_, ?_⟩
  · intro p hp
    rcases List.mem_append.mp hp with hp' | hp'
    · obtain ⟨h1, h2⟩ := (hmem_new p).mp hp'
      rw [h2]
      have := hstep_new p.1 h1
      exact this
    · exact inv.sound p hp'
  · intro p hp
    rcases List.mem_append.mp hp with hp' | hp'
    · obtain ⟨h1, _⟩ := (hmem_new p).mp hp'
      obtain ⟨nh, hnh, _⟩ := hkey p.1 h1
      rw [hnh]
      rfl
    · exact inv.keymem p hp'
  · intro q hq
    rcases List.mem_append.mp hq with hq' | hq'
    · exact List.mem_append.mpr (Or.inr (inv.qdist q (hq_old q hq')))
    · obtain ⟨h1, h2⟩ := (hmem_push q).mp hq'
      exact List.mem_append.mpr (Or.inl ((hmem_new (q.2, q.1)).mpr ⟨h1, h2⟩))
  · rw [List.map_append, List.nodup_append]
    refine ⟨?_, inv.nodup, ?_⟩
    · have : (new.map (fun n => (n, d₀ + 1))).reverse.map Prod.fst = new.reverse := by
        rw [List.map_reverse, List.map_map]
        simp [Function.comp_def]
      rw [this]
      exact List.nodup_reverse.mpr hnd
    · intro a ha hb
      rw [List.map_reverse, List.mem_reverse, List.map_map] at ha
      simp only [Function.comp_def, List.mem_map] at ha
      obtain ⟨n, hn, rfl⟩ := ha
      exact hnv n hn hb
  · rw [List.map_append, List.nodup_append]
    have hqtail : (rest.map Prod.snd).Nodup := by
      have := inv.qnodup
      rw [List.map_cons, List.nodup_cons] at this
      exact this.2
    refine ⟨hqtail, ?_, ?_⟩
    · have : (new.map (fun n => (d₀ + 1, n))).map Prod.snd = new := by
        rw [List.map_map]
        simp [Function.comp_def]
      rw [this]
      exact hnd
    · intro a ha hb
      rw [List.map_map] at hb
      simp only [Function.comp_def, List.mem_map] at hb
      obtain ⟨n, hn, rfl⟩ := hb
      obtain ⟨q, hq, hqa⟩ := List.mem_map.mp ha
      exact hnv n hn (hqa ▸ List.mem_map_of_mem Prod.fst (inv.qdist q (hq_old q hq)))
  · rw [List.pairwise_append]
    refine ⟨?_, ?_, ?_⟩
    · have := inv.sorted
      rw [List.pairwise_cons] at this
      exact this.2
    · exact pairwise_const_le (d₀ + 1) new
    · intro a ha b hb
      obtain ⟨h1, h2⟩ := (hmem_push b).mp hb
      rw [h2]
      exact hrest_band a ha
  · intro p hp q hq
    rcases List.mem_append.mp hp with hp' | hp' <;>
      rcases List.mem_append.mp hq with hq' | hq'
    · obtain ⟨_, h2⟩ := (hmem_new p).mp hp'
      rw [h2]
      have := hrest_ge q hq'
      omega
    · obtain ⟨_, h2⟩ := (hmem_new p).mp hp'
      obtain ⟨_, h2'⟩ := (hmem_push q).mp hq'
      omega
    · have := inv.band p hp' q (hq_old q hq')
      exact this
    · obtain ⟨_, h2'⟩ := (hmem_push q).mp hq'
      have := inv.band p hp' (d₀, c₀) (List.mem_cons_self _ _)
      omega
  · exact List.mem_append.mpr (Or.inr inv.start_mem)
  · intro p hp hpq b hb
    rcases List.mem_append.mp hp with hp' | hp'
    · obtain ⟨h1, _⟩ := (hmem_new p).mp hp'
      exact absurd (List.mem_map.mpr ⟨(d₀ + 1, p.1),
        List.mem_append.mpr (Or.inr ((hmem_push (d₀ + 1, p.1)).mpr ⟨h1, rfl⟩)), rfl⟩) hpq
    · by_cases hpc : p.1 = c₀
      · have hpd : p.2 = d₀ := by
          have : (p.1, p.2) ∈ dists := hp'
          rw [hpc] at this
          exact keys_unique inv.nodup this hc₀d
        obtain ⟨hbnbr, ha, hb', hla, hlb, hble⟩ := hb
        rw [hpc] at hla hbnbr
        rw [hl] at hla
        cases hla
        by_cases hbv : b ∈ dists.map Prod.fst
        · obtain ⟨pb, hpb, hpbb⟩ := List.mem_map.mp hbv
          have hpb' : (b, pb.2) ∈ dists := by rw [← hpbb]; exact hpb
          have hband := inv.band pb hpb (d₀, c₀) (List.mem_cons_self _ _)
          exact ⟨pb.2, List.mem_append.mpr (Or.inr hpb'), by omega⟩
        · have hbnew : b ∈ new := hcomp b hbnbr hbv ⟨hb', hlb, hble⟩
          exact ⟨d₀ + 1, List.mem_append.mpr (Or.inl ((hmem_new (b, d₀ + 1)).mpr
            ⟨hbnew, rfl⟩)), by omega⟩
      · have hpq_old : p.1 ∉ ((d₀, c₀) :: rest).map Prod.snd := by
          rw [List.map_cons, List.mem_cons]
          push_neg
          refine ⟨hpc, ?_⟩
          intro hmem
          exact hpq (by
            rw [List.map_append, List.mem_append]
            exact Or.inl hmem)
        obtain ⟨db, hdb, hdble⟩ := inv.expanded p hp' hpq_old b hb
        exact ⟨db, List.mem_append.mpr (Or.inr hdb), hdble⟩
  · intro d hd
    rcases List.mem_append.mp hd with hd' | hd'
    · obtain ⟨h1, _⟩ := (hmem_new (e, d)).mp hd'
      rw [List.map_append, List.mem_append]
      exact Or.inr (List.mem_map.mpr ⟨(d₀ + 1, e), (hmem_push _).mpr ⟨h1, rfl⟩, rfl⟩)
    · have := inv.end_fresh d hd'
      rw [List.map_cons, List.mem_cons] at this
      rcases this with heq | hmem
      · exact absurd heq.symm hne
      · rw [List.map_append, List.mem_append]
        exact Or.inl hmem

theorem bfsLoop_correct (hm : Heightmap) (s e : Coord) :
    ∀ (fuel : Nat) (dists : List (Coord × Nat)) (queue : List (Nat × Coord)),
      Inv hm s e dists queue →
      (∀ d, bfsLoop hm e fuel (dists.map Prod.fst) queue = some (.found d) →
        ReachesIn hm s d e ∧ ∀ ℓ, ReachesIn hm s ℓ e → d ≤ ℓ) ∧
      (bfsLoop hm e fuel (dists.map Prod.fst) queue = some .exhausted →
        ∀ ℓ, ¬ ReachesIn hm s ℓ e) ∧
      bfsLoop hm e fuel (dists.map Prod.fst) queue ≠ some .panic := by
  intro fuel
  induction fuel with
  | zero =>
    intro dists queue _
    refine ⟨fun d hd => ?_, fun hd => ?_, fun hd => ?_⟩ <;> cases hd
  | succ fuel ih =>
    intro dists queue inv
    match queue with
    | [] =>
      refine ⟨fun d hd => ?_, fun _ ℓ hre => ?_, fun hd => ?_⟩
      · rw [bfsLoop] at hd
        cases hd
      · rcases inv_cover inv ℓ e hre with ⟨d, hmem, _⟩ | ⟨q, hq, _⟩
        · have := inv.end_fresh d hmem
          simp at this
        · simp at hq
      · rw [bfsLoop] at hd
        cases hd
    | (d₀, c₀) :: rest =>
      have hc₀d : (c₀, d₀) ∈ dists := inv.qdist (d₀, c₀) (List.mem_cons_self _ _)
      by_cases hce : c₀ = e
      · subst hce
        have heq : bfsLoop hm c₀ (fuel + 1) (dists.map Prod.fst) ((d₀, c₀) :: rest) =
            some (.found d₀) := by
          rw [bfsLoop, if_pos rfl]
        rw [heq]
        refine ⟨fun d hd => ?_, fun hd => ?_, fun hd => ?_⟩
        · cases hd
          constructor
          · exact inv.sound (c₀, d₀) hc₀d
          · intro ℓ hre
            rcases inv_cover inv ℓ c₀ hre with ⟨d', hmem, hle⟩ | ⟨q, hq, ℓ₂, _, hle⟩
            · have : d' = d₀ := keys_unique inv.nodup hmem hc₀d
              omega
            · rcases List.mem_cons.mp hq with rfl | hq'
              · omega
              · have hsort := inv.sorted
                rw [List.pairwise_cons] at hsort
                have := hsort.1 q hq'
                omega
        · cases hd
        · cases hd
      · cases hl : hm.lookup c₀ with
        | none =>
          have := inv.keymem (c₀, d₀) hc₀d
          rw [hl] at this
          cases this
        | some h₀ =>
          obtain ⟨new, he, hnd, hnv, hkey, hsub, hcomp⟩ :=
            bfsVisit_char hm h₀ d₀ c₀.iter_neighbors (dists.map Prod.fst) []
          have hfst : (((new.map (fun n => (n, d₀ + 1))).reverse ++ dists).map Prod.fst) =
              new.reverse ++ dists.map Prod.fst := by
            rw [List.map_append, List.map_reverse, List.map_map]
            simp [Function.comp_def]
          have heq : bfsLoop hm e (fuel + 1) (dists.map Prod.fst) ((d₀, c₀) :: rest) =
              bfsLoop hm e fuel
                (((new.map (fun n => (n, d₀ + 1))).reverse ++ dists).map Prod.fst)
                (rest ++ new.map (fun n => (d₀ + 1, n))) := by
            rw [bfsLoop, if_neg hce]
            simp only [hl]
            rw [he, hfst]
            simp
          rw [heq]
          exact ih ((new.map (fun n => (n, d₀ + 1))).reverse ++ dists)
            (rest ++ new.map (fun n => (d₀ + 1, n)))
            (inv_step inv hce hl hnd hnv hkey hsub hcomp)

theorem inv_init (hm : Heightmap) (s e : Coord) (hs : (hm.lookup s).isSome) :
    Inv hm s e [(s, 0)] [(0, s)] := by
  refine ⟨?_, ?_, ?_, ?_, ?_, ?_, ?_, ?_, ?_, ?_⟩
  · intro p hp
    rw [List.mem_singleton] at hp
    subst hp
    exact .refl
  · intro p hp
    rw [List.mem_singleton] at hp
    subst hp
    exact hs
  · intro q hq
    rw [List.mem_singleton] at hq
    subst hq
    exact List.mem_singleton.mpr rfl
  · simp
  · simp
  · simp
  · intro p hp q hq
    rw [List.mem_singleton] at hp hq
    subst hp
    subst hq
    omega
  · exact List.mem_singleton.mpr rfl
  · intro p hp hpq b _
    rw [List.mem_singleton] at hp
    subst hp
    simp at hpq
  · intro d hd
    rw [List.mem_singleton] at hd
    cases hd
    simp

/-- Complete characterization of `find_shortest_path_len` for a start in the
map: it finds exactly the minimal path length, reports `exhausted` exactly on
unreachability, never panics, and never runs out of fuel. -/
theorem find_characterized (hm : Heightmap) (s e : Coord)
    (hs : (hm.lookup s).isSome) :
    (∀ d, find_shortest_path_len hm s e = some (.found d) ↔
      (ReachesIn hm s d e ∧ ∀ ℓ, ReachesIn hm s ℓ e → d ≤ ℓ)) ∧
    (find_shortest_path_len hm s e = some .exhausted ↔
      ∀ ℓ, ¬ ReachesIn hm s ℓ e) ∧
    find_shortest_path_len hm s e ≠ some .panic ∧
    find_shortest_path_len hm s e ≠ none := by
  have hinv := inv_init hm s e hs
  have hmain := bfsLoop_correct hm s e (1 + countUnvisited hm [s] + 1)
    [(s, 0)] [(0, s)] hinv
  have hproj : (([(s, 0)] : List (Coord × Nat)).map Prod.fst) = [s] := rfl
  rw [hproj] at hmain
  have htot : (find_shortest_path_len hm s e).isSome := by
    apply bfsLoop_total
    simp only [List.length_singleton]
    omega
  obtain ⟨hfound, hexh, hpanic⟩ := hmain
  have hfind : ∀ o, find_shortest_path_len hm s e = some o →
      bfsLoop hm e (1 + countUnvisited hm [s] + 1) [s] [(0, s)] = some o :=
    fun o h => h
  refine ⟨?_, ⟨?_, ?_⟩, ?_, ?_⟩
  · intro d
    constructor
    · exact hfound d
    · rintro ⟨hre, hmin⟩
      obtain ⟨o, ho⟩ := Option.isSome_iff_exists.mp htot
      cases o with
      | found d' =>
        obtain ⟨hre', hmin'⟩ := hfound d' (hfind _ ho)
        have h1 := hmin d' hre'
        have h2 := hmin' d hre
        rw [ho]
        congr
        omega
      | exhausted => exact absurd hre (hexh (hfind _ ho) d)
      | panic => exact absurd (hfind _ ho) hpanic
  · exact fun h => hexh (hfind _ h)
  · intro hunreach
    obtain ⟨o, ho⟩ := Option.isSome_iff_exists.mp htot
    cases o with
    | found d' =>
      obtain ⟨hre', _⟩ := hfound d' (hfind _ ho)
      exact absurd hre' (hunreach d')
    | exhausted => exact ho
    | panic => exact absurd (hfind _ ho) hpanic
  · exact fun h => hpanic (hfind _ h)
  · intro h
    rw [h] at htot
    cases htot

/-- The documented 5×8 fixture (rows `aabqponm`, `abcryxxl`, `accszzxk`,
`acctuvwj`, `abdefghi`, heights `'a' = 0` … `'z' = 25`). -/
def exampleRows : List (List Nat) :=
  [[0, 0, 1, 16, 15, 14, 13, 12],
   [0, 1, 2, 17, 24, 23, 23, 11],
   [0, 2, 2, 18, 25, 25, 23, 10],
   [0, 2, 2, 19, 20, 21, 22, 9],
   [0, 1, 3, 4, 5, 6, 7, 8]]

/-- The fixture heightmap keyed by `(x, y)`. -/
def exampleHeightmap : Heightmap :=
  (exampleRows.enum.map (fun r =>
    r.2.enum.map (fun ce => (Coord.mk (ce.1 : Int) (r.1 : Int), ce.2)))).flatten

/-- C1: for every heightmap, start in the map and end coordinate, the BFS
returns `found d` exactly for the minimum number of legal moves from start to
end, and `exhausted` (the Rust `None`) exactly when the end is unreachable;
on the documented 5×8 fixture it returns 31 from the fixed start, and the
minimum over all zero-height starts is 29. -/
theorem c1_bfs_shortest_path (hm : Heightmap) (start end_ : Coord)
    (hs : (hm.lookup start).isSome) :
    ((∀ d, find_shortest_path_len hm start end_ = some (.found d) ↔
        (ReachesIn hm start d end_ ∧ ∀ ℓ, ReachesIn hm start ℓ end_ → d ≤ ℓ)) ∧
      (find_shortest_path_len hm start end_ = some .exhausted ↔
        ∀ ℓ, ¬ ReachesIn hm start ℓ end_)) ∧
    find_shortest_path_len exampleHeightmap ⟨0, 0⟩ ⟨5, 2⟩ = some (.found 31) ∧
    part_b exampleHeightmap ⟨5, 2⟩ = some (some 29) := by
  obtain ⟨h1, h2, _, _⟩ := find_characterized hm start end_ hs
  exact ⟨⟨h1, h2⟩, by decide, by decide⟩

/-- Witness for C1 on the one-cell heightmap `[(⟨0,0⟩, 0)]`. -/
theorem c1_bfs_shortest_path_witness :
    ((∀ d, find_shortest_path_len [(Coord.mk 0 0, 0)] ⟨0, 0⟩ ⟨0, 0⟩ =
          some (.found d) ↔
        (ReachesIn [(Coord.mk 0 0, 0)] ⟨0, 0⟩ d ⟨0, 0⟩ ∧
          ∀ ℓ, ReachesIn [(Coord.mk 0 0, 0)] ⟨0, 0⟩ ℓ ⟨0, 0⟩ → d ≤ ℓ)) ∧
      (find_shortest_path_len [(Coord.mk 0 0, 0)] ⟨0, 0⟩ ⟨0, 0⟩ =
          some .exhausted ↔
        ∀ ℓ, ¬ ReachesIn [(Coord.mk 0 0, 0)] ⟨0, 0⟩ ℓ ⟨0, 0⟩)) ∧
    find_shortest_path_len exampleHeightmap ⟨0, 0⟩ ⟨5, 2⟩ = some (.found 31) ∧
    part_b exampleHeightmap ⟨5, 2⟩ = some (some 29) :=
  c1_bfs_shortest_path [(Coord.mk 0 0, 0)] ⟨0, 0⟩ ⟨0, 0⟩ (by decide)

/-- C9: when start and end coincide the BFS returns distance 0 immediately:
the target test precedes the heightmap lookup, so this holds for every
heightmap and coordinate, even one absent from the map. -/
theorem c9_start_satisfies_target (hm : Heightmap) (c : Coord) :
    find_shortest_path_len hm c c = some (.found 0) := by
  rw [find_shortest_path_len, bfsLoop, if_pos rfl]

/-- Ghost-instrumented twin of `bfsLoop` that also returns the visited list
at exit.  Since a coordinate is consed onto `visited` exactly when it is
enqueued (the start at initialization, neighbors inside `bfsVisit`), the
returned list is the full enqueue log, newest first. -/
def bfsLoopT (hm : Heightmap) (end_ : Coord) :
    Nat → List Coord → List (Nat × Coord) → Option BfsOutcome × List Coord
  | 0, visited, _ => (none, visited)
  | _ + 1, visited, [] => (some .exhausted, visited)
  | fuel + 1, visited, (num_moves, curr) :: rest =>
    if curr = end_ then (some (.found num_moves), visited)
    else
      match hm.lookup curr with
      | none => (some .panic, visited)
      | some height =>
        let st := bfsVisit hm height num_moves curr.iter_neighbors (visited, [])
        bfsLoopT hm end_ fuel st.1 (rest ++ st.2)

theorem bfsLoopT_fst (hm : Heightmap) (end_ : Coord) :
    ∀ (fuel : Nat) (visited : List Coord) (queue : List (Nat × Coord)),
      (bfsLoopT hm end_ fuel visited queue).1 = bfsLoop hm end_ fuel visited queue := by
  intro fuel
  induction fuel with
  | zero => intro visited queue; rfl
  | succ fuel ih =>
    intro visited queue
    match queue with
    | [] => rfl
    | (num_moves, curr) :: rest =>
      rw [bfsLoopT, bfsLoop]
      by_cases hce : curr = end_
      · rw [if_pos hce, if_pos hce]
      · rw [if_neg hce, if_neg hce]
        cases hl : hm.lookup curr with
        | none => rfl
        | some height => exact ih _ _

theorem bfsLoopT_nodup (hm : Heightmap) (end_ : Coord) :
    ∀ (fuel : Nat) (visited : List Coord) (queue : List (Nat × Coord)),
      visited.Nodup → (bfsLoopT hm end_ fuel visited queue).2.Nodup := by
  intro fuel
  induction fuel with
  | zero => intro visited queue h; exact h
  | succ fuel ih =>
    intro visited queue h
    match queue with
    | [] => exact h
    | (num_moves, curr) :: rest =>
      rw [bfsLoopT]
      by_cases hce : curr = end_
      · rw [if_pos hce]
        exact h
      · rw [if_neg hce]
        cases hl : hm.lookup curr with
        | none => exact h
        | some height =>
          simp only
          obtain ⟨new, he, hnd, hnv, _, _, _⟩ :=
            bfsVisit_char hm height num_moves curr.iter_neighbors visited []
          rw [he]
          apply ih
          rw [List.nodup_append]
          exact ⟨List.nodup_reverse.mpr hnd, h,
            fun a ha hb => hnv a (List.mem_reverse.mp ha) hb⟩

end Day12

namespace Day20

/-- One removal-and-reinsertion step of `decrypt_grove_coordinate_sum`'s inner
loop, for the element `p = (original_index, value)`.  `none` models the two
panics: the `position(..).unwrap()` (element not found) and
`rem_euclid(0)` (remainder by zero when the reduced length is `0`). -/
def mixStep (rv : List (Nat × Int)) (p : Nat × Int) : Option (List (Nat × Int)) :=
  match rv.findIdx? (fun x => x = p) with
  | none => none
  | some curr =>
    let removed := rv.eraseIdx curr
    if removed.length = 0 then none
    else
      some (removed.insertIdx (((curr : Int) + p.2) % (removed.length : Int)).toNat p)

/-- One full pass of the mixing loop: every element of `indexed` (the original
order), in order, is relocated in the current list `rv`. -/
def mixPass (indexed : List (Nat × Int)) (rv : List (Nat × Int)) :
    Option (List (Nat × Int)) :=
  match indexed with
  | [] => some rv
  | p :: rest =>
    match mixStep rv p with
    | none => none
    | some rv' => mixPass rest rv'

/-- The `for _ in 0..num_iterations` loop: `k` full passes over the original
order. -/
def mixIterations (indexed : List (Nat × Int)) (k : Nat) (rv : List (Nat × Int)) :
    Option (List (Nat × Int)) :=
  match k with
  | 0 => some rv
  | k + 1 =>
    match mixPass indexed rv with
    | none => none
    | some rv' => mixIterations indexed k rv'

/-- `decrypt_grove_coordinate_sum`.  After mixing, the grove sum walks the
cyclic value list from the zero element and adds the values at offsets 1000,
2000 and 3000; a missing zero element makes the Rust `skip_while` over
`cycle()` diverge, also modelled as `none`. -/
def decrypt_grove_coordinate_sum (encrypted_file : List Int) (num_iterations : Nat)
    (decryption_key : Int) : Option Int :=
  let indexed_values := (encrypted_file.map (fun v => v * decryption_key)).enum
  match mixIterations indexed_values num_iterations indexed_values with
  | none => none
  | some reordered =>
    let vals := reordered.map Prod.snd
    match vals.findIdx? (fun v => v = 0) with
    | none => none
    | some i0 =>
      if vals.length = 0 then none
      else
        some (vals.getD ((i0 + 1000) % vals.length) 0 +
          (vals.getD ((i0 + 2000) % vals.length) 0 +
            (vals.getD ((i0 + 3000) % vals.length) 0 + 0)))

/-- Reference mixing step, following the spec's words: "remove element at its
current position, compute new position via modular arithmetic on the
*reduced* length (post-removal), reinsert", with the Euclidean (non-negative)
remainder.  Removal and reinsertion are expressed by `take`/`drop` surgery
rather than the code's `eraseIdx`/`insertIdx`. -/
def specMixStep (rv : List (Nat × Int)) (p : Nat × Int) : Option (List (Nat × Int)) :=
  match rv.findIdx? (fun x => x = p) with
  | none => none
  | some i =>
    let reduced := rv.take i ++ rv.drop (i + 1)
    if reduced.length = 0 then none
    else
      let j := (((i : Int) + p.2) % (reduced.length : Int)).toNat
      some (reduced.take j ++ p :: reduced.drop j)

/-- Reference pass: every element, in the original order. -/
def specMixPass (indexed : List (Nat × Int)) (rv : List (Nat × Int)) :
    Option (List (Nat × Int)) :=
  match indexed with
  | [] => some rv
  | p :: rest =>
    match specMixStep rv p with
    | none => none
    | some rv' => specMixPass rest rv'

/-- Reference mixing: `k` full passes over the original order. -/
def specMixIterations (indexed : List (Nat × Int)) (k : Nat)
    (rv : List (Nat × Int)) : Option (List (Nat × Int)) :=
  match k with
  | 0 => some rv
  | k + 1 =>
    match specMixPass indexed rv with
    | none => none
    | some rv' => specMixIterations indexed k rv'

theorem insertIdx_eq_take_cons_drop {α : Type} (j : Nat) (p : α) (l : List α)
    (h : j ≤ l.length) : l.insertIdx j p = l.take j ++ p :: l.drop j := by
  induction l generalizing j with
  | nil =>
    cases j with
    | zero => rfl
    | succ j => simp at h
  | cons a rest ih =>
    cases j with
    | zero => rfl
    | succ j =>
      simp only [List.insertIdx_succ_cons, List.take_succ_cons, List.drop_succ_cons,
        List.cons_append, List.cons.injEq, true_and]
      exact ih j (by simpa using h)

theorem mixStep_eq_specMixStep (rv : List (Nat × Int)) (p : Nat × Int) :
    mixStep rv p = specMixStep rv p := by
  rw [mixStep, specMixStep]
  cases hidx : rv.findIdx? (fun x => x = p) with
  | none => rfl
  | some i =>
    have hi : i < rv.length := by
      have := List.findIdx?_eq_some_iff_findIdx_eq.mp hidx
      exact this.1
    simp only
    rw [List.eraseIdx_eq_take_drop_succ]
    have hlen : (rv.take i ++ rv.drop (i + 1)).length = rv.length - 1 := by
      simp [List.length_take, List.length_drop]
      omega
    split_ifs with hz
    · rfl
    · have hpos : (0 : Int) < ((rv.take i ++ rv.drop (i + 1)).length : Int) := by
        omega
      have h1 := Int.emod_lt_of_pos ((i : Int) + p.2) hpos
      have h2 := @Int.emod_nonneg ((i : Int) + p.2)
        (((rv.take i ++ rv.drop (i + 1)).length : Int)) (by omega)
      have hj : ((((i : Int) + p.2) %
          ((rv.take i ++ rv.drop (i + 1)).length : Int)).toNat) ≤
          (rv.take i ++ rv.drop (i + 1)).length := by omega
      rw [insertIdx_eq_take_cons_drop _ _ _ hj]

theorem mixPass_eq_specMixPass (indexed rv : List (Nat × Int)) :
    mixPass indexed rv = specMixPass indexed rv := by
  induction indexed generalizing rv with
  | nil => rfl
  | cons p rest ih =>
    rw [mixPass, specMixPass, mixStep_eq_specMixStep]
    cases specMixStep rv p with
    | none => rfl
    | some rv' => exact ih rv'

theorem mixIterations_eq_specMixIterations (indexed : List (Nat × Int)) (k : Nat)
    (rv : List (Nat × Int)) : mixIterations indexed k rv = specMixIterations indexed k rv := by
  induction k generalizing rv with
  | zero => rfl
  | succ k ih =>
    rw [mixIterations, specMixIterations, mixPass_eq_specMixPass]
    cases specMixPass indexed rv with
    | none => rfl
    | some rv' => exact ih rv'

/-- C7: the reordering performed by `decrypt_grove_coordinate_sum` (its
`mixIterations` loop, over the enumerated key-multiplied input, whose
(index, value) pairs are pairwise distinct by construction) equals the
reference mixing procedure written from the spec: `k` full passes over the
original order, each element removed at its current position `i` and
reinserted at `(i + value)` modulo the reduced (post-removal) length, with
the Euclidean remainder. -/
theorem c7_mixing_matches_reference (encrypted_file : List Int) (k : Nat) (key : Int) :
    (((encrypted_file.map (fun v => v * key)).enum.map Prod.fst).Nodup) ∧
    mixIterations ((encrypted_file.map (fun v => v * key)).enum) k
        ((encrypted_file.map (fun v => v * key)).enum) =
      specMixIterations ((encrypted_file.map (fun v => v * key)).enum) k
        ((encrypted_file.map (fun v => v * key)).enum) :=
  ⟨by rw [List.enum_map_fst]; exact List.nodup_range _,
   mixIterations_eq_specMixIterations _ _ _⟩

/-- C6 counterexample: on the one-element sequence `[5]` with one pass, the
removal-and-reinsertion step takes a remainder by zero (the reduced length is
`0`), modelled as `none`; `decrypt_grove_coordinate_sum` is not well-defined
there. -/
theorem c6_counterexample :
    decrypt_grove_coordinate_sum [5] 1 1 = none ∧
    mixIterations [(0, 5)] 1 [(0, 5)] = none := by
  decide

/-- C6 amended: with zero passes the mixing performs no removal/reinsertion
and is well-defined on one-element sequences, but for every positive pass
count a one-element sequence makes the reinsertion take a remainder by zero
(a Rust division-by-zero panic), so `decrypt_grove_coordinate_sum` fails. -/
theorem c6_single_element_mixing :
    (∀ v key : Int,
      mixIterations (([v].map (fun x => x * key)).enum) 0
        (([v].map (fun x => x * key)).enum) =
      some (([v].map (fun x => x * key)).enum)) ∧
    (∀ (v key : Int) (k : Nat),
      decrypt_grove_coordinate_sum [v] (k + 1) key = none) := by
  refine ⟨fun v key => rfl, fun v key k => ?_⟩
  have hstep : mixStep [(0, v * key)] (0, v * key) = none := by
    rw [mixStep]
    simp [List.findIdx?_cons]
  simp [decrypt_grove_coordinate_sum, List.enum, List.enumFrom, mixIterations,
    mixPass, hstep]

end Day20

/-- C5 counterexample: on `cexMap` (start boxed in by walls, a blizzard
sweeping the start cell at minute 1) the day-24 A* exhausts its frontier and
hits the `unreachable!()` panic instead of returning a typed failure. -/
theorem c5_counterexample :
    Day24.Map.earliest_arrival Day24.cexMap 2 0 ⟨1, 1⟩ ⟨3, 3⟩ =
      some Day24.AStarOutcome.panic := by
  decide

/-- C5 amended: the day-12 BFS surfaces frontier exhaustion as a typed value
(`None`) and never panics when the start is in the map, but the day-24 A*
terminates the process via `unreachable!()` when its frontier empties. -/
theorem c5_amended_failure_modes :
    (∀ (hm : Day12.Heightmap) (s e : Day12.Coord), (hm.lookup s).isSome →
      Day12.find_shortest_path_len hm s e ≠ some Day12.BfsOutcome.panic ∧
      Day12.find_shortest_path_len hm s e ≠ none) ∧
    Day24.Map.earliest_arrival Day24.cexMap 2 0 ⟨1, 1⟩ ⟨3, 3⟩ =
      some Day24.AStarOutcome.panic := by
  refine ⟨fun hm s e hs => ?_, by decide⟩
  obtain ⟨_, _, h3, h4⟩ := Day12.find_characterized hm s e hs
  exact ⟨h3, h4⟩

/-- Witness for C5 (amended) on the one-cell heightmap. -/
theorem c5_amended_failure_modes_witness :
    (Day12.find_shortest_path_len [(Day12.Coord.mk 0 0, 0)] ⟨0, 0⟩ ⟨0, 0⟩ ≠
        some Day12.BfsOutcome.panic ∧
      Day12.find_shortest_path_len [(Day12.Coord.mk 0 0, 0)] ⟨0, 0⟩ ⟨0, 0⟩ ≠ none) ∧
    Day24.Map.earliest_arrival Day24.cexMap 2 0 ⟨1, 1⟩ ⟨3, 3⟩ =
      some Day24.AStarOutcome.panic :=
  ⟨c5_amended_failure_modes.1 [(Day12.Coord.mk 0 0, 0)] ⟨0, 0⟩ ⟨0, 0⟩ (by decide),
   c5_amended_failure_modes.2⟩

/-- C8: within one search invocation no state is enqueued twice.  The
instrumented twins log every enqueue (day 12: the visited list, seeded with
the start; day 24: the explored list plus the seed state, which later pushes
can never equal since their minutes exceed the starting minute) and agree
with the plain searches; the logs never contain duplicates. -/
theorem c8_no_duplicate_enqueues :
    (∀ (hm : Day12.Heightmap) (e s : Day12.Coord) (fuel : Nat),
      (Day12.bfsLoopT hm e fuel [s] [(0, s)]).1 =
        Day12.bfsLoop hm e fuel [s] [(0, s)] ∧
      (Day12.bfsLoopT hm e fuel [s] [(0, s)]).2.Nodup) ∧
    (∀ (m : Day24.Map) (target : Day24.Coord) (fuel s0 : Nat) (start : Day24.Coord),
      (Day24.earliestLoopT m target fuel []
          [(s0 + start.manhattan_distance target, s0, start)]).1 =
        Day24.earliestLoop m target fuel []
          [(s0 + start.manhattan_distance target, s0, start)] ∧
      ((Day24.earliestLoopT m target fuel []
          [(s0 + start.manhattan_distance target, s0, start)]).2 ++
        [(s0, start)]).Nodup) := by
  constructor
  · intro hm e s fuel
    exact ⟨Day12.bfsLoopT_fst hm e fuel [s] [(0, s)],
      Day12.bfsLoopT_nodup hm e fuel [s] [(0, s)] (List.nodup_singleton s)⟩
  · intro m target fuel s0 start
    refine ⟨Day24.earliestLoopT_fst m target fuel _ _, ?_⟩
    obtain ⟨hnd, hgt⟩ := Day24.earliestLoopT_nodup m target s0 fuel []
      [(s0 + start.manhattan_distance target, s0, start)]
      List.nodup_nil
      (fun p hp => absurd hp (List.not_mem_nil p))
      (fun e he => by rw [List.mem_singleton.mp he])
    rw [List.nodup_append]
    refine ⟨hnd, List.nodup_singleton _, ?_⟩
    intro a ha hb
    rw [List.mem_singleton] at hb
    have h := hgt a ha
    rw [hb] at h
    exact absurd h (Nat.lt_irrefl s0)

namespace Day19

/-- `day19.rs`'s `Blueprint`. -/
structure Blueprint where
  id : Nat
  ore_robot_ore_cost : Nat
  clay_robot_ore_cost : Nat
  obsidian_robot_ore_cost : Nat
  obsidian_robot_clay_cost : Nat
  geode_robot_ore_cost : Nat
  geode_robot_obsidian_cost : Nat
deriving DecidableEq, Repr

/-- `day19.rs`'s `Resources`. -/
structure Resources where
  ore_robots : Nat
  clay_robots : Nat
  obsidian_robots : Nat
  geode_robots : Nat
  ore : Nat
  clay : Nat
  obsidian : Nat
  geodes : Nat
deriving DecidableEq, Repr

/-- `Resources::gather_resources`. -/
def Resources.gather_resources (r : Resources) : Resources :=
  { r with
    ore := r.ore + r.ore_robots,
    clay := r.clay + r.clay_robots,
    obsidian := r.obsidian + r.obsidian_robots,
    geodes := r.geodes + r.geode_robots }

/-- The `initial_state` of `find_max_geodes` (one ore robot, nothing else). -/
def initial_state : Resources := ⟨1, 0, 0, 0, 0, 0, 0, 0⟩

/-- The robot caps computed at the top of `find_max_geodes`. -/
def maxOreRobots (bp : Blueprint) : Nat :=
  ((bp.ore_robot_ore_cost.max bp.clay_robot_ore_cost).max
    bp.obsidian_robot_ore_cost).max bp.geode_robot_ore_cost

def maxClayRobots (bp : Blueprint) : Nat := bp.obsidian_robot_clay_cost

def maxObsidianRobots (bp : Blueprint) : Nat := bp.geode_robot_obsidian_cost

/-- The candidate next states pushed by one loop iteration of
`find_max_geodes`, in push order: build a geode / obsidian / clay / ore
robot when affordable (and under the cap), and always the plain
`updated_resources` (build nothing). -/
def successors (bp : Blueprint) (resources : Resources) : List Resources :=
  let updated_resources := resources.gather_resources
  (if bp.geode_robot_ore_cost ≤ resources.ore ∧
      bp.geode_robot_obsidian_cost ≤ resources.obsidian then
    [{ updated_resources with
        geode_robots := updated_resources.geode_robots + 1,
        ore := updated_resources.ore - bp.geode_robot_ore_cost,
        obsidian := updated_resources.obsidian - bp.geode_robot_obsidian_cost }]
  else []) ++
  (if resources.obsidian_robots < maxObsidianRobots bp ∧
      bp.obsidian_robot_ore_cost ≤ resources.ore ∧
      bp.obsidian_robot_clay_cost ≤ resources.clay then
    [{ updated_resources with
        obsidian_robots := updated_resources.obsidian_robots + 1,
        ore := updated_resources.ore - bp.obsidian_robot_ore_cost,
        clay := updated_resources.clay - bp.obsidian_robot_clay_cost }]
  else []) ++
  (if resources.clay_robots < maxClayRobots bp ∧
      bp.clay_robot_ore_cost ≤ resources.ore then
    [{ updated_resources with
        clay_robots := updated_resources.clay_robots + 1,
        ore := updated_resources.ore - bp.clay_robot_ore_cost }]
  else []) ++
  (if resources.ore_robots < maxOreRobots bp ∧
      bp.ore_robot_ore_cost ≤ resources.ore then
    [{ updated_resources with
        ore_robots := updated_resources.ore_robots + 1,
        ore := updated_resources.ore - bp.ore_robot_ore_cost }]
  else []) ++
  [updated_resources]

/-- The `while let Some(..) = build_plans.pop()` loop of `find_max_geodes`,
with the optimistic-bound pruning test.  The list is the stack (head = top);
newly pushed plans therefore sit reversed in front.  `fuel` bounds
iterations; the seed chosen below is proven sufficient. -/
def runPlans (bp : Blueprint) : Nat → List (Nat × Resources) → Nat → Option Nat
  | 0, _, _ => none
  | _ + 1, [], max_geodes => some max_geodes
  | fuel + 1, (time_remaining, resources) :: build_plans, max_geodes =>
    if time_remaining = 0 then
      runPlans bp fuel build_plans (max max_geodes resources.geodes)
    else
      if resources.geodes + (time_remaining * resources.geode_robots +
          (List.range time_remaining).sum) ≤ max_geodes then
        runPlans bp fuel build_plans max_geodes
      else
        runPlans bp fuel
          (((successors bp resources).map
              (fun r => (time_remaining - 1, r))).reverse ++ build_plans)
          max_geodes

/-- The identical search with the pruning test removed. -/
def runPlansNoPrune (bp : Blueprint) :
    Nat → List (Nat × Resources) → Nat → Option Nat
  | 0, _, _ => none
  | _ + 1, [], max_geodes => some max_geodes
  | fuel + 1, (time_remaining, resources) :: build_plans, max_geodes =>
    if time_remaining = 0 then
      runPlansNoPrune bp fuel build_plans (max max_geodes resources.geodes)
    else
      runPlansNoPrune bp fuel
        (((successors bp resources).map
            (fun r => (time_remaining - 1, r))).reverse ++ build_plans)
        max_geodes

/-- `find_max_geodes` (fuel seeded from the termination measure). -/
def find_max_geodes (bp : Blueprint) (time_limit : Nat) : Option Nat :=
  runPlans bp (6 ^ time_limit + 1) [(time_limit, initial_state)] 0

/-- `find_max_geodes` with pruning disabled. -/
def find_max_geodes_no_prune (bp : Blueprint) (time_limit : Nat) : Option Nat :=
  runPlansNoPrune bp (6 ^ time_limit + 1) [(time_limit, initial_state)] 0

/-- The functional specification: the maximum number of geodes obtainable in
`t` minutes from state `r`. -/
def bestGeodes (bp : Blueprint) : Nat → Resources → Nat
  | 0, r => r.geodes
  | t + 1, r =>
    (successors bp r).foldl (fun m r2 => max m (bestGeodes bp t r2)) 0

/-- The value the stack machine must produce: the running maximum folded
with the subtree optima of every stacked plan. -/
def stackBest (bp : Blueprint) (stack : List (Nat × Resources)) (acc : Nat) : Nat :=
  stack.foldl (fun m p => max m (bestGeodes bp p.1 p.2)) acc

theorem foldl_max_acc {α : Type} (g : α → Nat) :
    ∀ (l : List α) (acc : Nat),
      l.foldl (fun m x => max m (g x)) acc =
        max acc (l.foldl (fun m x => max m (g x)) 0) := by
  intro l
  induction l with
  | nil => intro acc; simp
  | cons a rest ih =>
    intro acc
    rw [List.foldl_cons, List.foldl_cons, ih (max acc (g a)), ih (max 0 (g a))]
    omega

theorem foldl_max_le {α : Type} (g : α → Nat) {B : Nat} :
    ∀ l : List α, (∀ x ∈ l, g x ≤ B) →
      l.foldl (fun m x => max m (g x)) 0 ≤ B := by
  intro l
  induction l with
  | nil => intro _; simp
  | cons a rest ih =>
    intro h
    rw [List.foldl_cons, foldl_max_acc]
    have h1 := h a (List.mem_cons_self _ _)
    have h2 := ih (fun x hx => h x (List.mem_cons_of_mem _ hx))
    omega

theorem foldl_max_ge_mem {α : Type} (g : α → Nat) :
    ∀ (l : List α) (x : α), x ∈ l →
      g x ≤ l.foldl (fun m x => max m (g x)) 0 := by
  intro l
  induction l with
  | nil => intro x hx; cases hx
  | cons a rest ih =>
    intro x hx
    rw [List.foldl_cons, foldl_max_acc]
    rcases List.mem_cons.mp hx with rfl | hx'
    · omega
    · have := ih x hx'
      omega

theorem foldl_max_reverse {α : Type} (g : α → Nat) :
    ∀ (l : List α) (acc : Nat),
      l.reverse.foldl (fun m x => max m (g x)) acc =
        l.foldl (fun m x => max m (g x)) acc := by
  intro l
  induction l with
  | nil => intro acc; rfl
  | cons a rest ih =>
    intro acc
    rw [List.reverse_cons, List.foldl_append]
    simp only [List.foldl_cons, List.foldl_nil]
    rw [ih acc, foldl_max_acc g rest acc, foldl_max_acc g rest (max acc (g a))]
    omega

theorem stackBest_nil (bp : Blueprint) (acc : Nat) : stackBest bp [] acc = acc := rfl

theorem stackBest_cons (bp : Blueprint) (t : Nat) (r : Resources)
    (stack : List (Nat × Resources)) (acc : Nat) :
    stackBest bp ((t, r) :: stack) acc =
      stackBest bp stack (max acc (bestGeodes bp t r)) := rfl

theorem mem_if_singleton {α : Type} {c : Prop} [Decidable c] {a x : α} :
    (x ∈ (if c then [a] else [])) ↔ c ∧ x = a := by
  split_ifs with h
  · simp [h]
  · simp [h]

theorem mem_successors_iff {bp : Blueprint} {r x : Resources} :
    x ∈ successors bp r ↔
      (bp.geode_robot_ore_cost ≤ r.ore ∧ bp.geode_robot_obsidian_cost ≤ r.obsidian ∧
        x = { r.gather_resources with
          geode_robots := r.gather_resources.geode_robots + 1,
          ore := r.gather_resources.ore - bp.geode_robot_ore_cost,
          obsidian := r.gather_resources.obsidian - bp.geode_robot_obsidian_cost }) ∨
      (r.obsidian_robots < maxObsidianRobots bp ∧ bp.obsidian_robot_ore_cost ≤ r.ore ∧
        bp.obsidian_robot_clay_cost ≤ r.clay ∧
        x = { r.gather_resources with
          obsidian_robots := r.gather_resources.obsidian_robots + 1,
          ore := r.gather_resources.ore - bp.obsidian_robot_ore_cost,
          clay := r.gather_resources.clay - bp.obsidian_robot_clay_cost }) ∨
      (r.clay_robots < maxClayRobots bp ∧ bp.clay_robot_ore_cost ≤ r.ore ∧
        x = { r.gather_resources with
          clay_robots := r.gather_resources.clay_robots + 1,
          ore := r.gather_resources.ore - bp.clay_robot_ore_cost }) ∨
      (r.ore_robots < maxOreRobots bp ∧ bp.ore_robot_ore_cost ≤ r.ore ∧
        x = { r.gather_resources with
          ore_robots := r.gather_resources.ore_robots + 1,
          ore := r.gather_resources.ore - bp.ore_robot_ore_cost }) ∨
      x = r.gather_resources := by
  unfold successors
  simp only [List.mem_append, mem_if_singleton, List.mem_singleton]
  tauto

theorem successors_length (bp : Blueprint) (r : Resources) :
    (successors bp r).length ≤ 5 := by
  unfold successors
  split_ifs <;> simp

theorem successors_geode_facts {bp : Blueprint} {r x : Resources}
    (h : x ∈ successors bp r) :
    x.geodes = r.geodes + r.geode_robots ∧
      x.geode_robots ≤ r.geode_robots + 1 := by
  rcases mem_successors_iff.mp h with
    ⟨_, _, rfl⟩ | ⟨_, _, _, rfl⟩ | ⟨_, _, rfl⟩ | ⟨_, _, rfl⟩ | rfl <;>
    simp [Resources.gather_resources]

/-- The loop termination measure: `Σ 6^t` over the stack. -/
def stackMeasure : List (Nat × Resources) → Nat
  | [] => 0
  | (t, _) :: rest => 6 ^ t + stackMeasure rest

theorem stackMeasure_append :
    ∀ a b : List (Nat × Resources),
      stackMeasure (a ++ b) = stackMeasure a + stackMeasure b := by
  intro a b
  induction a with
  | nil => simp [stackMeasure]
  | cons p rest ih =>
    obtain ⟨t, r⟩ := p
    show 6 ^ t + stackMeasure (rest ++ b) = 6 ^ t + stackMeasure rest + stackMeasure b
    rw [ih]
    omega

theorem stackMeasure_reverse :
    ∀ l : List (Nat × Resources), stackMeasure l.reverse = stackMeasure l := by
  intro l
  induction l with
  | nil => rfl
  | cons p rest ih =>
    obtain ⟨t, r⟩ := p
    rw [List.reverse_cons, stackMeasure_append]
    simp only [stackMeasure, ih]
    omega

theorem stackMeasure_map (t : Nat) (l : List Resources) :
    stackMeasure (l.map (fun r => (t, r))) = l.length * 6 ^ t := by
  induction l with
  | nil => simp [stackMeasure]
  | cons r rest ih =>
    simp only [List.map_cons, stackMeasure, ih, List.length_cons]
    ring

theorem runPlans_total (bp : Blueprint) :
    ∀ (fuel : Nat) (stack : List (Nat × Resources)) (acc : Nat),
      stackMeasure stack < fuel → (runPlans bp fuel stack acc).isSome := by
  intro fuel
  induction fuel with
  | zero => intro _ _ h; cases h
  | succ fuel ih =>
    intro stack acc h
    match stack with
    | [] => rw [runPlans]; rfl
    | (t, r) :: rest =>
      rw [runPlans]
      rw [stackMeasure] at h
      by_cases ht : t = 0
      · rw [if_pos ht]
        apply ih
        subst ht
        simp only [pow_zero] at h
        omega
      · rw [if_neg ht]
        have hpow : 0 < 6 ^ (t - 1) := Nat.pos_pow_of_pos _ (by omega)
        have hpow6 : 6 ^ (t - 1) * 6 = 6 ^ t := by
          rw [← pow_succ]
          congr 1
          omega
        split_ifs with hprune
        · apply ih
          have : 0 < 6 ^ t := Nat.pos_pow_of_pos _ (by omega)
          omega
        · apply ih
          rw [stackMeasure_append, stackMeasure_reverse, stackMeasure_map]
          have hlen := successors_length bp r
          have : (successors bp r).length * 6 ^ (t - 1) ≤ 5 * 6 ^ (t - 1) :=
            Nat.mul_le_mul_right _ hlen
          omega

theorem runPlansNoPrune_total (bp : Blueprint) :
    ∀ (fuel : Nat) (stack : List (Nat × Resources)) (acc : Nat),
      stackMeasure stack < fuel → (runPlansNoPrune bp fuel stack acc).isSome := by
  intro fuel
  induction fuel with
  | zero => intro _ _ h; cases h
  | succ fuel ih =>
    intro stack acc h
    match stack with
    | [] => rw [runPlansNoPrune]; rfl
    | (t, r) :: rest =>
      rw [runPlansNoPrune]
      rw [stackMeasure] at h
      by_cases ht : t = 0
      · rw [if_pos ht]
        apply ih
        subst ht
        simp only [pow_zero] at h
        omega
      · rw [if_neg ht]
        have hpow : 0 < 6 ^ (t - 1) := Nat.pos_pow_of_pos _ (by omega)
        have hpow6 : 6 ^ (t - 1) * 6 = 6 ^ t := by
          rw [← pow_succ]
          congr 1
          omega
        apply ih
        rw [stackMeasure_append, stackMeasure_reverse, stackMeasure_map]
        have hlen := successors_length bp r
        have : (successors bp r).length * 6 ^ (t - 1) ≤ 5 * 6 ^ (t - 1) :=
          Nat.mul_le_mul_right _ hlen
        omega

theorem bestGeodes_le_srcBound (bp : Blueprint) :
    ∀ (t : Nat) (r : Resources),
      bestGeodes bp t r ≤ r.geodes + (t * r.geode_robots + (List.range t).sum) := by
  intro t
  induction t with
  | zero => intro r; simp [bestGeodes]
  | succ t ih =>
    intro r
    have hdef : bestGeodes bp (t + 1) r =
        (successors bp r).foldl (fun m r2 => max m (bestGeodes bp t r2)) 0 := rfl
    rw [hdef]
    have hsum : (List.range (t + 1)).sum = (List.range t).sum + t := by
      rw [List.range_succ]
      simp
    apply foldl_max_le
    intro x hx
    obtain ⟨hgeo, hrob⟩ := successors_geode_facts hx
    have h1 := ih x
    have hmul1 : t * (r.geode_robots + 1) = t * r.geode_robots + t := by ring
    have hmul2 : (t + 1) * r.geode_robots = t * r.geode_robots + r.geode_robots := by
      ring
    have hmono : t * x.geode_robots ≤ t * (r.geode_robots + 1) :=
      Nat.mul_le_mul_left t hrob
    omega

theorem runPlansNoPrune_correct (bp : Blueprint) :
    ∀ (fuel : Nat) (stack : List (Nat × Resources)) (acc v : Nat),
      runPlansNoPrune bp fuel stack acc = some v → v = stackBest bp stack acc := by
  intro fuel
  induction fuel with
  | zero => intro _ _ _ h; cases h
  | succ fuel ih =>
    intro stack acc v h
    match stack with
    | [] =>
      rw [runPlansNoPrune] at h
      cases h
      rfl
    | (t, r) :: rest =>
      rw [runPlansNoPrune] at h
      by_cases ht : t = 0
      · subst ht
        rw [if_pos rfl] at h
        rw [stackBest_cons]
        exact ih _ _ _ h
      · rw [if_neg ht] at h
        obtain ⟨t', rfl⟩ : ∃ t', t = t' + 1 := ⟨t - 1, by omega⟩
        simp only [Nat.add_sub_cancel] at h
        have hv := ih _ _ _ h
        rw [hv, stackBest_cons]
        unfold stackBest
        rw [List.foldl_append]
        congr 1
        rw [foldl_max_reverse (fun p : Nat × Resources => bestGeodes bp p.1 p.2),
          List.foldl_map]
        rw [foldl_max_acc (fun r2 : Resources => bestGeodes bp t' r2)
          (successors bp r) acc]
        rfl

theorem runPlans_correct (bp : Blueprint) :
    ∀ (fuel : Nat) (stack : List (Nat × Resources)) (acc v : Nat),
      runPlans bp fuel stack acc = some v → v = stackBest bp stack acc := by
  intro fuel
  induction fuel with
  | zero => intro _ _ _ h; cases h
  | succ fuel ih =>
    intro stack acc v h
    match stack with
    | [] =>
      rw [runPlans] at h
      cases h
      rfl
    | (t, r) :: rest =>
      rw [runPlans] at h
      by_cases ht : t = 0
      · subst ht
        rw [if_pos rfl] at h
        rw [stackBest_cons]
        exact ih _ _ _ h
      · rw [if_neg ht] at h
        obtain ⟨t', rfl⟩ : ∃ t', t = t' + 1 := ⟨t - 1, by omega⟩
        split_ifs at h with hprune
        · have hv := ih _ _ _ h
          rw [hv, stackBest_cons]
          have hbound := bestGeodes_le_srcBound bp (t' + 1) r
          have : max acc (bestGeodes bp (t' + 1) r) = acc := by omega
          rw [this]
        · simp only [Nat.add_sub_cancel] at h
          have hv := ih _ _ _ h
          rw [hv, stackBest_cons]
          unfold stackBest
          rw [List.foldl_append]
          congr 1
          rw [foldl_max_reverse (fun p : Nat × Resources => bestGeodes bp p.1 p.2),
            List.foldl_map]
          rw [foldl_max_acc (fun r2 : Resources => bestGeodes bp t' r2)
            (successors bp r) acc]
          rfl

theorem find_max_geodes_eq_best (bp : Blueprint) (t : Nat) :
    find_max_geodes bp t = some (bestGeodes bp t initial_state) := by
  have htot := runPlans_total bp (6 ^ t + 1) [(t, initial_state)] 0
    (by simp [stackMeasure])
  obtain ⟨v, hv⟩ := Option.isSome_iff_exists.mp htot
  have hc := runPlans_correct bp _ _ _ _ hv
  rw [find_max_geodes, hv, hc, stackBest_cons, stackBest_nil]
  congr 1
  omega

theorem find_max_geodes_no_prune_eq_best (bp : Blueprint) (t : Nat) :
    find_max_geodes_no_prune bp t = some (bestGeodes bp t initial_state) := by
  have htot := runPlansNoPrune_total bp (6 ^ t + 1) [(t, initial_state)] 0
    (by simp [stackMeasure])
  obtain ⟨v, hv⟩ := Option.isSome_iff_exists.mp htot
  have hc := runPlansNoPrune_correct bp _ _ _ _ hv
  rw [find_max_geodes_no_prune, hv, hc, stackBest_cons, stackBest_nil]
  congr 1
  omega

/-- The relaxed (ore-free) abstraction of a search state, used only to certify
an admissible optimistic bound for checking the pruned search. -/
structure RState where
  clay_robots : Nat
  obsidian_robots : Nat
  geode_robots : Nat
  clay : Nat
  obsidian : Nat
  geodes : Nat
deriving DecidableEq, Repr

def proj (r : Resources) : RState :=
  ⟨r.clay_robots, r.obsidian_robots, r.geode_robots, r.clay, r.obsidian, r.geodes⟩

/-- One minute of the relaxed greedy over-approximation: ore is free, a clay
robot is always built, an obsidian (resp. geode) robot is built whenever the
clay (resp. obsidian) on hand covers its cost. -/
def rstep (bp : Blueprint) (s : RState) : RState :=
  { clay_robots := s.clay_robots + 1,
    obsidian_robots := s.obsidian_robots +
      (if bp.obsidian_robot_clay_cost ≤ s.clay then 1 else 0),
    geode_robots := s.geode_robots +
      (if bp.geode_robot_obsidian_cost ≤ s.obsidian then 1 else 0),
    clay := s.clay + s.clay_robots -
      bp.obsidian_robot_clay_cost *
        (if bp.obsidian_robot_clay_cost ≤ s.clay then 1 else 0),
    obsidian := s.obsidian + s.obsidian_robots -
      bp.geode_robot_obsidian_cost *
        (if bp.geode_robot_obsidian_cost ≤ s.obsidian then 1 else 0),
    geodes := s.geodes + s.geode_robots }

def relaxBound (bp : Blueprint) : Nat → RState → Nat
  | 0, s => s.geodes
  | t + 1, s => relaxBound bp t (rstep bp s)

/-- Substitution preorder: a robot surplus substitutes for resources at the
build-cost exchange rate. -/
def rle (bp : Blueprint) (a b : RState) : Prop :=
  a.clay_robots ≤ b.clay_robots ∧
  a.obsidian_robots ≤ b.obsidian_robots ∧
  a.geode_robots ≤ b.geode_robots ∧
  a.geodes ≤ b.geodes ∧
  a.clay + bp.obsidian_robot_clay_cost * a.obsidian_robots ≤
    b.clay + bp.obsidian_robot_clay_cost * b.obsidian_robots ∧
  a.obsidian + bp.geode_robot_obsidian_cost * a.geode_robots ≤
    b.obsidian + bp.geode_robot_obsidian_cost * b.geode_robots

theorem rle_refl (bp : Blueprint) (s : RState) : rle bp s s :=
  ⟨Nat.le_refl _, Nat.le_refl _, Nat.le_refl _, Nat.le_refl _,
    Nat.le_refl _, Nat.le_refl _⟩

theorem pot_norm (c x w y : Nat) :
    (x + w - c * (if c ≤ x then 1 else 0)) + c * (y + (if c ≤ x then 1 else 0)) =
      x + w + c * y := by
  split_ifs with hx
  · have e1 : c * (y + 1) = c * y + c := by ring
    have e2 : c * 1 = c := by ring
    omega
  · have e1 : c * (y + 0) = c * y := by ring
    have e2 : c * 0 = 0 := by ring
    omega

theorem greedy_mono (c x y u v : Nat) (hxy : x + c * y ≤ u + c * v) (hy : y ≤ v) :
    y + (if c ≤ x then 1 else 0) ≤ v + (if c ≤ u then 1 else 0) := by
  split_ifs with hx hu hu
  · omega
  · have hlt : c * y < c * v := by omega
    have := Nat.lt_of_mul_lt_mul_left hlt
    omega
  · omega
  · omega

theorem rstep_mono {bp : Blueprint} {a b : RState} (h : rle bp a b) :
    rle bp (rstep bp a) (rstep bp b) := by
  obtain ⟨h1, h2, h3, h4, h5, h6⟩ := h
  unfold rle rstep
  dsimp only
  refine ⟨?_, ?_, ?_, ?_, ?_, ?_⟩
  · omega
  · exact greedy_mono bp.obsidian_robot_clay_cost a.clay a.obsidian_robots
      b.clay b.obsidian_robots h5 h2
  · exact greedy_mono bp.geode_robot_obsidian_cost a.obsidian a.geode_robots
      b.obsidian b.geode_robots h6 h3
  · omega
  · rw [pot_norm, pot_norm]
    omega
  · rw [pot_norm, pot_norm]
    omega

theorem succ_rle_rstep {bp : Blueprint} {r r2 : Resources}
    (h : r2 ∈ successors bp r) : rle bp (proj r2) (rstep bp (proj r)) := by
  have e1 : bp.geode_robot_obsidian_cost * (r.geode_robots + 1) =
      bp.geode_robot_obsidian_cost * r.geode_robots +
        bp.geode_robot_obsidian_cost := by ring
  have e2 : bp.obsidian_robot_clay_cost * (r.obsidian_robots + 1) =
      bp.obsidian_robot_clay_cost * r.obsidian_robots +
        bp.obsidian_robot_clay_cost := by ring
  rcases mem_successors_iff.mp h with
    ⟨hc1, hc2, rfl⟩ | ⟨hc0, hc1, hc2, rfl⟩ | ⟨hc0, hc1, rfl⟩ | ⟨hc0, hc1, rfl⟩ | rfl <;>
    unfold rle rstep proj Resources.gather_resources <;>
    dsimp only <;>
    refine ⟨?_, ?_, ?_, ?_, ?_, ?_⟩ <;>
    (try rw [pot_norm]) <;>
    (try split_ifs) <;>
    omega

theorem relaxBound_mono (bp : Blueprint) :
    ∀ (t : Nat) {a b : RState}, rle bp a b → relaxBound bp t a ≤ relaxBound bp t b := by
  intro t
  induction t with
  | zero => intro a b h; exact h.2.2.2.1
  | succ t ih => intro a b h; exact ih (rstep_mono h)

theorem bestGeodes_le_relaxBound (bp : Blueprint) :
    ∀ (t : Nat) (r : Resources), bestGeodes bp t r ≤ relaxBound bp t (proj r) := by
  intro t
  induction t with
  | zero => intro r; exact Nat.le_refl _
  | succ t ih =>
    intro r
    have hdef : bestGeodes bp (t + 1) r =
        (successors bp r).foldl (fun m r2 => max m (bestGeodes bp t r2)) 0 := rfl
    rw [hdef]
    apply foldl_max_le
    intro x hx
    exact Nat.le_trans (ih x) (relaxBound_mono bp t (succ_rle_rstep hx))

/-- One robot-building decision per minute, mirroring the five push cases. -/
inductive BuildAction
  | geode
  | obsidian
  | clay
  | ore
  | wait
deriving DecidableEq, Repr

def applyAction (bp : Blueprint) (r : Resources) : BuildAction → Option Resources
  | .geode =>
    if bp.geode_robot_ore_cost ≤ r.ore ∧ bp.geode_robot_obsidian_cost ≤ r.obsidian then
      some { r.gather_resources with
        geode_robots := r.gather_resources.geode_robots + 1,
        ore := r.gather_resources.ore - bp.geode_robot_ore_cost,
        obsidian := r.gather_resources.obsidian - bp.geode_robot_obsidian_cost }
    else none
  | .obsidian =>
    if r.obsidian_robots < maxObsidianRobots bp ∧
        bp.obsidian_robot_ore_cost ≤ r.ore ∧ bp.obsidian_robot_clay_cost ≤ r.clay then
      some { r.gather_resources with
        obsidian_robots := r.gather_resources.obsidian_robots + 1,
        ore := r.gather_resources.ore - bp.obsidian_robot_ore_cost,
        clay := r.gather_resources.clay - bp.obsidian_robot_clay_cost }
    else none
  | .clay =>
    if r.clay_robots < maxClayRobots bp ∧ bp.clay_robot_ore_cost ≤ r.ore then
      some { r.gather_resources with
        clay_robots := r.gather_resources.clay_robots + 1,
        ore := r.gather_resources.ore - bp.clay_robot_ore_cost }
    else none
  | .ore =>
    if r.ore_robots < maxOreRobots bp ∧ bp.ore_robot_ore_cost ≤ r.ore then
      some { r.gather_resources with
        ore_robots := r.gather_resources.ore_robots + 1,
        ore := r.gather_resources.ore - bp.ore_robot_ore_cost }
    else none
  | .wait => some r.gather_resources

theorem applyAction_mem {bp : Blueprint} {r r2 : Resources} {a : BuildAction}
    (h : applyAction bp r a = some r2) : r2 ∈ successors bp r := by
  apply mem_successors_iff.mpr
  cases a <;> rw [applyAction] at h
  · split_ifs at h with hc
    cases h
    exact Or.inl ⟨hc.1, hc.2, rfl⟩
  · split_ifs at h with hc
    cases h
    exact Or.inr (Or.inl ⟨hc.1, hc.2.1, hc.2.2, rfl⟩)
  · split_ifs at h with hc
    cases h
    exact Or.inr (Or.inr (Or.inl ⟨hc.1, hc.2, rfl⟩))
  · split_ifs at h with hc
    cases h
    exact Or.inr (Or.inr (Or.inr (Or.inl ⟨hc.1, hc.2, rfl⟩)))
  · cases h
    exact Or.inr (Or.inr (Or.inr (Or.inr rfl)))

def runActions (bp : Blueprint) : List BuildAction → Resources → Option Resources
  | [], r => some r
  | a :: rest, r =>
    match applyAction bp r a with
    | none => none
    | some r2 => runActions bp rest r2

theorem runActions_le_best (bp : Blueprint) :
    ∀ (acts : List BuildAction) (r r2 : Resources),
      runActions bp acts r = some r2 →
      r2.geodes ≤ bestGeodes bp acts.length r := by
  intro acts
  induction acts with
  | nil =>
    intro r r2 h
    rw [runActions] at h
    cases h
    exact Nat.le_refl _
  | cons a rest ih =>
    intro r r2 h
    rw [runActions] at h
    cases ha : applyAction bp r a with
    | none => rw [ha] at h; cases h
    | some r1 =>
      rw [ha] at h
      dsimp only at h
      have h1 := ih r1 r2 h
      have hmem := applyAction_mem ha
      have hdef : bestGeodes bp (rest.length + 1) r =
          (successors bp r).foldl
            (fun m r3 => max m (bestGeodes bp rest.length r3)) 0 := rfl
      rw [List.length_cons, hdef]
      exact Nat.le_trans h1
        (foldl_max_ge_mem (fun r3 => bestGeodes bp rest.length r3)
          (successors bp r) r1 hmem)

/-- Forces a machine integer to a literal before continuing, so that kernel
evaluation of the search below is call-by-value. -/
def withNat {α : Type} : Nat → (Nat → α) → α
  | 0, k => k 0
  | n + 1, k => k (n + 1)

theorem withNat_eq {α : Type} (n : Nat) (k : Nat → α) : withNat n k = k n := by
  cases n <;> rfl

def forceRes (r : Resources) (k : Resources → Nat) : Nat :=
  withNat r.ore_robots fun a =>
  withNat r.clay_robots fun b =>
  withNat r.obsidian_robots fun c =>
  withNat r.geode_robots fun d =>
  withNat r.ore fun e =>
  withNat r.clay fun f =>
  withNat r.obsidian fun g =>
  withNat r.geodes fun h =>
  k ⟨a, b, c, d, e, f, g, h⟩

theorem forceRes_eq (r : Resources) (k : Resources → Nat) : forceRes r k = k r := by
  unfold forceRes
  rw [withNat_eq, withNat_eq, withNat_eq, withNat_eq, withNat_eq, withNat_eq,
    withNat_eq, withNat_eq]

/-- The relaxed greedy bound as an evaluation-friendly loop over bare machine
integers, with an early exit to the closed form once the greedy schedule is
saturated (building an obsidian and a geode robot every remaining minute). -/
def fastHybrid (bc gb : Nat) : Nat → Nat → Nat → Nat → Nat → Nat → Nat → Nat
  | 0, _, _, _, _, _, ge => ge
  | t + 1, cr, orr, gr, cl, ob, ge =>
    withNat cr fun cr2 => withNat orr fun orr2 => withNat gr fun gr2 =>
    withNat cl fun cl2 => withNat ob fun ob2 => withNat ge fun ge2 =>
    withNat (cond (Nat.ble bc cl2) 1 0) fun bo =>
    withNat (cond (Nat.ble gb ob2) 1 0) fun bg =>
    cond (Nat.ble bc cl2 && (Nat.ble bc cr2 && (Nat.ble gb ob2 && Nat.ble gb orr2)))
      (ge2 + (t + 1) * gr2 + (t + 1) * t / 2)
      (fastHybrid bc gb t (cr2 + 1) (orr2 + bo) (gr2 + bg)
        (cl2 + cr2 - bc * bo) (ob2 + orr2 - gb * bg) (ge2 + gr2))

theorem fastHybrid_succ (bc gb t cr orr gr cl ob ge : Nat) :
    fastHybrid bc gb (t + 1) cr orr gr cl ob ge =
      cond (Nat.ble bc cl && (Nat.ble bc cr && (Nat.ble gb ob && Nat.ble gb orr)))
        (ge + (t + 1) * gr + (t + 1) * t / 2)
        (fastHybrid bc gb t (cr + 1) (orr + cond (Nat.ble bc cl) 1 0)
          (gr + cond (Nat.ble gb ob) 1 0)
          (cl + cr - bc * cond (Nat.ble bc cl) 1 0)
          (ob + orr - gb * cond (Nat.ble gb ob) 1 0)
          (ge + gr)) := by
  rw [fastHybrid]
  rw [withNat_eq, withNat_eq, withNat_eq, withNat_eq, withNat_eq, withNat_eq,
    withNat_eq, withNat_eq]

/-- `successors` with decisions on `Bool`, for cheap kernel evaluation. -/
def successorsB (bp : Blueprint) (resources : Resources) : List Resources :=
  let updated_resources := resources.gather_resources
  (cond (Nat.ble bp.geode_robot_ore_cost resources.ore &&
      Nat.ble bp.geode_robot_obsidian_cost resources.obsidian)
    [{ updated_resources with
        geode_robots := updated_resources.geode_robots + 1,
        ore := updated_resources.ore - bp.geode_robot_ore_cost,
        obsidian := updated_resources.obsidian - bp.geode_robot_obsidian_cost }]
    []) ++
  (cond (Nat.blt resources.obsidian_robots (maxObsidianRobots bp) &&
      (Nat.ble bp.obsidian_robot_ore_cost resources.ore &&
      Nat.ble bp.obsidian_robot_clay_cost resources.clay))
    [{ updated_resources with
        obsidian_robots := updated_resources.obsidian_robots + 1,
        ore := updated_resources.ore - bp.obsidian_robot_ore_cost,
        clay := updated_resources.clay - bp.obsidian_robot_clay_cost }]
    []) ++
  (cond (Nat.blt resources.clay_robots (maxClayRobots bp) &&
      Nat.ble bp.clay_robot_ore_cost resources.ore)
    [{ updated_resources with
        clay_robots := updated_resources.clay_robots + 1,
        ore := updated_resources.ore - bp.clay_robot_ore_cost }]
    []) ++
  (cond (Nat.blt resources.ore_robots (maxOreRobots bp) &&
      Nat.ble bp.ore_robot_ore_cost resources.ore)
    [{ updated_resources with
        ore_robots := updated_resources.ore_robots + 1,
        ore := updated_resources.ore - bp.ore_robot_ore_cost }]
    []) ++
  [updated_resources]

theorem cond_ble {α : Type} (c a : Nat) (x y : α) :
    cond (Nat.ble c a) x y = if c ≤ a then x else y := by
  by_cases h : c ≤ a
  · rw [if_pos h]
    have hb : Nat.ble c a = true := Nat.ble_eq.mpr h
    rw [hb]
    rfl
  · rw [if_neg h]
    have hb : Nat.ble c a = false := by
      cases hble : Nat.ble c a
      · rfl
      · exact absurd (Nat.ble_eq.mp hble) h
    rw [hb]
    rfl

theorem cond_blt {α : Type} (c a : Nat) (x y : α) :
    cond (Nat.blt c a) x y = if c < a then x else y := by
  by_cases h : c < a
  · rw [if_pos h]
    have hb : Nat.blt c a = true := Nat.blt_eq.mpr h
    rw [hb]
    rfl
  · rw [if_neg h]
    have hb : Nat.blt c a = false := by
      cases hble : Nat.blt c a
      · rfl
      · exact absurd (Nat.blt_eq.mp hble) h
    rw [hb]
    rfl

theorem cond_and {α : Type} (a b : Bool) (x y : α) :
    cond (a && b) x y = cond a (cond b x y) y := by
  cases a <;> cases b <;> rfl

theorem successorsB_eq (bp : Blueprint) (r : Resources) :
    successorsB bp r = successors bp r := by
  unfold successorsB successors
  simp only [cond_and, cond_ble, cond_blt, ite_and]

/-- The pruned depth-first search actually evaluated on the fixtures: prune a
node whenever the relaxed bound cannot beat the candidate optimum `v`. -/
def prunedBest (bp : Blueprint) (v : Nat) : Nat → Resources → Nat
  | 0, r => r.geodes
  | t + 1, r => forceRes r fun r2 =>
    cond (Nat.ble (r2.geodes + ((t + 1) * r2.geode_robots + (t + 1) * t / 2)) v)
      0
      (cond (Nat.ble (fastHybrid bp.obsidian_robot_clay_cost
          bp.geode_robot_obsidian_cost (t + 1) r2.clay_robots r2.obsidian_robots
          r2.geode_robots r2.clay r2.obsidian r2.geodes) v)
        0
        ((successorsB bp r2).foldl (fun m r3 => max m (prunedBest bp v t r3)) 0))

theorem prunedBest_succ (bp : Blueprint) (v t : Nat) (r : Resources) :
    prunedBest bp v (t + 1) r =
      cond (Nat.ble (r.geodes + ((t + 1) * r.geode_robots + (t + 1) * t / 2)) v)
        0
        (cond (Nat.ble (fastHybrid bp.obsidian_robot_clay_cost
            bp.geode_robot_obsidian_cost (t + 1) r.clay_robots r.obsidian_robots
            r.geode_robots r.clay r.obsidian r.geodes) v)
          0
          ((successorsB bp r).foldl (fun m r3 => max m (prunedBest bp v t r3)) 0)) := by
  rw [prunedBest, forceRes_eq]

theorem two_mul_range_sum : ∀ n : Nat, 2 * (List.range n).sum = n * (n - 1) := by
  intro n
  induction n with
  | zero => rfl
  | succ n ih =>
    rw [List.range_succ]
    simp only [List.sum_append, List.sum_cons, List.sum_nil]
    have e1 : (n + 1) * (n + 1 - 1) = n * (n - 1) + 2 * n := by
      cases n with
      | zero => rfl
      | succ m =>
        simp only [Nat.add_sub_cancel]
        ring
    omega

theorem relaxBound_le_srcForm (bp : Blueprint) :
    ∀ (t : Nat) (σ : RState),
      relaxBound bp t σ ≤ σ.geodes + (t * σ.geode_robots + (List.range t).sum) := by
  intro t
  induction t with
  | zero => intro σ; simp [relaxBound]
  | succ t ih =>
    intro σ
    have h := ih (rstep bp σ)
    have hge : (rstep bp σ).geodes = σ.geodes + σ.geode_robots := rfl
    have hgr : (rstep bp σ).geode_robots ≤ σ.geode_robots + 1 := by
      show σ.geode_robots + (if _ then 1 else 0) ≤ _
      split_ifs <;> omega
    have hsum : (List.range (t + 1)).sum = (List.range t).sum + t := by
      rw [List.range_succ]
      simp
    have hmul : t * (σ.geode_robots + 1) = t * σ.geode_robots + t := by ring
    have hmul2 : (t + 1) * σ.geode_robots = t * σ.geode_robots + σ.geode_robots := by
      ring
    have hmono : t * (rstep bp σ).geode_robots ≤ t * (σ.geode_robots + 1) :=
      Nat.mul_le_mul_left t hgr
    have hstep : relaxBound bp (t + 1) σ = relaxBound bp t (rstep bp σ) := rfl
    omega

theorem relax_le_fastHybrid (bp : Blueprint) :
    ∀ (t : Nat) (σ : RState),
      relaxBound bp t σ ≤
        fastHybrid bp.obsidian_robot_clay_cost bp.geode_robot_obsidian_cost t
          σ.clay_robots σ.obsidian_robots σ.geode_robots σ.clay σ.obsidian σ.geodes := by
  intro t
  induction t with
  | zero => intro σ; exact Nat.le_refl _
  | succ t ih =>
    intro σ
    rw [fastHybrid_succ]
    cases hb : (Nat.ble bp.obsidian_robot_clay_cost σ.clay &&
        (Nat.ble bp.obsidian_robot_clay_cost σ.clay_robots &&
        (Nat.ble bp.geode_robot_obsidian_cost σ.obsidian &&
        Nat.ble bp.geode_robot_obsidian_cost σ.obsidian_robots)))
    · rw [Bool.cond_false]
      have h := ih (rstep bp σ)
      rw [cond_ble, cond_ble]
      exact h
    · rw [Bool.cond_true]
      have h1 := relaxBound_le_srcForm bp (t + 1) σ
      have h2 := two_mul_range_sum (t + 1)
      have e1 : (t + 1) * (t + 1 - 1) = (t + 1) * t := by
        simp only [Nat.add_sub_cancel]
      omega

theorem bestGeodes_le_pruned (bp : Blueprint) (v : Nat) :
    ∀ (t : Nat) (r : Resources), bestGeodes bp t r ≤ max v (prunedBest bp v t r) := by
  intro t
  induction t with
  | zero =>
    intro r
    show r.geodes ≤ max v r.geodes
    omega
  | succ t ih =>
    intro r
    rw [prunedBest_succ]
    cases hb0 : Nat.ble (r.geodes + ((t + 1) * r.geode_robots + (t + 1) * t / 2)) v
    case true =>
      rw [Bool.cond_true]
      have hle0 : r.geodes + ((t + 1) * r.geode_robots + (t + 1) * t / 2) ≤ v :=
        Nat.le_of_ble_eq_true hb0
      have h1 := bestGeodes_le_srcBound bp (t + 1) r
      have h2 := two_mul_range_sum (t + 1)
      have e1 : (t + 1) * (t + 1 - 1) = (t + 1) * t := by
        simp only [Nat.add_sub_cancel]
      have h3 : bestGeodes bp (t + 1) r ≤ v := by omega
      exact Nat.le_trans h3 (Nat.le_max_left v 0)
    case false =>
    rw [Bool.cond_false]
    cases hb : Nat.ble (fastHybrid bp.obsidian_robot_clay_cost
        bp.geode_robot_obsidian_cost (t + 1) r.clay_robots r.obsidian_robots
        r.geode_robots r.clay r.obsidian r.geodes) v
    · rw [Bool.cond_false]
      rw [successorsB_eq]
      have hdef : bestGeodes bp (t + 1) r =
          (successors bp r).foldl (fun m r2 => max m (bestGeodes bp t r2)) 0 := rfl
      rw [hdef]
      apply foldl_max_le
      intro x hx
      have h1 := ih x
      have h2 := foldl_max_ge_mem (fun r3 => prunedBest bp v t r3)
        (successors bp r) x hx
      dsimp only at h2
      omega
    · rw [Bool.cond_true]
      have hle : fastHybrid bp.obsidian_robot_clay_cost bp.geode_robot_obsidian_cost
          (t + 1) r.clay_robots r.obsidian_robots r.geode_robots
          r.clay r.obsidian r.geodes ≤ v := Nat.le_of_ble_eq_true hb
      have h1 := bestGeodes_le_relaxBound bp (t + 1) r
      have h2 := relax_le_fastHybrid bp (t + 1) (proj r)
      exact Nat.le_trans (Nat.le_trans h1 (Nat.le_trans h2 hle))
        (Nat.le_max_left v 0)

def example_blueprint_1 : Blueprint := ⟨1, 4, 2, 3, 14, 2, 7⟩

def example_blueprint_2 : Blueprint := ⟨2, 2, 3, 3, 8, 3, 12⟩

def schedule_1_24 : List BuildAction :=
  [.wait, .wait, .clay, .wait, .clay, .wait, .clay, .wait, .wait, .wait,
   .obsidian, .clay, .wait, .wait, .obsidian, .wait, .wait, .geode, .clay,
   .wait, .geode, .wait, .clay, .wait]

def schedule_2_24 : List BuildAction :=
  [.wait, .wait, .ore, .wait, .ore, .clay, .clay, .clay, .clay, .clay,
   .obsidian, .clay, .obsidian, .obsidian, .obsidian, .clay, .obsidian, .geode,
   .obsidian, .geode, .obsidian, .geode, .obsidian, .geode]

def schedule_1_32 : List BuildAction :=
  [.wait, .wait, .wait, .wait, .ore, .wait, .clay, .clay, .clay, .clay, .clay,
   .clay, .clay, .obsidian, .wait, .obsidian, .obsidian, .wait, .geode,
   .obsidian, .obsidian, .geode, .geode, .wait, .geode, .geode, .geode,
   .obsidian, .geode, .geode, .geode, .geode]

def schedule_2_32 : List BuildAction :=
  [.wait, .wait, .ore, .wait, .ore, .clay, .clay, .clay, .clay, .clay,
   .obsidian, .clay, .obsidian, .obsidian, .obsidian, .clay, .obsidian, .geode,
   .obsidian, .geode, .obsidian, .geode, .obsidian, .geode, .obsidian, .geode,
   .geode, .geode, .obsidian, .geode, .geode, .geode]

set_option maxRecDepth 100000 in
set_option maxHeartbeats 400000000 in
theorem prunedBest_eval_1_24 :
    prunedBest example_blueprint_1 9 24 initial_state = 0 := by
  rfl

set_option maxRecDepth 100000 in
set_option maxHeartbeats 400000000 in
theorem prunedBest_eval_2_24 :
    prunedBest example_blueprint_2 12 24 initial_state = 0 := by
  rfl

set_option maxRecDepth 100000 in
set_option maxHeartbeats 400000000 in
theorem e32_1_eval_39 :
    prunedBest example_blueprint_1 56 26 ⟨1, 0, 0, 0, 6, 0, 0, 0⟩ = 0 := by
  rfl

theorem e32_1_bound_39 :
    bestGeodes example_blueprint_1 26 ⟨1, 0, 0, 0, 6, 0, 0, 0⟩ ≤ 56 := by
  have h := bestGeodes_le_pruned example_blueprint_1 56 26 ⟨1, 0, 0, 0, 6, 0, 0, 0⟩
  rw [e32_1_eval_39] at h
  omega

set_option maxRecDepth 100000 in
set_option maxHeartbeats 400000000 in
theorem e32_1_eval_38 :
    prunedBest example_blueprint_1 56 25 ⟨2, 0, 0, 0, 4, 0, 0, 0⟩ = 0 := by
  rfl

theorem e32_1_bound_38 :
    bestGeodes example_blueprint_1 25 ⟨2, 0, 0, 0, 4, 0, 0, 0⟩ ≤ 56 := by
  have h := bestGeodes_le_pruned example_blueprint_1 56 25 ⟨2, 0, 0, 0, 4, 0, 0, 0⟩
  rw [e32_1_eval_38] at h
  omega

set_option maxRecDepth 100000 in
set_option maxHeartbeats 400000000 in
theorem e32_1_eval_37 :
    prunedBest example_blueprint_1 56 24 ⟨2, 1, 0, 0, 4, 1, 0, 0⟩ = 0 := by
  rfl

theorem e32_1_bound_37 :
    bestGeodes example_blueprint_1 24 ⟨2, 1, 0, 0, 4, 1, 0, 0⟩ ≤ 56 := by
  have h := bestGeodes_le_pruned example_blueprint_1 56 24 ⟨2, 1, 0, 0, 4, 1, 0, 0⟩
  rw [e32_1_eval_37] at h
  omega

set_option maxRecDepth 100000 in
set_option maxHeartbeats 400000000 in
theorem e32_1_eval_36 :
    prunedBest example_blueprint_1 56 23 ⟨2, 2, 0, 0, 4, 3, 0, 0⟩ = 0 := by
  rfl

theorem e32_1_bound_36 :
    bestGeodes example_blueprint_1 23 ⟨2, 2, 0, 0, 4, 3, 0, 0⟩ ≤ 56 := by
  have h := bestGeodes_le_pruned example_blueprint_1 56 23 ⟨2, 2, 0, 0, 4, 3, 0, 0⟩
  rw [e32_1_eval_36] at h
  omega

set_option maxRecDepth 100000 in
set_option maxHeartbeats 400000000 in
theorem e32_1_eval_35 :
    prunedBest example_blueprint_1 56 23 ⟨2, 3, 0, 0, 2, 3, 0, 0⟩ = 0 := by
  rfl

theorem e32_1_bound_35 :
    bestGeodes example_blueprint_1 23 ⟨2, 3, 0, 0, 2, 3, 0, 0⟩ ≤ 56 := by
  have h := bestGeodes_le_pruned example_blueprint_1 56 23 ⟨2, 3, 0, 0, 2, 3, 0, 0⟩
  rw [e32_1_eval_35] at h
  omega

theorem e32_1_bound_34 :
    bestGeodes example_blueprint_1 24 ⟨2, 2, 0, 0, 2, 1, 0, 0⟩ ≤ 56 := by
  have hdef : bestGeodes example_blueprint_1 24 ⟨2, 2, 0, 0, 2, 1, 0, 0⟩ =
      (successors example_blueprint_1 ⟨2, 2, 0, 0, 2, 1, 0, 0⟩).foldl
        (fun m r2 => max m (bestGeodes example_blueprint_1 23 r2)) 0 := rfl
  have hsucc : successors example_blueprint_1 ⟨2, 2, 0, 0, 2, 1, 0, 0⟩ =
      [⟨2, 3, 0, 0, 2, 3, 0, 0⟩, ⟨2, 2, 0, 0, 4, 3, 0, 0⟩] := by rfl
  rw [hdef, hsucc]
  apply foldl_max_le
  intro x hx
  simp only [List.mem_cons, List.not_mem_nil, or_false] at hx
  rcases hx with rfl | rfl
  exacts [e32_1_bound_35, e32_1_bound_36]

theorem e32_1_bound_33 :
    bestGeodes example_blueprint_1 25 ⟨2, 1, 0, 0, 2, 0, 0, 0⟩ ≤ 56 := by
  have hdef : bestGeodes example_blueprint_1 25 ⟨2, 1, 0, 0, 2, 0, 0, 0⟩ =
      (successors example_blueprint_1 ⟨2, 1, 0, 0, 2, 0, 0, 0⟩).foldl
        (fun m r2 => max m (bestGeodes example_blueprint_1 24 r2)) 0 := rfl
  have hsucc : successors example_blueprint_1 ⟨2, 1, 0, 0, 2, 0, 0, 0⟩ =
      [⟨2, 2, 0, 0, 2, 1, 0, 0⟩, ⟨2, 1, 0, 0, 4, 1, 0, 0⟩] := by rfl
  rw [hdef, hsucc]
  apply foldl_max_le
  intro x hx
  simp only [List.mem_cons, List.not_mem_nil, or_false] at hx
  rcases hx with rfl | rfl
  exacts [e32_1_bound_34, e32_1_bound_37]

theorem e32_1_bound_32 :
    bestGeodes example_blueprint_1 26 ⟨2, 0, 0, 0, 2, 0, 0, 0⟩ ≤ 56 := by
  have hdef : bestGeodes example_blueprint_1 26 ⟨2, 0, 0, 0, 2, 0, 0, 0⟩ =
      (successors example_blueprint_1 ⟨2, 0, 0, 0, 2, 0, 0, 0⟩).foldl
        (fun m r2 => max m (bestGeodes example_blueprint_1 25 r2)) 0 := rfl
  have hsucc : successors example_blueprint_1 ⟨2, 0, 0, 0, 2, 0, 0, 0⟩ =
      [⟨2, 1, 0, 0, 2, 0, 0, 0⟩, ⟨2, 0, 0, 0, 4, 0, 0, 0⟩] := by rfl
  rw [hdef, hsucc]
  apply foldl_max_le
  intro x hx
  simp only [List.mem_cons, List.not_mem_nil, or_false] at hx
  rcases hx with rfl | rfl
  exacts [e32_1_bound_33, e32_1_bound_38]

set_option maxRecDepth 100000 in
set_option maxHeartbeats 400000000 in
theorem e32_1_eval_31 :
    prunedBest example_blueprint_1 56 26 ⟨1, 1, 0, 0, 4, 0, 0, 0⟩ = 0 := by
  rfl

theorem e32_1_bound_31 :
    bestGeodes example_blueprint_1 26 ⟨1, 1, 0, 0, 4, 0, 0, 0⟩ ≤ 56 := by
  have h := bestGeodes_le_pruned example_blueprint_1 56 26 ⟨1, 1, 0, 0, 4, 0, 0, 0⟩
  rw [e32_1_eval_31] at h
  omega

theorem e32_1_bound_30 :
    bestGeodes example_blueprint_1 27 ⟨1, 0, 0, 0, 5, 0, 0, 0⟩ ≤ 56 := by
  have hdef : bestGeodes example_blueprint_1 27 ⟨1, 0, 0, 0, 5, 0, 0, 0⟩ =
      (successors example_blueprint_1 ⟨1, 0, 0, 0, 5, 0, 0, 0⟩).foldl
        (fun m r2 => max m (bestGeodes example_blueprint_1 26 r2)) 0 := rfl
  have hsucc : successors example_blueprint_1 ⟨1, 0, 0, 0, 5, 0, 0, 0⟩ =
      [⟨1, 1, 0, 0, 4, 0, 0, 0⟩, ⟨2, 0, 0, 0, 2, 0, 0, 0⟩, ⟨1, 0, 0, 0, 6, 0, 0, 0⟩] := by rfl
  rw [hdef, hsucc]
  apply foldl_max_le
  intro x hx
  simp only [List.mem_cons, List.not_mem_nil, or_false] at hx
  rcases hx with rfl | rfl | rfl
  exacts [e32_1_bound_31, e32_1_bound_32, e32_1_bound_39]

set_option maxRecDepth 100000 in
set_option maxHeartbeats 400000000 in
theorem e32_1_eval_29 :
    prunedBest example_blueprint_1 56 25 ⟨2, 0, 0, 0, 5, 0, 0, 0⟩ = 0 := by
  rfl

theorem e32_1_bound_29 :
    bestGeodes example_blueprint_1 25 ⟨2, 0, 0, 0, 5, 0, 0, 0⟩ ≤ 56 := by
  have h := bestGeodes_le_pruned example_blueprint_1 56 25 ⟨2, 0, 0, 0, 5, 0, 0, 0⟩
  rw [e32_1_eval_29] at h
  omega

set_option maxRecDepth 100000 in
set_option maxHeartbeats 400000000 in
theorem e32_1_eval_28 :
    prunedBest example_blueprint_1 56 24 ⟨2, 1, 0, 0, 5, 1, 0, 0⟩ = 0 := by
  rfl

theorem e32_1_bound_28 :
    bestGeodes example_blueprint_1 24 ⟨2, 1, 0, 0, 5, 1, 0, 0⟩ ≤ 56 := by
  have h := bestGeodes_le_pruned example_blueprint_1 56 24 ⟨2, 1, 0, 0, 5, 1, 0, 0⟩
  rw [e32_1_eval_28] at h
  omega

set_option maxRecDepth 100000 in
set_option maxHeartbeats 400000000 in
theorem e32_1_eval_27 :
    prunedBest example_blueprint_1 56 23 ⟨2, 2, 0, 0, 5, 3, 0, 0⟩ = 0 := by
  rfl

theorem e32_1_bound_27 :
    bestGeodes example_blueprint_1 23 ⟨2, 2, 0, 0, 5, 3, 0, 0⟩ ≤ 56 := by
  have h := bestGeodes_le_pruned example_blueprint_1 56 23 ⟨2, 2, 0, 0, 5, 3, 0, 0⟩
  rw [e32_1_eval_27] at h
  omega

set_option maxRecDepth 100000 in
set_option maxHeartbeats 400000000 in
theorem e32_1_eval_26 :
    prunedBest example_blueprint_1 56 22 ⟨2, 3, 0, 0, 5, 6, 0, 0⟩ = 0 := by
  rfl

theorem e32_1_bound_26 :
    bestGeodes example_blueprint_1 22 ⟨2, 3, 0, 0, 5, 6, 0, 0⟩ ≤ 56 := by
  have h := bestGeodes_le_pruned example_blueprint_1 56 22 ⟨2, 3, 0, 0, 5, 6, 0, 0⟩
  rw [e32_1_eval_26] at h
  omega

set_option maxRecDepth 100000 in
set_option maxHeartbeats 400000000 in
theorem e32_1_eval_25 :
    prunedBest example_blueprint_1 56 21 ⟨2, 4, 0, 0, 5, 10, 0, 0⟩ = 0 := by
  rfl

theorem e32_1_bound_25 :
    bestGeodes example_blueprint_1 21 ⟨2, 4, 0, 0, 5, 10, 0, 0⟩ ≤ 56 := by
  have h := bestGeodes_le_pruned example_blueprint_1 56 21 ⟨2, 4, 0, 0, 5, 10, 0, 0⟩
  rw [e32_1_eval_25] at h
  omega

set_option maxRecDepth 100000 in
set_option maxHeartbeats 400000000 in
theorem e32_1_eval_24 :
    prunedBest example_blueprint_1 56 20 ⟨2, 5, 0, 0, 5, 15, 0, 0⟩ = 0 := by
  rfl

theorem e32_1_bound_24 :
    bestGeodes example_blueprint_1 20 ⟨2, 5, 0, 0, 5, 15, 0, 0⟩ ≤ 56 := by
  have h := bestGeodes_le_pruned example_blueprint_1 56 20 ⟨2, 5, 0, 0, 5, 15, 0, 0⟩
  rw [e32_1_eval_24] at h
  omega

set_option maxRecDepth 100000 in
set_option maxHeartbeats 400000000 in
theorem e32_1_eval_23 :
    prunedBest example_blueprint_1 56 19 ⟨2, 6, 0, 0, 5, 21, 0, 0⟩ = 0 := by
  rfl

theorem e32_1_bound_23 :
    bestGeodes example_blueprint_1 19 ⟨2, 6, 0, 0, 5, 21, 0, 0⟩ ≤ 56 := by
  have h := bestGeodes_le_pruned example_blueprint_1 56 19 ⟨2, 6, 0, 0, 5, 21, 0, 0⟩
  rw [e32_1_eval_23] at h
  omega

set_option maxRecDepth 100000 in
set_option maxHeartbeats 400000000 in
theorem e32_1_eval_22 :
    prunedBest example_blueprint_1 56 19 ⟨2, 7, 0, 0, 3, 21, 0, 0⟩ = 0 := by
  rfl

theorem e32_1_bound_22 :
    bestGeodes example_blueprint_1 19 ⟨2, 7, 0, 0, 3, 21, 0, 0⟩ ≤ 56 := by
  have h := bestGeodes_le_pruned example_blueprint_1 56 19 ⟨2, 7, 0, 0, 3, 21, 0, 0⟩
  rw [e32_1_eval_22] at h
  omega

set_option maxRecDepth 100000 in
set_option maxHeartbeats 400000000 in
theorem e32_1_eval_21 :
    prunedBest example_blueprint_1 56 19 ⟨2, 6, 1, 0, 2, 7, 0, 0⟩ = 0 := by
  rfl

theorem e32_1_bound_21 :
    bestGeodes example_blueprint_1 19 ⟨2, 6, 1, 0, 2, 7, 0, 0⟩ ≤ 56 := by
  have h := bestGeodes_le_pruned example_blueprint_1 56 19 ⟨2, 6, 1, 0, 2, 7, 0, 0⟩
  rw [e32_1_eval_21] at h
  omega

theorem e32_1_bound_20 :
    bestGeodes example_blueprint_1 20 ⟨2, 6, 0, 0, 3, 15, 0, 0⟩ ≤ 56 := by
  have hdef : bestGeodes example_blueprint_1 20 ⟨2, 6, 0, 0, 3, 15, 0, 0⟩ =
      (successors example_blueprint_1 ⟨2, 6, 0, 0, 3, 15, 0, 0⟩).foldl
        (fun m r2 => max m (bestGeodes example_blueprint_1 19 r2)) 0 := rfl
  have hsucc : successors example_blueprint_1 ⟨2, 6, 0, 0, 3, 15, 0, 0⟩ =
      [⟨2, 6, 1, 0, 2, 7, 0, 0⟩, ⟨2, 7, 0, 0, 3, 21, 0, 0⟩, ⟨2, 6, 0, 0, 5, 21, 0, 0⟩] := by rfl
  rw [hdef, hsucc]
  apply foldl_max_le
  intro x hx
  simp only [List.mem_cons, List.not_mem_nil, or_false] at hx
  rcases hx with rfl | rfl | rfl
  exacts [e32_1_bound_21, e32_1_bound_22, e32_1_bound_23]

theorem e32_1_bound_19 :
    bestGeodes example_blueprint_1 21 ⟨2, 5, 0, 0, 3, 10, 0, 0⟩ ≤ 56 := by
  have hdef : bestGeodes example_blueprint_1 21 ⟨2, 5, 0, 0, 3, 10, 0, 0⟩ =
      (successors example_blueprint_1 ⟨2, 5, 0, 0, 3, 10, 0, 0⟩).foldl
        (fun m r2 => max m (bestGeodes example_blueprint_1 20 r2)) 0 := rfl
  have hsucc : successors example_blueprint_1 ⟨2, 5, 0, 0, 3, 10, 0, 0⟩ =
      [⟨2, 6, 0, 0, 3, 15, 0, 0⟩, ⟨2, 5, 0, 0, 5, 15, 0, 0⟩] := by rfl
  rw [hdef, hsucc]
  apply foldl_max_le
  intro x hx
  simp only [List.mem_cons, List.not_mem_nil, or_false] at hx
  rcases hx with rfl | rfl
  exacts [e32_1_bound_20, e32_1_bound_24]

theorem e32_1_bound_18 :
    bestGeodes example_blueprint_1 22 ⟨2, 4, 0, 0, 3, 6, 0, 0⟩ ≤ 56 := by
  have hdef : bestGeodes example_blueprint_1 22 ⟨2, 4, 0, 0, 3, 6, 0, 0⟩ =
      (successors example_blueprint_1 ⟨2, 4, 0, 0, 3, 6, 0, 0⟩).foldl
        (fun m r2 => max m (bestGeodes example_blueprint_1 21 r2)) 0 := rfl
  have hsucc : successors example_blueprint_1 ⟨2, 4, 0, 0, 3, 6, 0, 0⟩ =
      [⟨2, 5, 0, 0, 3, 10, 0, 0⟩, ⟨2, 4, 0, 0, 5, 10, 0, 0⟩] := by rfl
  rw [hdef, hsucc]
  apply foldl_max_le
  intro x hx
  simp only [List.mem_cons, List.not_mem_nil, or_false] at hx
  rcases hx with rfl | rfl
  exacts [e32_1_bound_19, e32_1_bound_25]

theorem e32_1_bound_17 :
    bestGeodes example_blueprint_1 23 ⟨2, 3, 0, 0, 3, 3, 0, 0⟩ ≤ 56 := by
  have hdef : bestGeodes example_blueprint_1 23 ⟨2, 3, 0, 0, 3, 3, 0, 0⟩ =
      (successors example_blueprint_1 ⟨2, 3, 0, 0, 3, 3, 0, 0⟩).foldl
        (fun m r2 => max m (bestGeodes example_blueprint_1 22 r2)) 0 := rfl
  have hsucc : successors example_blueprint_1 ⟨2, 3, 0, 0, 3, 3, 0, 0⟩ =
      [⟨2, 4, 0, 0, 3, 6, 0, 0⟩, ⟨2, 3, 0, 0, 5, 6, 0, 0⟩] := by rfl
  rw [hdef, hsucc]
  apply foldl_max_le
  intro x hx
  simp only [List.mem_cons, List.not_mem_nil, or_false] at hx
  rcases hx with rfl | rfl
  exacts [e32_1_bound_18, e32_1_bound_26]

theorem e32_1_bound_16 :
    bestGeodes example_blueprint_1 24 ⟨2, 2, 0, 0, 3, 1, 0, 0⟩ ≤ 56 := by
  have hdef : bestGeodes example_blueprint_1 24 ⟨2, 2, 0, 0, 3, 1, 0, 0⟩ =
      (successors example_blueprint_1 ⟨2, 2, 0, 0, 3, 1, 0, 0⟩).foldl
        (fun m r2 => max m (bestGeodes example_blueprint_1 23 r2)) 0 := rfl
  have hsucc : successors example_blueprint_1 ⟨2, 2, 0, 0, 3, 1, 0, 0⟩ =
      [⟨2, 3, 0, 0, 3, 3, 0, 0⟩, ⟨2, 2, 0, 0, 5, 3, 0, 0⟩] := by rfl
  rw [hdef, hsucc]
  apply foldl_max_le
  intro x hx
  simp only [List.mem_cons, List.not_mem_nil, or_false] at hx
  rcases hx with rfl | rfl
  exacts [e32_1_bound_17, e32_1_bound_27]

theorem e32_1_bound_15 :
    bestGeodes example_blueprint_1 25 ⟨2, 1, 0, 0, 3, 0, 0, 0⟩ ≤ 56 := by
  have hdef : bestGeodes example_blueprint_1 25 ⟨2, 1, 0, 0, 3, 0, 0, 0⟩ =
      (successors example_blueprint_1 ⟨2, 1, 0, 0, 3, 0, 0, 0⟩).foldl
        (fun m r2 => max m (bestGeodes example_blueprint_1 24 r2)) 0 := rfl
  have hsucc : successors example_blueprint_1 ⟨2, 1, 0, 0, 3, 0, 0, 0⟩ =
      [⟨2, 2, 0, 0, 3, 1, 0, 0⟩, ⟨2, 1, 0, 0, 5, 1, 0, 0⟩] := by rfl
  rw [hdef, hsucc]
  apply foldl_max_le
  intro x hx
  simp only [List.mem_cons, List.not_mem_nil, or_false] at hx
  rcases hx with rfl | rfl
  exacts [e32_1_bound_16, e32_1_bound_28]

theorem e32_1_bound_14 :
    bestGeodes example_blueprint_1 26 ⟨2, 0, 0, 0, 3, 0, 0, 0⟩ ≤ 56 := by
  have hdef : bestGeodes example_blueprint_1 26 ⟨2, 0, 0, 0, 3, 0, 0, 0⟩ =
      (successors example_blueprint_1 ⟨2, 0, 0, 0, 3, 0, 0, 0⟩).foldl
        (fun m r2 => max m (bestGeodes example_blueprint_1 25 r2)) 0 := rfl
  have hsucc : successors example_blueprint_1 ⟨2, 0, 0, 0, 3, 0, 0, 0⟩ =
      [⟨2, 1, 0, 0, 3, 0, 0, 0⟩, ⟨2, 0, 0, 0, 5, 0, 0, 0⟩] := by rfl
  rw [hdef, hsucc]
  apply foldl_max_le
  intro x hx
  simp only [List.mem_cons, List.not_mem_nil, or_false] at hx
  rcases hx with rfl | rfl
  exacts [e32_1_bound_15, e32_1_bound_29]

theorem e32_1_bound_13 :
    bestGeodes example_blueprint_1 27 ⟨2, 0, 0, 0, 1, 0, 0, 0⟩ ≤ 56 := by
  have hdef : bestGeodes example_blueprint_1 27 ⟨2, 0, 0, 0, 1, 0, 0, 0⟩ =
      (successors example_blueprint_1 ⟨2, 0, 0, 0, 1, 0, 0, 0⟩).foldl
        (fun m r2 => max m (bestGeodes example_blueprint_1 26 r2)) 0 := rfl
  have hsucc : successors example_blueprint_1 ⟨2, 0, 0, 0, 1, 0, 0, 0⟩ =
      [⟨2, 0, 0, 0, 3, 0, 0, 0⟩] := by rfl
  rw [hdef, hsucc]
  apply foldl_max_le
  intro x hx
  simp only [List.mem_cons, List.not_mem_nil, or_false] at hx
  rcases hx with rfl
  exacts [e32_1_bound_14]

set_option maxRecDepth 100000 in
set_option maxHeartbeats 400000000 in
theorem e32_1_eval_12 :
    prunedBest example_blueprint_1 56 27 ⟨1, 1, 0, 0, 3, 0, 0, 0⟩ = 0 := by
  rfl

theorem e32_1_bound_12 :
    bestGeodes example_blueprint_1 27 ⟨1, 1, 0, 0, 3, 0, 0, 0⟩ ≤ 56 := by
  have h := bestGeodes_le_pruned example_blueprint_1 56 27 ⟨1, 1, 0, 0, 3, 0, 0, 0⟩
  rw [e32_1_eval_12] at h
  omega

theorem e32_1_bound_11 :
    bestGeodes example_blueprint_1 28 ⟨1, 0, 0, 0, 4, 0, 0, 0⟩ ≤ 56 := by
  have hdef : bestGeodes example_blueprint_1 28 ⟨1, 0, 0, 0, 4, 0, 0, 0⟩ =
      (successors example_blueprint_1 ⟨1, 0, 0, 0, 4, 0, 0, 0⟩).foldl
        (fun m r2 => max m (bestGeodes example_blueprint_1 27 r2)) 0 := rfl
  have hsucc : successors example_blueprint_1 ⟨1, 0, 0, 0, 4, 0, 0, 0⟩ =
      [⟨1, 1, 0, 0, 3, 0, 0, 0⟩, ⟨2, 0, 0, 0, 1, 0, 0, 0⟩, ⟨1, 0, 0, 0, 5, 0, 0, 0⟩] := by rfl
  rw [hdef, hsucc]
  apply foldl_max_le
  intro x hx
  simp only [List.mem_cons, List.not_mem_nil, or_false] at hx
  rcases hx with rfl | rfl | rfl
  exacts [e32_1_bound_12, e32_1_bound_13, e32_1_bound_30]

set_option maxRecDepth 100000 in
set_option maxHeartbeats 400000000 in
theorem e32_1_eval_10 :
    prunedBest example_blueprint_1 56 27 ⟨1, 1, 0, 0, 3, 1, 0, 0⟩ = 0 := by
  rfl

theorem e32_1_bound_10 :
    bestGeodes example_blueprint_1 27 ⟨1, 1, 0, 0, 3, 1, 0, 0⟩ ≤ 56 := by
  have h := bestGeodes_le_pruned example_blueprint_1 56 27 ⟨1, 1, 0, 0, 3, 1, 0, 0⟩
  rw [e32_1_eval_10] at h
  omega

set_option maxRecDepth 100000 in
set_option maxHeartbeats 400000000 in
theorem e32_1_eval_9 :
    prunedBest example_blueprint_1 56 27 ⟨1, 2, 0, 0, 1, 1, 0, 0⟩ = 0 := by
  rfl

theorem e32_1_bound_9 :
    bestGeodes example_blueprint_1 27 ⟨1, 2, 0, 0, 1, 1, 0, 0⟩ ≤ 56 := by
  have h := bestGeodes_le_pruned example_blueprint_1 56 27 ⟨1, 2, 0, 0, 1, 1, 0, 0⟩
  rw [e32_1_eval_9] at h
  omega

theorem e32_1_bound_8 :
    bestGeodes example_blueprint_1 28 ⟨1, 1, 0, 0, 2, 0, 0, 0⟩ ≤ 56 := by
  have hdef : bestGeodes example_blueprint_1 28 ⟨1, 1, 0, 0, 2, 0, 0, 0⟩ =
      (successors example_blueprint_1 ⟨1, 1, 0, 0, 2, 0, 0, 0⟩).foldl
        (fun m r2 => max m (bestGeodes example_blueprint_1 27 r2)) 0 := rfl
  have hsucc : successors example_blueprint_1 ⟨1, 1, 0, 0, 2, 0, 0, 0⟩ =
      [⟨1, 2, 0, 0, 1, 1, 0, 0⟩, ⟨1, 1, 0, 0, 3, 1, 0, 0⟩] := by rfl
  rw [hdef, hsucc]
  apply foldl_max_le
  intro x hx
  simp only [List.mem_cons, List.not_mem_nil, or_false] at hx
  rcases hx with rfl | rfl
  exacts [e32_1_bound_9, e32_1_bound_10]

theorem e32_1_bound_7 :
    bestGeodes example_blueprint_1 29 ⟨1, 0, 0, 0, 3, 0, 0, 0⟩ ≤ 56 := by
  have hdef : bestGeodes example_blueprint_1 29 ⟨1, 0, 0, 0, 3, 0, 0, 0⟩ =
      (successors example_blueprint_1 ⟨1, 0, 0, 0, 3, 0, 0, 0⟩).foldl
        (fun m r2 => max m (bestGeodes example_blueprint_1 28 r2)) 0 := rfl
  have hsucc : successors example_blueprint_1 ⟨1, 0, 0, 0, 3, 0, 0, 0⟩ =
      [⟨1, 1, 0, 0, 2, 0, 0, 0⟩, ⟨1, 0, 0, 0, 4, 0, 0, 0⟩] := by rfl
  rw [hdef, hsucc]
  apply foldl_max_le
  intro x hx
  simp only [List.mem_cons, List.not_mem_nil, or_false] at hx
  rcases hx with rfl | rfl
  exacts [e32_1_bound_8, e32_1_bound_11]

set_option maxRecDepth 100000 in
set_option maxHeartbeats 400000000 in
theorem e32_1_eval_6 :
    prunedBest example_blueprint_1 56 27 ⟨1, 1, 0, 0, 3, 2, 0, 0⟩ = 0 := by
  rfl

theorem e32_1_bound_6 :
    bestGeodes example_blueprint_1 27 ⟨1, 1, 0, 0, 3, 2, 0, 0⟩ ≤ 56 := by
  have h := bestGeodes_le_pruned example_blueprint_1 56 27 ⟨1, 1, 0, 0, 3, 2, 0, 0⟩
  rw [e32_1_eval_6] at h
  omega

set_option maxRecDepth 100000 in
set_option maxHeartbeats 400000000 in
theorem e32_1_eval_5 :
    prunedBest example_blueprint_1 56 27 ⟨1, 2, 0, 0, 1, 2, 0, 0⟩ = 0 := by
  rfl

theorem e32_1_bound_5 :
    bestGeodes example_blueprint_1 27 ⟨1, 2, 0, 0, 1, 2, 0, 0⟩ ≤ 56 := by
  have h := bestGeodes_le_pruned example_blueprint_1 56 27 ⟨1, 2, 0, 0, 1, 2, 0, 0⟩
  rw [e32_1_eval_5] at h
  omega

theorem e32_1_bound_4 :
    bestGeodes example_blueprint_1 28 ⟨1, 1, 0, 0, 2, 1, 0, 0⟩ ≤ 56 := by
  have hdef : bestGeodes example_blueprint_1 28 ⟨1, 1, 0, 0, 2, 1, 0, 0⟩ =
      (successors example_blueprint_1 ⟨1, 1, 0, 0, 2, 1, 0, 0⟩).foldl
        (fun m r2 => max m (bestGeodes example_blueprint_1 27 r2)) 0 := rfl
  have hsucc : successors example_blueprint_1 ⟨1, 1, 0, 0, 2, 1, 0, 0⟩ =
      [⟨1, 2, 0, 0, 1, 2, 0, 0⟩, ⟨1, 1, 0, 0, 3, 2, 0, 0⟩] := by rfl
  rw [hdef, hsucc]
  apply foldl_max_le
  intro x hx
  simp only [List.mem_cons, List.not_mem_nil, or_false] at hx
  rcases hx with rfl | rfl
  exacts [e32_1_bound_5, e32_1_bound_6]

theorem e32_1_bound_3 :
    bestGeodes example_blueprint_1 29 ⟨1, 1, 0, 0, 1, 0, 0, 0⟩ ≤ 56 := by
  have hdef : bestGeodes example_blueprint_1 29 ⟨1, 1, 0, 0, 1, 0, 0, 0⟩ =
      (successors example_blueprint_1 ⟨1, 1, 0, 0, 1, 0, 0, 0⟩).foldl
        (fun m r2 => max m (bestGeodes example_blueprint_1 28 r2)) 0 := rfl
  have hsucc : successors example_blueprint_1 ⟨1, 1, 0, 0, 1, 0, 0, 0⟩ =
      [⟨1, 1, 0, 0, 2, 1, 0, 0⟩] := by rfl
  rw [hdef, hsucc]
  apply foldl_max_le
  intro x hx
  simp only [List.mem_cons, List.not_mem_nil, or_false] at hx
  rcases hx with rfl
  exacts [e32_1_bound_4]

theorem e32_1_bound_2 :
    bestGeodes example_blueprint_1 30 ⟨1, 0, 0, 0, 2, 0, 0, 0⟩ ≤ 56 := by
  have hdef : bestGeodes example_blueprint_1 30 ⟨1, 0, 0, 0, 2, 0, 0, 0⟩ =
      (successors example_blueprint_1 ⟨1, 0, 0, 0, 2, 0, 0, 0⟩).foldl
        (fun m r2 => max m (bestGeodes example_blueprint_1 29 r2)) 0 := rfl
  have hsucc : successors example_blueprint_1 ⟨1, 0, 0, 0, 2, 0, 0, 0⟩ =
      [⟨1, 1, 0, 0, 1, 0, 0, 0⟩, ⟨1, 0, 0, 0, 3, 0, 0, 0⟩] := by rfl
  rw [hdef, hsucc]
  apply foldl_max_le
  intro x hx
  simp only [List.mem_cons, List.not_mem_nil, or_false] at hx
  rcases hx with rfl | rfl
  exacts [e32_1_bound_3, e32_1_bound_7]

theorem e32_1_bound_1 :
    bestGeodes example_blueprint_1 31 ⟨1, 0, 0, 0, 1, 0, 0, 0⟩ ≤ 56 := by
  have hdef : bestGeodes example_blueprint_1 31 ⟨1, 0, 0, 0, 1, 0, 0, 0⟩ =
      (successors example_blueprint_1 ⟨1, 0, 0, 0, 1, 0, 0, 0⟩).foldl
        (fun m r2 => max m (bestGeodes example_blueprint_1 30 r2)) 0 := rfl
  have hsucc : successors example_blueprint_1 ⟨1, 0, 0, 0, 1, 0, 0, 0⟩ =
      [⟨1, 0, 0, 0, 2, 0, 0, 0⟩] := by rfl
  rw [hdef, hsucc]
  apply foldl_max_le
  intro x hx
  simp only [List.mem_cons, List.not_mem_nil, or_false] at hx
  rcases hx with rfl
  exacts [e32_1_bound_2]

theorem e32_1_bound_0 :
    bestGeodes example_blueprint_1 32 initial_state ≤ 56 := by
  have hdef : bestGeodes example_blueprint_1 32 initial_state =
      (successors example_blueprint_1 ⟨1, 0, 0, 0, 0, 0, 0, 0⟩).foldl
        (fun m r2 => max m (bestGeodes example_blueprint_1 31 r2)) 0 := rfl
  have hsucc : successors example_blueprint_1 ⟨1, 0, 0, 0, 0, 0, 0, 0⟩ =
      [⟨1, 0, 0, 0, 1, 0, 0, 0⟩] := by rfl
  rw [hdef, hsucc]
  apply foldl_max_le
  intro x hx
  simp only [List.mem_cons, List.not_mem_nil, or_false] at hx
  rcases hx with rfl
  exacts [e32_1_bound_1]

set_option maxRecDepth 100000 in
set_option maxHeartbeats 400000000 in
theorem e32_2_eval_21 :
    prunedBest example_blueprint_2 62 29 ⟨1, 0, 0, 0, 3, 0, 0, 0⟩ = 0 := by
  rfl

theorem e32_2_bound_21 :
    bestGeodes example_blueprint_2 29 ⟨1, 0, 0, 0, 3, 0, 0, 0⟩ ≤ 62 := by
  have h := bestGeodes_le_pruned example_blueprint_2 62 29 ⟨1, 0, 0, 0, 3, 0, 0, 0⟩
  rw [e32_2_eval_21] at h
  omega

set_option maxRecDepth 100000 in
set_option maxHeartbeats 400000000 in
theorem e32_2_eval_20 :
    prunedBest example_blueprint_2 62 27 ⟨2, 0, 0, 0, 5, 0, 0, 0⟩ = 0 := by
  rfl

theorem e32_2_bound_20 :
    bestGeodes example_blueprint_2 27 ⟨2, 0, 0, 0, 5, 0, 0, 0⟩ ≤ 62 := by
  have h := bestGeodes_le_pruned example_blueprint_2 62 27 ⟨2, 0, 0, 0, 5, 0, 0, 0⟩
  rw [e32_2_eval_20] at h
  omega

set_option maxRecDepth 100000 in
set_option maxHeartbeats 400000000 in
theorem e32_2_eval_19 :
    prunedBest example_blueprint_2 62 26 ⟨3, 0, 0, 0, 6, 0, 0, 0⟩ = 0 := by
  rfl

theorem e32_2_bound_19 :
    bestGeodes example_blueprint_2 26 ⟨3, 0, 0, 0, 6, 0, 0, 0⟩ ≤ 62 := by
  have h := bestGeodes_le_pruned example_blueprint_2 62 26 ⟨3, 0, 0, 0, 6, 0, 0, 0⟩
  rw [e32_2_eval_19] at h
  omega

set_option maxRecDepth 100000 in
set_option maxHeartbeats 400000000 in
theorem e32_2_eval_18 :
    prunedBest example_blueprint_2 62 25 ⟨3, 1, 0, 0, 6, 1, 0, 0⟩ = 0 := by
  rfl

theorem e32_2_bound_18 :
    bestGeodes example_blueprint_2 25 ⟨3, 1, 0, 0, 6, 1, 0, 0⟩ ≤ 62 := by
  have h := bestGeodes_le_pruned example_blueprint_2 62 25 ⟨3, 1, 0, 0, 6, 1, 0, 0⟩
  rw [e32_2_eval_18] at h
  omega

set_option maxRecDepth 100000 in
set_option maxHeartbeats 400000000 in
theorem e32_2_eval_17 :
    prunedBest example_blueprint_2 62 24 ⟨3, 2, 0, 0, 6, 3, 0, 0⟩ = 0 := by
  rfl

theorem e32_2_bound_17 :
    bestGeodes example_blueprint_2 24 ⟨3, 2, 0, 0, 6, 3, 0, 0⟩ ≤ 62 := by
  have h := bestGeodes_le_pruned example_blueprint_2 62 24 ⟨3, 2, 0, 0, 6, 3, 0, 0⟩
  rw [e32_2_eval_17] at h
  omega

set_option maxRecDepth 100000 in
set_option maxHeartbeats 400000000 in
theorem e32_2_eval_16 :
    prunedBest example_blueprint_2 62 23 ⟨3, 3, 0, 0, 6, 6, 0, 0⟩ = 0 := by
  rfl

theorem e32_2_bound_16 :
    bestGeodes example_blueprint_2 23 ⟨3, 3, 0, 0, 6, 6, 0, 0⟩ ≤ 62 := by
  have h := bestGeodes_le_pruned example_blueprint_2 62 23 ⟨3, 3, 0, 0, 6, 6, 0, 0⟩
  rw [e32_2_eval_16] at h
  omega

set_option maxRecDepth 100000 in
set_option maxHeartbeats 400000000 in
theorem e32_2_eval_15 :
    prunedBest example_blueprint_2 62 22 ⟨3, 4, 0, 0, 6, 10, 0, 0⟩ = 0 := by
  rfl

theorem e32_2_bound_15 :
    bestGeodes example_blueprint_2 22 ⟨3, 4, 0, 0, 6, 10, 0, 0⟩ ≤ 62 := by
  have h := bestGeodes_le_pruned example_blueprint_2 62 22 ⟨3, 4, 0, 0, 6, 10, 0, 0⟩
  rw [e32_2_eval_15] at h
  omega

set_option maxRecDepth 100000 in
set_option maxHeartbeats 400000000 in
theorem e32_2_eval_14 :
    prunedBest example_blueprint_2 62 21 ⟨3, 5, 0, 0, 6, 15, 0, 0⟩ = 0 := by
  rfl

theorem e32_2_bound_14 :
    bestGeodes example_blueprint_2 21 ⟨3, 5, 0, 0, 6, 15, 0, 0⟩ ≤ 62 := by
  have h := bestGeodes_le_pruned example_blueprint_2 62 21 ⟨3, 5, 0, 0, 6, 15, 0, 0⟩
  rw [e32_2_eval_14] at h
  omega

set_option maxRecDepth 100000 in
set_option maxHeartbeats 400000000 in
theorem e32_2_eval_13 :
    prunedBest example_blueprint_2 62 21 ⟨3, 6, 0, 0, 3, 15, 0, 0⟩ = 0 := by
  rfl

theorem e32_2_bound_13 :
    bestGeodes example_blueprint_2 21 ⟨3, 6, 0, 0, 3, 15, 0, 0⟩ ≤ 62 := by
  have h := bestGeodes_le_pruned example_blueprint_2 62 21 ⟨3, 6, 0, 0, 3, 15, 0, 0⟩
  rw [e32_2_eval_13] at h
  omega

set_option maxRecDepth 100000 in
set_option maxHeartbeats 400000000 in
theorem e32_2_eval_12 :
    prunedBest example_blueprint_2 62 21 ⟨3, 5, 1, 0, 3, 7, 0, 0⟩ = 0 := by
  rfl

theorem e32_2_bound_12 :
    bestGeodes example_blueprint_2 21 ⟨3, 5, 1, 0, 3, 7, 0, 0⟩ ≤ 62 := by
  have h := bestGeodes_le_pruned example_blueprint_2 62 21 ⟨3, 5, 1, 0, 3, 7, 0, 0⟩
  rw [e32_2_eval_12] at h
  omega

theorem e32_2_bound_11 :
    bestGeodes example_blueprint_2 22 ⟨3, 5, 0, 0, 3, 10, 0, 0⟩ ≤ 62 := by
  have hdef : bestGeodes example_blueprint_2 22 ⟨3, 5, 0, 0, 3, 10, 0, 0⟩ =
      (successors example_blueprint_2 ⟨3, 5, 0, 0, 3, 10, 0, 0⟩).foldl
        (fun m r2 => max m (bestGeodes example_blueprint_2 21 r2)) 0 := rfl
  have hsucc : successors example_blueprint_2 ⟨3, 5, 0, 0, 3, 10, 0, 0⟩ =
      [⟨3, 5, 1, 0, 3, 7, 0, 0⟩, ⟨3, 6, 0, 0, 3, 15, 0, 0⟩, ⟨3, 5, 0, 0, 6, 15, 0, 0⟩] := by rfl
  rw [hdef, hsucc]
  apply foldl_max_le
  intro x hx
  simp only [List.mem_cons, List.not_mem_nil, or_false] at hx
  rcases hx with rfl | rfl | rfl
  exacts [e32_2_bound_12, e32_2_bound_13, e32_2_bound_14]

theorem e32_2_bound_10 :
    bestGeodes example_blueprint_2 23 ⟨3, 4, 0, 0, 3, 6, 0, 0⟩ ≤ 62 := by
  have hdef : bestGeodes example_blueprint_2 23 ⟨3, 4, 0, 0, 3, 6, 0, 0⟩ =
      (successors example_blueprint_2 ⟨3, 4, 0, 0, 3, 6, 0, 0⟩).foldl
        (fun m r2 => max m (bestGeodes example_blueprint_2 22 r2)) 0 := rfl
  have hsucc : successors example_blueprint_2 ⟨3, 4, 0, 0, 3, 6, 0, 0⟩ =
      [⟨3, 5, 0, 0, 3, 10, 0, 0⟩, ⟨3, 4, 0, 0, 6, 10, 0, 0⟩] := by rfl
  rw [hdef, hsucc]
  apply foldl_max_le
  intro x hx
  simp only [List.mem_cons, List.not_mem_nil, or_false] at hx
  rcases hx with rfl | rfl
  exacts [e32_2_bound_11, e32_2_bound_15]

theorem e32_2_bound_9 :
    bestGeodes example_blueprint_2 24 ⟨3, 3, 0, 0, 3, 3, 0, 0⟩ ≤ 62 := by
  have hdef : bestGeodes example_blueprint_2 24 ⟨3, 3, 0, 0, 3, 3, 0, 0⟩ =
      (successors example_blueprint_2 ⟨3, 3, 0, 0, 3, 3, 0, 0⟩).foldl
        (fun m r2 => max m (bestGeodes example_blueprint_2 23 r2)) 0 := rfl
  have hsucc : successors example_blueprint_2 ⟨3, 3, 0, 0, 3, 3, 0, 0⟩ =
      [⟨3, 4, 0, 0, 3, 6, 0, 0⟩, ⟨3, 3, 0, 0, 6, 6, 0, 0⟩] := by rfl
  rw [hdef, hsucc]
  apply foldl_max_le
  intro x hx
  simp only [List.mem_cons, List.not_mem_nil, or_false] at hx
  rcases hx with rfl | rfl
  exacts [e32_2_bound_10, e32_2_bound_16]

theorem e32_2_bound_8 :
    bestGeodes example_blueprint_2 25 ⟨3, 2, 0, 0, 3, 1, 0, 0⟩ ≤ 62 := by
  have hdef : bestGeodes example_blueprint_2 25 ⟨3, 2, 0, 0, 3, 1, 0, 0⟩ =
      (successors example_blueprint_2 ⟨3, 2, 0, 0, 3, 1, 0, 0⟩).foldl
        (fun m r2 => max m (bestGeodes example_blueprint_2 24 r2)) 0 := rfl
  have hsucc : successors example_blueprint_2 ⟨3, 2, 0, 0, 3, 1, 0, 0⟩ =
      [⟨3, 3, 0, 0, 3, 3, 0, 0⟩, ⟨3, 2, 0, 0, 6, 3, 0, 0⟩] := by rfl
  rw [hdef, hsucc]
  apply foldl_max_le
  intro x hx
  simp only [List.mem_cons, List.not_mem_nil, or_false] at hx
  rcases hx with rfl | rfl
  exacts [e32_2_bound_9, e32_2_bound_17]

theorem e32_2_bound_7 :
    bestGeodes example_blueprint_2 26 ⟨3, 1, 0, 0, 3, 0, 0, 0⟩ ≤ 62 := by
  have hdef : bestGeodes example_blueprint_2 26 ⟨3, 1, 0, 0, 3, 0, 0, 0⟩ =
      (successors example_blueprint_2 ⟨3, 1, 0, 0, 3, 0, 0, 0⟩).foldl
        (fun m r2 => max m (bestGeodes example_blueprint_2 25 r2)) 0 := rfl
  have hsucc : successors example_blueprint_2 ⟨3, 1, 0, 0, 3, 0, 0, 0⟩ =
      [⟨3, 2, 0, 0, 3, 1, 0, 0⟩, ⟨3, 1, 0, 0, 6, 1, 0, 0⟩] := by rfl
  rw [hdef, hsucc]
  apply foldl_max_le
  intro x hx
  simp only [List.mem_cons, List.not_mem_nil, or_false] at hx
  rcases hx with rfl | rfl
  exacts [e32_2_bound_8, e32_2_bound_18]

theorem e32_2_bound_6 :
    bestGeodes example_blueprint_2 27 ⟨3, 0, 0, 0, 3, 0, 0, 0⟩ ≤ 62 := by
  have hdef : bestGeodes example_blueprint_2 27 ⟨3, 0, 0, 0, 3, 0, 0, 0⟩ =
      (successors example_blueprint_2 ⟨3, 0, 0, 0, 3, 0, 0, 0⟩).foldl
        (fun m r2 => max m (bestGeodes example_blueprint_2 26 r2)) 0 := rfl
  have hsucc : successors example_blueprint_2 ⟨3, 0, 0, 0, 3, 0, 0, 0⟩ =
      [⟨3, 1, 0, 0, 3, 0, 0, 0⟩, ⟨3, 0, 0, 0, 6, 0, 0, 0⟩] := by rfl
  rw [hdef, hsucc]
  apply foldl_max_le
  intro x hx
  simp only [List.mem_cons, List.not_mem_nil, or_false] at hx
  rcases hx with rfl | rfl
  exacts [e32_2_bound_7, e32_2_bound_19]

set_option maxRecDepth 100000 in
set_option maxHeartbeats 400000000 in
theorem e32_2_eval_5 :
    prunedBest example_blueprint_2 62 27 ⟨2, 1, 0, 0, 2, 0, 0, 0⟩ = 0 := by
  rfl

theorem e32_2_bound_5 :
    bestGeodes example_blueprint_2 27 ⟨2, 1, 0, 0, 2, 0, 0, 0⟩ ≤ 62 := by
  have h := bestGeodes_le_pruned example_blueprint_2 62 27 ⟨2, 1, 0, 0, 2, 0, 0, 0⟩
  rw [e32_2_eval_5] at h
  omega

theorem e32_2_bound_4 :
    bestGeodes example_blueprint_2 28 ⟨2, 0, 0, 0, 3, 0, 0, 0⟩ ≤ 62 := by
  have hdef : bestGeodes example_blueprint_2 28 ⟨2, 0, 0, 0, 3, 0, 0, 0⟩ =
      (successors example_blueprint_2 ⟨2, 0, 0, 0, 3, 0, 0, 0⟩).foldl
        (fun m r2 => max m (bestGeodes example_blueprint_2 27 r2)) 0 := rfl
  have hsucc : successors example_blueprint_2 ⟨2, 0, 0, 0, 3, 0, 0, 0⟩ =
      [⟨2, 1, 0, 0, 2, 0, 0, 0⟩, ⟨3, 0, 0, 0, 3, 0, 0, 0⟩, ⟨2, 0, 0, 0, 5, 0, 0, 0⟩] := by rfl
  rw [hdef, hsucc]
  apply foldl_max_le
  intro x hx
  simp only [List.mem_cons, List.not_mem_nil, or_false] at hx
  rcases hx with rfl | rfl | rfl
  exacts [e32_2_bound_5, e32_2_bound_6, e32_2_bound_20]

theorem e32_2_bound_3 :
    bestGeodes example_blueprint_2 29 ⟨2, 0, 0, 0, 1, 0, 0, 0⟩ ≤ 62 := by
  have hdef : bestGeodes example_blueprint_2 29 ⟨2, 0, 0, 0, 1, 0, 0, 0⟩ =
      (successors example_blueprint_2 ⟨2, 0, 0, 0, 1, 0, 0, 0⟩).foldl
        (fun m r2 => max m (bestGeodes example_blueprint_2 28 r2)) 0 := rfl
  have hsucc : successors example_blueprint_2 ⟨2, 0, 0, 0, 1, 0, 0, 0⟩ =
      [⟨2, 0, 0, 0, 3, 0, 0, 0⟩] := by rfl
  rw [hdef, hsucc]
  apply foldl_max_le
  intro x hx
  simp only [List.mem_cons, List.not_mem_nil, or_false] at hx
  rcases hx with rfl
  exacts [e32_2_bound_4]

theorem e32_2_bound_2 :
    bestGeodes example_blueprint_2 30 ⟨1, 0, 0, 0, 2, 0, 0, 0⟩ ≤ 62 := by
  have hdef : bestGeodes example_blueprint_2 30 ⟨1, 0, 0, 0, 2, 0, 0, 0⟩ =
      (successors example_blueprint_2 ⟨1, 0, 0, 0, 2, 0, 0, 0⟩).foldl
        (fun m r2 => max m (bestGeodes example_blueprint_2 29 r2)) 0 := rfl
  have hsucc : successors example_blueprint_2 ⟨1, 0, 0, 0, 2, 0, 0, 0⟩ =
      [⟨2, 0, 0, 0, 1, 0, 0, 0⟩, ⟨1, 0, 0, 0, 3, 0, 0, 0⟩] := by rfl
  rw [hdef, hsucc]
  apply foldl_max_le
  intro x hx
  simp only [List.mem_cons, List.not_mem_nil, or_false] at hx
  rcases hx with rfl | rfl
  exacts [e32_2_bound_3, e32_2_bound_21]

theorem e32_2_bound_1 :
    bestGeodes example_blueprint_2 31 ⟨1, 0, 0, 0, 1, 0, 0, 0⟩ ≤ 62 := by
  have hdef : bestGeodes example_blueprint_2 31 ⟨1, 0, 0, 0, 1, 0, 0, 0⟩ =
      (successors example_blueprint_2 ⟨1, 0, 0, 0, 1, 0, 0, 0⟩).foldl
        (fun m r2 => max m (bestGeodes example_blueprint_2 30 r2)) 0 := rfl
  have hsucc : successors example_blueprint_2 ⟨1, 0, 0, 0, 1, 0, 0, 0⟩ =
      [⟨1, 0, 0, 0, 2, 0, 0, 0⟩] := by rfl
  rw [hdef, hsucc]
  apply foldl_max_le
  intro x hx
  simp only [List.mem_cons, List.not_mem_nil, or_false] at hx
  rcases hx with rfl
  exacts [e32_2_bound_2]

theorem e32_2_bound_0 :
    bestGeodes example_blueprint_2 32 initial_state ≤ 62 := by
  have hdef : bestGeodes example_blueprint_2 32 initial_state =
      (successors example_blueprint_2 ⟨1, 0, 0, 0, 0, 0, 0, 0⟩).foldl
        (fun m r2 => max m (bestGeodes example_blueprint_2 31 r2)) 0 := rfl
  have hsucc : successors example_blueprint_2 ⟨1, 0, 0, 0, 0, 0, 0, 0⟩ =
      [⟨1, 0, 0, 0, 1, 0, 0, 0⟩] := by rfl
  rw [hdef, hsucc]
  apply foldl_max_le
  intro x hx
  simp only [List.mem_cons, List.not_mem_nil, or_false] at hx
  rcases hx with rfl
  exacts [e32_2_bound_1]

set_option maxRecDepth 100000 in
set_option maxHeartbeats 400000000 in
theorem schedule_eval_1_24 :
    (runActions example_blueprint_1 schedule_1_24 initial_state).map
      Resources.geodes = some 9 := by
  rfl

set_option maxRecDepth 100000 in
set_option maxHeartbeats 400000000 in
theorem schedule_eval_2_24 :
    (runActions example_blueprint_2 schedule_2_24 initial_state).map
      Resources.geodes = some 12 := by
  rfl

set_option maxRecDepth 100000 in
set_option maxHeartbeats 400000000 in
theorem schedule_eval_1_32 :
    (runActions example_blueprint_1 schedule_1_32 initial_state).map
      Resources.geodes = some 56 := by
  rfl

set_option maxRecDepth 100000 in
set_option maxHeartbeats 400000000 in
theorem schedule_eval_2_32 :
    (runActions example_blueprint_2 schedule_2_32 initial_state).map
      Resources.geodes = some 62 := by
  rfl

theorem bestGeodes_1_24 : bestGeodes example_blueprint_1 24 initial_state = 9 := by
  apply Nat.le_antisymm
  · have h := bestGeodes_le_pruned example_blueprint_1 9 24 initial_state
    rw [prunedBest_eval_1_24] at h
    omega
  · cases hr : runActions example_blueprint_1 schedule_1_24 initial_state with
    | none =>
      have hs := schedule_eval_1_24
      rw [hr] at hs
      cases hs
    | some rf =>
      have hs := schedule_eval_1_24
      rw [hr] at hs
      have hg : rf.geodes = 9 := Option.some.inj hs
      have hlb := runActions_le_best example_blueprint_1 schedule_1_24
        initial_state rf hr
      have hlen : schedule_1_24.length = 24 := rfl
      rw [hlen] at hlb
      omega

theorem bestGeodes_2_24 : bestGeodes example_blueprint_2 24 initial_state = 12 := by
  apply Nat.le_antisymm
  · have h := bestGeodes_le_pruned example_blueprint_2 12 24 initial_state
    rw [prunedBest_eval_2_24] at h
    omega
  · cases hr : runActions example_blueprint_2 schedule_2_24 initial_state with
    | none =>
      have hs := schedule_eval_2_24
      rw [hr] at hs
      cases hs
    | some rf =>
      have hs := schedule_eval_2_24
      rw [hr] at hs
      have hg : rf.geodes = 12 := Option.some.inj hs
      have hlb := runActions_le_best example_blueprint_2 schedule_2_24
        initial_state rf hr
      have hlen : schedule_2_24.length = 24 := rfl
      rw [hlen] at hlb
      omega

theorem bestGeodes_1_32 : bestGeodes example_blueprint_1 32 initial_state = 56 := by
  apply Nat.le_antisymm
  · exact e32_1_bound_0
  · cases hr : runActions example_blueprint_1 schedule_1_32 initial_state with
    | none =>
      have hs := schedule_eval_1_32
      rw [hr] at hs
      cases hs
    | some rf =>
      have hs := schedule_eval_1_32
      rw [hr] at hs
      have hg : rf.geodes = 56 := Option.some.inj hs
      have hlb := runActions_le_best example_blueprint_1 schedule_1_32
        initial_state rf hr
      have hlen : schedule_1_32.length = 32 := rfl
      rw [hlen] at hlb
      omega

theorem bestGeodes_2_32 : bestGeodes example_blueprint_2 32 initial_state = 62 := by
  apply Nat.le_antisymm
  · exact e32_2_bound_0
  · cases hr : runActions example_blueprint_2 schedule_2_32 initial_state with
    | none =>
      have hs := schedule_eval_2_32
      rw [hr] at hs
      cases hs
    | some rf =>
      have hs := schedule_eval_2_32
      rw [hr] at hs
      have hg : rf.geodes = 62 := Option.some.inj hs
      have hlb := runActions_le_best example_blueprint_2 schedule_2_32
        initial_state rf hr
      have hlen : schedule_2_32.length = 32 := rfl
      rw [hlen] at hlb
      omega

/-- `part_a` sums `id * find_max_geodes(bp, 24)` over the blueprints; `none`
propagates fuel exhaustion (which never occurs, by `runPlans_total`). -/
def part_a : List Blueprint → Option Nat
  | [] => some 0
  | bp :: rest =>
    match find_max_geodes bp 24, part_a rest with
    | some v, some s => some (bp.id * v + s)
    | _, _ => none

def part_b_product : List Blueprint → Option Nat
  | [] => some 1
  | bp :: rest =>
    match find_max_geodes bp 32, part_b_product rest with
    | some v, some p => some (v * p)
    | _, _ => none

/-- `part_b` multiplies `find_max_geodes(bp, 32)` over the first three
blueprints. -/
def part_b (blueprints : List Blueprint) : Option Nat :=
  part_b_product (blueprints.take 3)

/-- C3: the branch-and-bound optimization search `find_max_geodes` returns the
same answer with the pruning test removed, for every blueprint and time budget;
and on the two documented example blueprints the day-19 searches compute
`part_a = 33` (24 minutes) and `part_b = 3472` (32 minutes). -/
theorem c3_pruning_invariant :
    (∀ (bp : Blueprint) (time_limit : Nat),
        find_max_geodes bp time_limit = find_max_geodes_no_prune bp time_limit) ∧
    part_a [example_blueprint_1, example_blueprint_2] = some 33 ∧
    part_b [example_blueprint_1, example_blueprint_2] = some 3472 := by
  refine ⟨?_, ?_, ?_⟩
  · intro bp t
    rw [find_max_geodes_eq_best, find_max_geodes_no_prune_eq_best]
  · have h1 : find_max_geodes example_blueprint_1 24 = some 9 := by
      rw [find_max_geodes_eq_best, bestGeodes_1_24]
    have h2 : find_max_geodes example_blueprint_2 24 = some 12 := by
      rw [find_max_geodes_eq_best, bestGeodes_2_24]
    rw [part_a, part_a, part_a, h1, h2]
    rfl
  · have h1 : find_max_geodes example_blueprint_1 32 = some 56 := by
      rw [find_max_geodes_eq_best, bestGeodes_1_32]
    have h2 : find_max_geodes example_blueprint_2 32 = some 62 := by
      rw [find_max_geodes_eq_best, bestGeodes_2_32]
    rw [part_b]
    rw [show ([example_blueprint_1, example_blueprint_2].take 3) =
      [example_blueprint_1, example_blueprint_2] from rfl]
    rw [part_b_product, part_b_product, part_b_product, h1, h2]

end Day19
